import Mathlib

/-!
# Axis reduction kernels (`reduction_ops.cc`)

A shallow embedding of `ReduceKernel::PrepareForReduce` and of the three
`Compute` bodies (`ReduceL1`, `ReduceL2`, `ReduceProd`) that consume it.

Conventions of the embedding.

* A tensor is its dimension vector together with its row-major buffer.
* Element values are taken in exact arithmetic: the kernels are generic in an
  ordered commutative ring `α` instead of `float`.
* Sizes, strides and offsets are natural numbers, and so are the counters
  that range over the axes of a tensor; the two reference parameters
  `block_size` and `blocks` are integers (`int64_t`), and the one narrowing
  conversion of the source, `blocks = (int)count`, is `toInt32`.
* The `int` counters of the `Compute` loops run up to `block_size` and
  `blocks`; `intLoop` makes a bound above `INT_MAX` the error `intOverflow`.
* The four reference parameters of `PrepareForReduce` form a `ReduceState`.
  The function returns the error it raised, if any, together with the state
  it leaves behind, so that what a failing call touched can be stated.
* Undefined behaviour of the source is a `ReduceError`: a `memcpy` or element
  copy that leaves a buffer, an integer division by zero, the use of the
  `Tensor*` that was never assigned, and the overflow of an `int` counter.

Three smaller embeddings follow the reduction kernels: `CastMap::ComputeImpl`
(`cast_map.cc`), the slice addressing of `LpNorm` (`lp_norm .cc`), and the
functions `CompareFloatResult` and `AreShapesEqual` of the comparison
utilities (`compare_mlvalue.cc`).
-/

namespace Lotus

/-- The ways a reduction can fail. `axisOutOfRange` is the `LOTUS_ENFORCE` of
`PrepareForReduce`; the other four stand for undefined behaviour. -/
inductive ReduceError where
  | axisOutOfRange
  | outOfBounds
  | divideByZero
  | unsetOutput
  | intOverflow
  deriving DecidableEq, Repr

/-- Equality of results is decidable, so that concrete runs can be evaluated. -/
instance instDecidableEqExcept {ε β : Type} [DecidableEq ε] [DecidableEq β] :
    DecidableEq (Except ε β) := fun a b =>
  match a, b with
  | .ok x, .ok y =>
    if h : x = y then isTrue (by rw [h]) else isFalse (fun h' => h (by cases h'; rfl))
  | .error x, .error y =>
    if h : x = y then isTrue (by rw [h]) else isFalse (fun h' => h (by cases h'; rfl))
  | .ok _, .error _ => isFalse (fun h' => by cases h')
  | .error _, .ok _ => isFalse (fun h' => by cases h')

/-- A dense tensor: `Shape().GetDims()` and the row-major buffer behind `Data<float>()`. -/
structure Tensor (α : Type) where
  dims : List Nat
  data : List α
  deriving DecidableEq, Repr

/-- The element count `Shape().Size()`: the product of the dimension sizes. -/
def Tensor.Size {α : Type} (t : Tensor α) : Nat := t.dims.prod

/-- A dense tensor owns exactly `Size()` elements. -/
def Tensor.WellFormed {α : Type} (t : Tensor α) : Prop := t.data.length = t.Size

instance {α : Type} (t : Tensor α) : Decidable t.WellFormed := by
  unfold Tensor.WellFormed; infer_instance

/-- The reference parameters of `PrepareForReduce`: the scratch vector, the
`Tensor*` behind `reducedTensor` (`none` while nothing was assigned to it, else
the shape handed to `ctx->Output`), `block_size` and `blocks`. -/
structure ReduceState (α : Type) where
  transposedInputData : List α
  reducedTensor : Option (List Nat)
  block_size : Int
  blocks : Int
  deriving DecidableEq, Repr

/-- The conversion `(int)count` of a `size_t`: reduction modulo `2^32` into the
signed 32-bit range. -/
def toInt32 (n : Nat) : Int := ((n + 2 ^ 31) % 2 ^ 32 : Nat) - 2 ^ 31

/-- The range check of lines 34-36: every listed axis lies in `[0, ndim)`. -/
def axesInRange (ndim : Nat) (axes_ : List Int) : Bool :=
  axes_.all fun a => decide (0 ≤ a ∧ a < (ndim : Int))

/-- Lines 40-41: the copy of `axes_`, sorted ascending, held as indices. -/
def sortedAxes (axes_ : List Int) : List Nat :=
  (axes_.insertionSort (· ≤ ·)).map Int.toNat

/-- Lines 43-46: the mask `keep_axis`, all true, cleared at every listed axis. -/
def keep_axis (ndim : Nat) (axes : List Nat) : List Bool :=
  axes.foldl (fun keep i => keep.set i false) (List.replicate ndim true)

/-- Lines 49-54: `transposed_axes` starts as the sorted axes; the loop over
`i < ndim` then pushes every `i` whose `keep_axis[i]` is still set. -/
def transposed_axes (ndim : Nat) (axes_ : List Int) : List Nat :=
  (List.range ndim).foldl
    (fun acc i => if (keep_axis ndim (sortedAxes axes_)).getD i true then acc ++ [i] else acc)
    (sortedAxes axes_)

/-- Lines 56-59: `new_dims_[i] = dims.at(transposed_axes[i])`. -/
def new_dims_ (in_dims : List Nat) (transposed : List Nat) : List Nat :=
  transposed.map fun a => in_dims.getD a 0

/-- Lines 65-74: the backward scan for the positions the permutation leaves in
place. The first argument is `i + 1` for the loop variable `i`; the pair is
`(blocksize, n_shared_idxs)`. -/
def sharedLoop (transposed new_dims : List Nat) : Nat → Nat × Nat → Nat × Nat
  | 0, acc => acc
  | i + 1, (blocksize, n_shared_idxs) =>
    if transposed.getD i 0 = i then
      sharedLoop transposed new_dims i (blocksize * new_dims.getD i 0, n_shared_idxs + 1)
    else (blocksize, n_shared_idxs)

/-- Lines 90-96: `stride_x[i]` is the product of `in_dims[j]` for
`transposed_axes[i] < j < itr_axes`. -/
def stride_x (transposed in_dims : List Nat) (itr_axes : Nat) : List Nat :=
  (List.range itr_axes).map fun i =>
    ((List.range' (transposed.getD i 0 + 1) (itr_axes - (transposed.getD i 0 + 1))).map
      fun j => in_dims.getD j 0).prod

/-- Lines 103-106: `from_index = Σ stride_x[i] * itr_idxs[i]` over `i < itr_axes`. -/
def from_index (strides itr_idxs : List Nat) (itr_axes : Nat) : Nat :=
  (List.range itr_axes).foldl
    (fun acc i => acc + strides.getD i 0 * itr_idxs.getD i 0) 0

/-- Lines 114-121: the carry loop of the odometer. The first argument is the
loop variable `i`; the loop stops at `i = 0` or at the first digit in range. -/
def carryLoop (new_dims : List Nat) : Nat → List Nat → List Nat
  | 0, itr_idxs => itr_idxs
  | i + 1, itr_idxs =>
    let expected_dim := new_dims.getD (i + 1) 0
    if itr_idxs.getD (i + 1) 0 < expected_dim then itr_idxs
    else
      carryLoop new_dims i
        ((itr_idxs.set (i + 1) (itr_idxs.getD (i + 1) 0 % expected_dim)).set i
          ((itr_idxs.set (i + 1) (itr_idxs.getD (i + 1) 0 % expected_dim)).getD i 0 + 1))

/-- Lines 113-121: `++itr_idxs[itr_axes - 1]` followed by the carry loop. -/
def advance (new_dims : List Nat) (itr_axes : Nat) (itr_idxs : List Nat) : List Nat :=
  carryLoop new_dims (itr_axes - 1)
    (itr_idxs.set (itr_axes - 1) (itr_idxs.getD (itr_axes - 1) 0 + 1))

/-- The call `memcpy(to_data + dst, from_data + src, n * sizeof(float))`; leaving
either buffer is undefined in the source. -/
def memcpy {α : Type} (to_data : List α) (dst : Nat) (from_data : List α) (src n : Nat) :
    Except ReduceError (List α) :=
  if src + n ≤ from_data.length ∧ dst + n ≤ to_data.length then
    .ok (to_data.take dst ++ ((from_data.drop src).take n ++ to_data.drop (dst + n)))
  else .error .outOfBounds

/-- Lines 102-122: the block-copy loop, `n` iterations from `index` on. -/
def blockCopyLoop {α : Type} (from_data : List α) (blocksize : Nat)
    (strides new_dims : List Nat) (itr_axes : Nat) :
    Nat → Nat → List Nat → List α → Except ReduceError (List α)
  | 0, _, _, to_data => .ok to_data
  | n + 1, index, itr_idxs, to_data =>
    match memcpy to_data (blocksize * index) from_data
        (blocksize * from_index strides itr_idxs itr_axes) blocksize with
    | .error e => .error e
    | .ok to_data1 =>
      blockCopyLoop from_data blocksize strides new_dims itr_axes n (index + 1)
        (advance new_dims itr_axes itr_idxs) to_data1

/-- Lines 124-141: the single-element loop, `n` iterations from `index` on. -/
def elementCopyLoop {α : Type} (from_data : List α)
    (strides new_dims : List Nat) (itr_axes : Nat) :
    Nat → Nat → List Nat → List α → Except ReduceError (List α)
  | 0, _, _, to_data => .ok to_data
  | n + 1, index, itr_idxs, to_data =>
    match from_data.get? (from_index strides itr_idxs itr_axes) with
    | none => .error .outOfBounds
    | some x =>
      if index < to_data.length then
        elementCopyLoop from_data strides new_dims itr_axes n (index + 1)
          (advance new_dims itr_axes itr_idxs) (to_data.set index x)
      else .error .outOfBounds

/-- Lines 145-156: the loop that multiplies the reduced sizes into `first_dim`
and collects `reduced_dims`. -/
def reducedDimsLoop (in_dims : List Nat) (keep : List Bool) (keepdims_ : Bool) :
    Nat × List Nat :=
  (List.range in_dims.length).foldl
    (fun acc i =>
      if keep.getD i true then (acc.1, acc.2 ++ [in_dims.getD i 0])
      else (acc.1 * in_dims.getD i 0, if keepdims_ then acc.2 ++ [1] else acc.2))
    (1, [])

/-- The method `std::vector::resize(n, 0)`. -/
def resize {α : Type} [Zero α] (v : List α) (n : Nat) : List α :=
  v.take n ++ List.replicate (n - v.length) 0

/-- Lines 87-142 of `PrepareForReduce`: the strided gather of the general path
into the scratch buffer `to_data`. `count` is the element count of the input. -/
def gatherCopy {α : Type} (in_dims : List Nat) (from_data : List α)
    (transposed new_dims : List Nat) (blocksize n_shared_idxs count : Nat) (to_data : List α) :
    Except ReduceError (List α) :=
  let num_axes := transposed.length
  let itr_axes := num_axes - n_shared_idxs
  let strides := stride_x transposed in_dims itr_axes
  let itr_idxs := List.replicate itr_axes 0
  if blocksize > 1 then
    blockCopyLoop from_data blocksize strides new_dims itr_axes (count / blocksize) 0
      itr_idxs to_data
  else
    elementCopyLoop from_data strides new_dims itr_axes count 0 itr_idxs to_data

/-- The method `ReduceKernel::PrepareForReduce` (lines 26-161). `axes_` and
`keepdims_` are the members of the kernel, `s` holds the reference
parameters as the caller passed them. -/
def PrepareForReduce {α : Type} [Zero α] (input : Tensor α) (axes_ : List Int)
    (keepdims_ : Bool) (s : ReduceState α) : Option ReduceError × ReduceState α :=
  let ndim := input.dims.length
  if ¬ axesInRange ndim axes_ then (some .axisOutOfRange, s)
  else
    let s1 := { s with transposedInputData := resize s.transposedInputData input.Size }
    let transposed := transposed_axes ndim axes_
    let new_dims := new_dims_ input.dims transposed
    let num_axes := transposed.length
    let in_dims := input.dims
    let shared := sharedLoop transposed new_dims num_axes (1, 0)
    let blocksize := shared.1
    let n_shared_idxs := shared.2
    let count := input.Size
    if num_axes < 2 ∨ n_shared_idxs = num_axes then
      match memcpy s1.transposedInputData 0 input.data 0 count with
      | .error e => (some e, s1)
      | .ok to_data =>
        (none, { s1 with transposedInputData := to_data, block_size := 1, blocks := toInt32 count })
    else
      match gatherCopy in_dims input.data transposed new_dims blocksize n_shared_idxs count
          s1.transposedInputData with
      | .error e => (some e, s1)
      | .ok to_data =>
        let rd := reducedDimsLoop in_dims (keep_axis ndim (sortedAxes axes_)) keepdims_
        let first_dim := rd.1
        let s2 := { s1 with transposedInputData := to_data, reducedTensor := some rd.2 }
        if first_dim = 0 then (some .divideByZero, s2)
        else (none, { s2 with block_size := (count / first_dim : Nat), blocks := first_dim })

/-- The locals of a `Compute` body before the call: an empty vector and an
unassigned `Tensor*`. The two integers are unassigned as well; every
successful call assigns both, so their starting value is never read. -/
def freshState (α : Type) : ReduceState α :=
  { transposedInputData := [], reducedTensor := none, block_size := 0, blocks := 0 }

/-- A loop `for (int c = 0; c < bound; ++c)` whose bound is an `int64_t`, run
on the state `s`. The counter takes the values `0, …, bound - 1` and the last
`++c` stores `bound`; with `bound > INT_MAX = 2^31 - 1` that increment
overflows the `int` counter, which is undefined behaviour. -/
def intLoop {σ : Type} (bound : Int) (body : Nat → σ → Except ReduceError σ) (s : σ) :
    Except ReduceError σ :=
  if 2 ^ 31 ≤ bound then .error .intOverflow
  else (List.range bound.toNat).foldlM (fun acc c => body c acc) s

/-- Lines 172-178: the double loop of `ReduceL1` over the `int` counters `j`
and `i`, giving the list of values stored through `output_data`, in order. -/
def foldL1 {α : Type} [LinearOrderedRing α] (scratch : List α) (block_size blocks : Int) :
    Except ReduceError (List α) :=
  intLoop block_size
    (fun j output_data =>
      match intLoop blocks
          (fun i abs_sum => .ok (abs_sum + |scratch.getD (i * block_size.toNat + j) 0|)) 0 with
      | .error e => .error e
      | .ok abs_sum => .ok (output_data ++ [abs_sum]))
    []

/-- Lines 191-197: the double loop of `ReduceL2`; `sqrt` stands for `std::sqrt`. -/
def foldL2 {α : Type} [LinearOrderedRing α] (sqrt : α → α) (scratch : List α)
    (block_size blocks : Int) : Except ReduceError (List α) :=
  intLoop block_size
    (fun j output_data =>
      match intLoop blocks
          (fun i square_sum =>
            .ok (square_sum + scratch.getD (i * block_size.toNat + j) 0 ^ 2)) 0 with
      | .error e => .error e
      | .ok square_sum => .ok (output_data ++ [sqrt square_sum]))
    []

/-- Lines 210-216: the double loop of `ReduceProd`. -/
def foldProd {α : Type} [LinearOrderedRing α] (scratch : List α) (block_size blocks : Int) :
    Except ReduceError (List α) :=
  intLoop block_size
    (fun j output_data =>
      match intLoop blocks
          (fun i prod => .ok (prod * scratch.getD (i * block_size.toNat + j) 0)) 1 with
      | .error e => .error e
      | .ok prod => .ok (output_data ++ [prod]))
    []

/-- The common frame of the three `Compute` bodies: call `PrepareForReduce` on
fresh locals, take `reduced->MutableData`, then run the double loop that stores
the folded values through it. The result is the output tensor: the shape it
was allocated with and the values stored into it. -/
def computeWith {α : Type} [Zero α]
    (fold : List α → Int → Int → Except ReduceError (List α))
    (input : Tensor α) (axes_ : List Int) (keepdims_ : Bool) : Except ReduceError (Tensor α) :=
  match PrepareForReduce input axes_ keepdims_ (freshState α) with
  | (some e, _) => .error e
  | (none, st) =>
    match st.reducedTensor with
    | none => .error .unsetOutput
    | some shape =>
      match fold st.transposedInputData st.block_size st.blocks with
      | .error e => .error e
      | .ok values => .ok { dims := shape, data := values }

/-- The kernel `ReduceL1<float>::Compute` (lines 163-180). -/
def ReduceL1 {α : Type} [LinearOrderedRing α] (input : Tensor α) (axes_ : List Int)
    (keepdims_ : Bool) : Except ReduceError (Tensor α) :=
  computeWith foldL1 input axes_ keepdims_

/-- The kernel `ReduceL2<float>::Compute` (lines 182-199). -/
def ReduceL2 {α : Type} [LinearOrderedRing α] (sqrt : α → α) (input : Tensor α)
    (axes_ : List Int) (keepdims_ : Bool) : Except ReduceError (Tensor α) :=
  computeWith (foldL2 sqrt) input axes_ keepdims_

/-- The kernel `ReduceProd<float>::Compute` (lines 201-218). -/
def ReduceProd {α : Type} [LinearOrderedRing α] (input : Tensor α) (axes_ : List Int)
    (keepdims_ : Bool) : Except ReduceError (Tensor α) :=
  computeWith foldProd input axes_ keepdims_


/-! ## Vocabulary of the statements -/

/-- The axis lists the kernels are specified for: no axis is listed twice and
every listed axis lies in `[0, ndim)`. -/
def ValidAxes (ndim : Nat) (axes_ : List Int) : Prop :=
  axes_.Nodup ∧ ∀ a ∈ axes_, 0 ≤ a ∧ a < (ndim : Int)

instance (ndim : Nat) (axes_ : List Int) : Decidable (ValidAxes ndim axes_) := by
  unfold ValidAxes; infer_instance

/-- Row-major offset of the coordinate list `cs` in a tensor of shape `dims`. -/
def ravel : List Nat → List Nat → Nat
  | _ :: ds, c :: cs => c * ds.prod + ravel ds cs
  | _, _ => 0

/-- Row-major coordinates of the offset `q` in a tensor of shape `dims`. -/
def unravel : List Nat → Nat → List Nat
  | [], _ => []
  | d :: ds, q => (q / ds.prod) % d :: unravel ds (q % ds.prod)

/-- The entries of `xs` at the positions where the mask has the value `b`. -/
def entriesWhere {β : Type} (b : Bool) : List Bool → List β → List β
  | m :: ms, x :: xs => if m = b then x :: entriesWhere b ms xs else entriesWhere b ms xs
  | _, _ => []

/-- The mask of the kept axes read off the axis list: axis `i` is kept when it
is not listed. -/
def keptMask (ndim : Nat) (axes_ : List Int) : List Bool :=
  (List.range ndim).map fun i : Nat => decide ((i : Int) ∉ axes_)

/-- The kept-axis shape: the sizes of the axes that are not listed, in their
original order. -/
def keptDims (dims : List Nat) (axes_ : List Int) : List Nat :=
  entriesWhere true (keptMask dims.length axes_) dims

/-- The coordinates of the input element at offset `q` on the kept axes. -/
def keptCoords (dims : List Nat) (axes_ : List Int) (q : Nat) : List Nat :=
  entriesWhere true (keptMask dims.length axes_) (unravel dims q)

/-- Reference L1 reduction by direct index arithmetic on the original tensor:
output position `p` of the kept-axis shape receives the sum of `|x|` over all
input offsets whose kept-axis coordinates are the coordinates of `p`. -/
def referenceL1 {α : Type} [LinearOrderedRing α] (input : Tensor α) (axes_ : List Int) :
    List α :=
  (List.range (keptDims input.dims axes_).prod).map fun p =>
    (((List.range input.Size).filter fun q =>
        decide (keptCoords input.dims axes_ q = unravel (keptDims input.dims axes_) p)).map
      fun q => |input.data.getD q 0|).sum

/-- Reference product reduction: output position `p` of the kept-axis shape
receives the product of all input elements whose kept-axis coordinates are the
coordinates of `p`. -/
def referenceProd {α : Type} [LinearOrderedRing α] (input : Tensor α) (axes_ : List Int) :
    List α :=
  (List.range (keptDims input.dims axes_).prod).map fun p =>
    (((List.range input.Size).filter fun q =>
        decide (keptCoords input.dims axes_ q = unravel (keptDims input.dims axes_) p)).map
      fun q => input.data.getD q 0).prod

/-- The positions at which the mask has the value `b`, ascending. -/
def positionsWhere (b : Bool) : List Bool → List Nat
  | [] => []
  | m :: ms => if m = b then 0 :: (positionsWhere b ms).map Nat.succ
               else (positionsWhere b ms).map Nat.succ

/-- Merge of reduced-axis coordinates `rc` and kept-axis coordinates `kc` into
one coordinate list along the mask. -/
def interleave : List Bool → List Nat → List Nat → List Nat
  | [], _, _ => []
  | true :: ms, rc, k :: kc => k :: interleave ms rc kc
  | true :: ms, rc, [] => 0 :: interleave ms rc []
  | false :: ms, r :: rc, kc => r :: interleave ms rc kc
  | false :: ms, [], kc => 0 :: interleave ms [] kc

/-- Row-major stride of axis `a` in a tensor of shape `dims`. -/
def strideOf (dims : List Nat) (a : Nat) : Nat := (dims.drop (a + 1)).prod

/-- The source offset reached by giving axis `ta[i]` the coordinate `ks[i]`. -/
def offsetVia (dims ta ks : List Nat) : Nat :=
  (List.zipWith (fun a k => k * strideOf dims a) ta ks).sum

/-- The source offset of scratch position `p` under the planned permutation:
`p` has row-major coordinates `ks` in the permuted shape, and the source
element has coordinate `ks[i]` on axis `transposed_axes[i]`. -/
def transposeSource (dims : List Nat) (axes_ : List Int) (p : Nat) : Nat :=
  offsetVia dims (transposed_axes dims.length axes_)
    (unravel (new_dims_ dims (transposed_axes dims.length axes_)) p)

/-- The branch condition of line 80: the call takes the whole-buffer `memcpy`. -/
def takesFastPath (dims : List Nat) (axes_ : List Int) : Bool :=
  decide ((transposed_axes dims.length axes_).length < 2 ∨
    (sharedLoop (transposed_axes dims.length axes_)
      (new_dims_ dims (transposed_axes dims.length axes_))
      (transposed_axes dims.length axes_).length (1, 0)).2
      = (transposed_axes dims.length axes_).length)

/-- The dimension vector with every reduced axis replaced by `1` (`keepdims_`)
or deleted (otherwise). -/
def reducedShape (keepdims_ : Bool) : List Bool → List Nat → List Nat
  | m :: ms, d :: ds =>
    if m then d :: reducedShape keepdims_ ms ds
    else if keepdims_ then 1 :: reducedShape keepdims_ ms ds
    else reducedShape keepdims_ ms ds
  | _, _ => []

/-- The pair `(blocksize, n_shared_idxs)` that lines 61-74 compute for the
planned permutation of `dims` and `axes_`. -/
def plannedSuffix (dims : List Nat) (axes_ : List Int) : Nat × Nat :=
  sharedLoop (transposed_axes dims.length axes_)
    (new_dims_ dims (transposed_axes dims.length axes_))
    (transposed_axes dims.length axes_).length (1, 0)

/-- The iterations of a gather loop (lines 102-122 and 124-141), `n` of them
from `index` on: for each one the loop counter `index`, the odometer `itr_idxs`
it reads, and the `from_index` it computes from them. Both loops step the
odometer by `advance`, so both run through this sequence. -/
def gatherTrace (strides new_dims : List Nat) (itr_axes : Nat) :
    Nat → Nat → List Nat → List (Nat × List Nat × Nat)
  | 0, _, _ => []
  | n + 1, index, itr_idxs =>
    (index, itr_idxs, from_index strides itr_idxs itr_axes) ::
      gatherTrace strides new_dims itr_axes n (index + 1) (advance new_dims itr_axes itr_idxs)

/-! ## `CastMap::ComputeImpl` (`cast_map.cc`)

The input `std::map<int64_t, TFrom>` is the list of its entries in iteration
order, that is by ascending key; `IsMap` states that order. `Cast<TFrom, TTo>`
is a parameter, and `max_map_` is the non-negative attribute of the kernel. -/

/-- Lines 23 and 40: `base = (i / sf) * sf * m + (i % sf)`. -/
def LpNorm.base (m sf i : Nat) : Nat := (i / sf) * sf * m + i % sf

/-- The position of element `k` of the vector
`StridedVec(data + base, 1, m, InnerStride(sf))` of slice `i`. -/
def LpNorm.stridedIndex (m sf i k : Nat) : Nat := LpNorm.base m sf i + k * sf

/-- The bodies of `DoNormalizeP1` and `DoNormalizeP2` (lines 16-48) in exact
arithmetic, `lpNorm` standing for `lpNorm<1>` or `lpNorm<2>`: every slice `i`
with nonzero norm is written to `yData`, divided by its norm. -/
def DoNormalize {α : Type} [LinearOrderedField α] (lpNorm : List α → α)
    (xData yData : List α) (m n sf : Nat) : List α :=
  (List.range n).foldl
    (fun y i =>
      let xVec := (List.range m).map fun k => xData.getD (LpNorm.stridedIndex m sf i k) 0
      let norm := lpNorm xVec
      if norm ≠ 0 then
        (List.range m).foldl
          (fun y k => y.set (LpNorm.stridedIndex m sf i k)
            (xData.getD (LpNorm.stridedIndex m sf i k) 0 / norm)) y
      else y)
    yData

/-- Lines 56-59 of `LpNorm<float>::Compute`: `(m, n, sf)` for the canonical axis. -/
def LpNorm.geometry (dims : List Nat) (canonical_axis : Nat) : Nat × Nat × Nat :=
  (dims.getD canonical_axis 0, dims.prod / dims.getD canonical_axis 0,
    (dims.drop (canonical_axis + 1)).prod)

/-! ## The comparison utilities (`compare_mlvalue.cc`)

Values are exact: an ordered ring stands for `float` and `double`, and
`std::isnan` is false on every value. A message is kept as the values that are
printed into it. -/

/-- The result codes. The enumeration is declared in a header; these are the
enumerators that `compare_mlvalue.cc` uses. -/
inductive COMPARE_RESULT where
  | SUCCESS
  | RESULT_DIFFERS
  | TYPE_MISMATCH
  | SHAPE_MISMATCH
  | NOT_SUPPORT
  deriving DecidableEq, Repr

/-- The text "expected …, got …, diff: …, tol=…." of lines 72-75. -/
structure DiffText (α : Type) where
  expected : α
  got : α
  diff : α
  tol : α
  deriving DecidableEq, Repr

/-- The string of the returned pair: empty when both parts are `none`; `worst`
is the text of the largest difference, `counts` the suffix
"`diff_count` of `size1` differ" of line 85. -/
structure CompareText (α : Type) where
  worst : Option (DiffText α)
  counts : Option (Nat × Nat)
  deriving DecidableEq, Repr

/-- The variables `res.first`, `res.second`, `max_diff` and `diff_count` of
`CompareFloatResult`. -/
structure FloatCompareState (α : Type) where
  first : COMPARE_RESULT
  second : Option (DiffText α)
  max_diff : α
  diff_count : Nat

/-- Lines 64-79: the body of the loop of `CompareFloatResult` at index `di`. -/
def compareFloatStep {α : Type} [LinearOrderedRing α] (expected_output real_output : List α)
    (per_sample_tolerance relative_per_sample_tolerance : α) (post_processing : Bool)
    (st : FloatCompareState α) (di : Nat) : FloatCompareState α :=
  let real_value :=
    if post_processing then max 0 (min 255 (real_output.getD di 0)) else real_output.getD di 0
  let diff := |expected_output.getD di 0 - real_value|
  let rtol := per_sample_tolerance + relative_per_sample_tolerance * |expected_output.getD di 0|
  if diff > rtol then
    if diff > st.max_diff then
      { first := .RESULT_DIFFERS,
        second := some ⟨expected_output.getD di 0, real_value, diff, rtol⟩,
        max_diff := diff,
        diff_count := st.diff_count + 1 }
    else { st with first := .RESULT_DIFFERS, diff_count := st.diff_count + 1 }
  else st

/-- The function `CompareFloatResult` (lines 52-88). -/
def CompareFloatResult {α : Type} [LinearOrderedRing α] (outvalue expected_value : Tensor α)
    (per_sample_tolerance relative_per_sample_tolerance : α) (post_processing : Bool) :
    COMPARE_RESULT × CompareText α :=
  let size1 := expected_value.Size
  let st := (List.range size1).foldl
    (compareFloatStep expected_value.data outvalue.data per_sample_tolerance
      relative_per_sample_tolerance post_processing)
    { first := .SUCCESS, second := none, max_diff := 0, diff_count := 0 }
  if st.first = .SUCCESS then (st.first, { worst := st.second, counts := none })
  else (st.first, { worst := st.second, counts := some (st.diff_count, size1) })

/-- Lines 266-273: the loop of `AreShapesEqual`, `n` iterations from `i` on. A
dimension of the expected shape is `some d` when `has_dim_value()`, else `none`. -/
def shapesEqualLoop (real_shape : List Int) (expected_shape : List (Option Int)) :
    Nat → Nat → Bool
  | 0, _ => true
  | n + 1, i =>
    match expected_shape.getD i none with
    | none => shapesEqualLoop real_shape expected_shape n (i + 1)
    | some d =>
      if d ≠ real_shape.getD i 0 then false
      else shapesEqualLoop real_shape expected_shape n (i + 1)

/-- The function `AreShapesEqual` (lines 261-275). -/
def AreShapesEqual (real_shape : List Int) (expected_shape : List (Option Int)) : Bool :=
  let len : Int := expected_shape.length
  if len < 0 then false
  else if real_shape.length ≠ expected_shape.length then false
  else shapesEqualLoop real_shape expected_shape expected_shape.length 0

/-! ## The planner: mask, permutation, permuted dimensions -/

theorem foldl_push_filter {β : Type} (p : β → Bool) (l init : List β) :
    l.foldl (fun acc i => if p i then acc ++ [i] else acc) init = init ++ l.filter p := by
  induction l generalizing init with
  | nil => simp
  | cons x xs ih =>
    simp only [List.foldl_cons, List.filter_cons]
    by_cases hx : p x = true
    · simp [hx, ih]
    · simp [hx, ih]

theorem keep_axis_aux (axes : List Nat) (k : List Bool) (i : Nat) (hi : i < k.length) :
    (axes.foldl (fun keep i => keep.set i false) k).length = k.length ∧
    (axes.foldl (fun keep i => keep.set i false) k).getD i true
      = (k.getD i true && decide (i ∉ axes)) := by
  induction axes generalizing k with
  | nil => simp
  | cons a as ih =>
    simp only [List.foldl_cons]
    obtain ⟨h1, h2⟩ := ih (k.set a false) (by simpa using hi)
    refine ⟨by simpa using h1, ?_⟩
    rw [h2]
    by_cases hai : a = i
    · subst hai
      simp [List.getD_eq_getElem?_getD, List.getElem?_set, hi]
    · have hia : ¬ i = a := fun h => hai h.symm
      simp [List.getD_eq_getElem?_getD, List.getElem?_set, hai, hia]

theorem keep_axis_length (ndim : Nat) (axes : List Nat) :
    (keep_axis ndim axes).length = ndim := by
  unfold keep_axis
  have : ∀ (k : List Bool), (axes.foldl (fun keep i => keep.set i false) k).length = k.length := by
    induction axes with
    | nil => simp
    | cons a as ih => intro k; simp [ih]
  rw [this, List.length_replicate]

theorem keep_axis_getD (ndim : Nat) (axes : List Nat) (i : Nat) (hi : i < ndim) :
    (keep_axis ndim axes).getD i true = decide (i ∉ axes) := by
  unfold keep_axis
  rw [(keep_axis_aux axes (List.replicate ndim true) i (by simpa using hi)).2]
  simp [List.getD_eq_getElem?_getD, List.getElem?_replicate, hi]

/-- The permutation as a closed expression: the sorted axes, then the other
indices in ascending order. -/
theorem transposed_axes_eq (ndim : Nat) (axes_ : List Int) :
    transposed_axes ndim axes_
      = sortedAxes axes_ ++ (List.range ndim).filter (fun i => decide (i ∉ sortedAxes axes_)) := by
  unfold transposed_axes
  rw [foldl_push_filter]
  congr 1
  apply List.filter_congr
  intro i hi
  rw [keep_axis_getD _ _ _ (List.mem_range.1 hi)]


theorem axesInRange_iff (ndim : Nat) (axes_ : List Int) :
    axesInRange ndim axes_ = true ↔ ∀ a ∈ axes_, 0 ≤ a ∧ a < (ndim : Int) := by
  simp [axesInRange, List.all_eq_true]

theorem ValidAxes.inRange {ndim : Nat} {axes_ : List Int} (h : ValidAxes ndim axes_) :
    axesInRange ndim axes_ = true :=
  (axesInRange_iff ndim axes_).2 h.2

theorem sortedAxes_length (axes_ : List Int) : (sortedAxes axes_).length = axes_.length := by
  simp [sortedAxes, (List.perm_insertionSort (· ≤ ·) axes_).length_eq]

theorem mem_sortedAxes {ndim : Nat} {axes_ : List Int}
    (h : ∀ a ∈ axes_, 0 ≤ a ∧ a < (ndim : Int)) (i : Nat) :
    i ∈ sortedAxes axes_ ↔ (i : Int) ∈ axes_ := by
  unfold sortedAxes
  simp only [List.mem_map, List.mem_insertionSort]
  constructor
  · rintro ⟨z, hz, rfl⟩
    have := (h z hz).1
    rwa [Int.toNat_of_nonneg this]
  · intro hi
    exact ⟨i, hi, by simp⟩

theorem sortedAxes_lt {ndim : Nat} {axes_ : List Int}
    (h : ∀ a ∈ axes_, 0 ≤ a ∧ a < (ndim : Int)) {i : Nat} (hi : i ∈ sortedAxes axes_) :
    i < ndim := by
  have := (h _ ((mem_sortedAxes h i).1 hi)).2
  exact_mod_cast this

theorem sortedAxes_sorted {ndim : Nat} {axes_ : List Int} (h : ValidAxes ndim axes_) :
    (sortedAxes axes_).Sorted (· < ·) := by
  unfold sortedAxes
  have hs : (axes_.insertionSort (· ≤ ·)).Sorted (· ≤ ·) := List.sorted_insertionSort _ _
  have hn : (axes_.insertionSort (· ≤ ·)).Nodup :=
    (List.perm_insertionSort (· ≤ ·) axes_).nodup_iff.2 h.1
  have hlt : (axes_.insertionSort (· ≤ ·)).Pairwise (· < ·) := by
    have := List.Pairwise.and hs hn
    exact this.imp (fun ⟨h1, h2⟩ => lt_of_le_of_ne h1 h2)
  rw [List.Sorted, List.pairwise_map]
  refine List.Pairwise.imp_of_mem ?_ hlt
  intro a b ha hb hab
  have ha0 := (h.2 a ((List.mem_insertionSort _).1 ha)).1
  have hb0 := (h.2 b ((List.mem_insertionSort _).1 hb)).1
  omega

/-- For valid axes the sorted list is the ascending enumeration of the reduced indices. -/
theorem sortedAxes_eq_filter {ndim : Nat} {axes_ : List Int} (h : ValidAxes ndim axes_) :
    sortedAxes axes_ = (List.range ndim).filter (fun i : Nat => decide ((i : Int) ∈ axes_)) := by
  apply List.eq_of_perm_of_sorted (r := (· < ·)) ?_ (sortedAxes_sorted h)
    ((List.sorted_lt_range ndim).filter _)
  rw [List.perm_ext_iff_of_nodup (sortedAxes_sorted h).nodup
    ((List.nodup_range ndim).filter _)]
  intro a
  simp only [List.mem_filter, List.mem_range, decide_eq_true_eq]
  rw [mem_sortedAxes h.2]
  constructor
  · intro ha
    exact ⟨by have := (h.2 _ ha).2; exact_mod_cast this, ha⟩
  · exact fun ha => ha.2

/-- For valid axes the permutation is the reduced indices followed by the kept
indices, each group ascending. -/
theorem transposed_axes_valid {ndim : Nat} {axes_ : List Int} (h : ValidAxes ndim axes_) :
    transposed_axes ndim axes_
      = (List.range ndim).filter (fun i : Nat => decide ((i : Int) ∈ axes_))
        ++ (List.range ndim).filter (fun i : Nat => decide ((i : Int) ∉ axes_)) := by
  rw [transposed_axes_eq, ← sortedAxes_eq_filter h]
  congr 1
  apply List.filter_congr
  intro i _
  have := mem_sortedAxes h.2 i
  simp [this]

theorem transposed_axes_perm {ndim : Nat} {axes_ : List Int} (h : ValidAxes ndim axes_) :
    (transposed_axes ndim axes_).Perm (List.range ndim) := by
  rw [transposed_axes_valid h]
  have := List.filter_append_perm (fun i : Nat => decide ((i : Int) ∈ axes_)) (List.range ndim)
  simpa using this

theorem transposed_axes_length {ndim : Nat} {axes_ : List Int} (h : ValidAxes ndim axes_) :
    (transposed_axes ndim axes_).length = ndim := by
  rw [(transposed_axes_perm h).length_eq, List.length_range]


/-! ## Errors of the copy loops -/

theorem memcpy_error {α : Type} {to_data from_data : List α} {dst src n : Nat} {e : ReduceError}
    (h : memcpy to_data dst from_data src n = .error e) : e = .outOfBounds := by
  unfold memcpy at h
  split at h
  · cases h
  · cases h; rfl

theorem blockCopyLoop_error {α : Type} (from_data : List α) (blocksize : Nat)
    (strides new_dims : List Nat) (itr_axes : Nat) (n index : Nat) (itr_idxs : List Nat)
    (to_data : List α) {e : ReduceError}
    (h : blockCopyLoop from_data blocksize strides new_dims itr_axes n index itr_idxs to_data
      = .error e) : e = .outOfBounds := by
  induction n generalizing index itr_idxs to_data with
  | zero => simp [blockCopyLoop] at h
  | succ n ih =>
    rw [blockCopyLoop] at h
    split at h
    · next e1 h1 => cases h; exact memcpy_error h1
    · exact ih _ _ _ h

theorem elementCopyLoop_error {α : Type} (from_data : List α)
    (strides new_dims : List Nat) (itr_axes : Nat) (n index : Nat) (itr_idxs : List Nat)
    (to_data : List α) {e : ReduceError}
    (h : elementCopyLoop from_data strides new_dims itr_axes n index itr_idxs to_data
      = .error e) : e = .outOfBounds := by
  induction n generalizing index itr_idxs to_data with
  | zero => simp [elementCopyLoop] at h
  | succ n ih =>
    rw [elementCopyLoop] at h
    split at h
    · cases h; rfl
    · split at h
      · exact ih _ _ _ h
      · cases h; rfl

theorem gatherCopy_error {α : Type} (in_dims : List Nat) (from_data : List α)
    (transposed new_dims : List Nat) (blocksize n_shared_idxs count : Nat) (to_data : List α)
    {e : ReduceError}
    (h : gatherCopy in_dims from_data transposed new_dims blocksize n_shared_idxs count to_data
      = .error e) : e = .outOfBounds := by
  unfold gatherCopy at h
  simp only at h
  split at h
  · exact blockCopyLoop_error _ _ _ _ _ _ _ _ _ h
  · exact elementCopyLoop_error _ _ _ _ _ _ _ _ h

/-- Once the range check has passed, no later step reports `axisOutOfRange`. -/
theorem PrepareForReduce_inRange_error {α : Type} [Zero α] (input : Tensor α) (axes_ : List Int)
    (keepdims_ : Bool) (s : ReduceState α) (h : axesInRange input.dims.length axes_ = true) :
    (PrepareForReduce input axes_ keepdims_ s).1 ≠ some .axisOutOfRange := by
  unfold PrepareForReduce
  simp only [h, not_true_eq_false, if_false]
  split
  · split
    · next e he => intro hc; have := memcpy_error he; simp at hc; rw [this] at hc; cases hc
    · simp
  · split
    · next e he =>
      intro hc
      simp only [Option.some.injEq] at hc
      have := gatherCopy_error _ _ _ _ _ _ _ _ he
      rw [this] at hc; cases hc
    · split <;> simp

/-! ## Row-major coordinates -/

theorem ravel_lt {dims cs : List Nat} (h : List.Forall₂ (· < ·) cs dims) :
    ravel dims cs < dims.prod := by
  induction h with
  | nil => simp [ravel]
  | @cons c d cs ds hcd _ ih =>
    simp only [ravel, List.prod_cons]
    calc c * ds.prod + ravel ds cs < c * ds.prod + ds.prod := by omega
      _ = (c + 1) * ds.prod := by ring
      _ ≤ d * ds.prod := Nat.mul_le_mul_right _ hcd

theorem unravel_length (dims : List Nat) (q : Nat) : (unravel dims q).length = dims.length := by
  induction dims generalizing q with
  | nil => rfl
  | cons d ds ih => simp [unravel, ih]

theorem unravel_bounded {dims : List Nat} (hpos : ∀ d ∈ dims, 0 < d) (q : Nat) :
    List.Forall₂ (· < ·) (unravel dims q) dims := by
  induction dims generalizing q with
  | nil => exact List.Forall₂.nil
  | cons d ds ih =>
    simp only [unravel]
    refine List.Forall₂.cons ?_ (ih (fun x hx => hpos x (List.mem_cons_of_mem _ hx)) _)
    exact Nat.mod_lt _ (hpos d (List.mem_cons_self _ _))

theorem unravel_ravel {dims cs : List Nat} (h : List.Forall₂ (· < ·) cs dims) :
    unravel dims (ravel dims cs) = cs := by
  induction h with
  | nil => rfl
  | @cons c d cs ds hcd hrest ih =>
    have hlt := ravel_lt hrest
    have hpos : 0 < ds.prod := by omega
    simp only [ravel, unravel]
    have h1 : (c * ds.prod + ravel ds cs) / ds.prod = c := by
      rw [Nat.add_comm, Nat.add_mul_div_right _ _ hpos, Nat.div_eq_of_lt hlt, Nat.zero_add]
    have h2 : (c * ds.prod + ravel ds cs) % ds.prod = ravel ds cs := by
      rw [Nat.add_comm, Nat.add_mul_mod_self_right, Nat.mod_eq_of_lt hlt]
    rw [h1, h2, ih, Nat.mod_eq_of_lt hcd]

theorem ravel_unravel {dims : List Nat} {q : Nat} (hq : q < dims.prod) :
    ravel dims (unravel dims q) = q := by
  induction dims generalizing q with
  | nil => simp at hq; simp [ravel, unravel, hq]
  | cons d ds ih =>
    simp only [List.prod_cons] at hq
    have hpos : 0 < ds.prod := by
      rcases Nat.eq_zero_or_pos ds.prod with h0 | h0
      · rw [h0] at hq; simp at hq
      · exact h0
    simp only [ravel, unravel]
    have hdiv : q / ds.prod < d := by
      rw [Nat.div_lt_iff_lt_mul hpos]; exact hq
    rw [Nat.mod_eq_of_lt hdiv, ih (Nat.mod_lt _ hpos)]
    exact Nat.div_add_mod' q ds.prod

theorem unravel_add_mul (B : List Nat) (i j : Nat) :
    unravel B (j + i * B.prod) = unravel B j := by
  induction B generalizing i j with
  | nil => rfl
  | cons d ds ih =>
    simp only [unravel, List.prod_cons]
    rcases Nat.eq_zero_or_pos ds.prod with h0 | hpos
    · simp [h0]
    · have h1 : (j + i * (d * ds.prod)) / ds.prod = j / ds.prod + i * d := by
        rw [show i * (d * ds.prod) = (i * d) * ds.prod by ring, Nat.add_mul_div_right _ _ hpos]
      have h2 : (j + i * (d * ds.prod)) % ds.prod = j % ds.prod := by
        rw [show i * (d * ds.prod) = (i * d) * ds.prod by ring, Nat.add_mul_mod_self_right]
      rw [h1, h2, Nat.add_mul_mod_self_right]

theorem unravel_append {A B : List Nat} (hB : 0 < B.prod) (i j : Nat) (hj : j < B.prod) :
    unravel (A ++ B) (i * B.prod + j) = unravel A i ++ unravel B j := by
  induction A generalizing i with
  | nil =>
    simp only [List.nil_append, unravel]
    rw [Nat.add_comm, unravel_add_mul]
  | cons a as ih =>
    rw [List.cons_append]
    simp only [unravel, List.prod_append]
    have hdiv : (i * B.prod + j) / B.prod = i := by
      rw [Nat.add_comm, Nat.add_mul_div_right _ _ hB, Nat.div_eq_of_lt hj, Nat.zero_add]
    have hmod : (i * B.prod + j) % B.prod = j := by
      rw [Nat.add_comm, Nat.add_mul_mod_self_right, Nat.mod_eq_of_lt hj]
    have h1 : (i * B.prod + j) / (as.prod * B.prod) = i / as.prod := by
      rw [Nat.mul_comm as.prod, ← Nat.div_div_eq_div_mul, hdiv]
    have h2 : (i * B.prod + j) % (as.prod * B.prod) = (i % as.prod) * B.prod + j := by
      rw [Nat.mul_comm as.prod, Nat.mod_mul, hdiv, hmod]; ring
    rw [h1, h2, ih, List.cons_append]

/-! ## Masks, positions and interleaving -/

theorem entriesWhere_length_add {β : Type} (mask : List Bool) (xs : List β)
    (h : mask.length = xs.length) :
    (entriesWhere false mask xs).length + (entriesWhere true mask xs).length = xs.length := by
  induction mask generalizing xs with
  | nil => cases xs <;> simp_all [entriesWhere]
  | cons m ms ih =>
    cases xs with
    | nil => simp at h
    | cons x xs =>
      have := ih xs (by simpa using h)
      cases m <;> simp [entriesWhere] <;> omega

theorem positionsWhere_length {β : Type} (b : Bool) (mask : List Bool) (xs : List β)
    (h : mask.length = xs.length) :
    (positionsWhere b mask).length = (entriesWhere b mask xs).length := by
  induction mask generalizing xs with
  | nil => cases xs <;> simp_all [entriesWhere, positionsWhere]
  | cons m ms ih =>
    cases xs with
    | nil => simp at h
    | cons x xs =>
      have := ih xs (by simpa using h)
      by_cases hm : m = b <;> simp [entriesWhere, positionsWhere, hm, this]

theorem map_getD_positionsWhere (b : Bool) (mask : List Bool) (xs : List Nat)
    (h : mask.length = xs.length) :
    (positionsWhere b mask).map (fun a => xs.getD a 0) = entriesWhere b mask xs := by
  induction mask generalizing xs with
  | nil => cases xs <;> simp_all [entriesWhere, positionsWhere]
  | cons m ms ih =>
    cases xs with
    | nil => simp at h
    | cons x xs =>
      have := ih xs (by simpa using h)
      by_cases hm : m = b
      · simp [entriesWhere, positionsWhere, hm, List.map_map, Function.comp_def, ← this]
      · simp [entriesWhere, positionsWhere, hm, List.map_map, Function.comp_def, ← this]

theorem filter_range_eq_positionsWhere (b : Bool) (mask : List Bool) :
    (List.range mask.length).filter (fun i => decide (mask.getD i true = b))
      = positionsWhere b mask := by
  induction mask with
  | nil => rfl
  | cons m ms ih =>
    rw [List.length_cons, List.range_succ_eq_map, List.filter_cons, List.filter_map]
    simp only [positionsWhere, ← ih]
    by_cases hm : m = b
    · simp [hm, Function.comp_def]
    · simp [hm, Function.comp_def]

theorem interleave_length (mask : List Bool) (rc kc : List Nat) :
    (interleave mask rc kc).length = mask.length := by
  induction mask generalizing rc kc with
  | nil => rfl
  | cons m ms ih =>
    cases m
    · cases rc <;> simp [interleave, ih]
    · cases kc <;> simp [interleave, ih]

theorem entriesWhere_interleave_true (mask : List Bool) (rc kc : List Nat)
    (hk : kc.length = (positionsWhere true mask).length) :
    entriesWhere true mask (interleave mask rc kc) = kc := by
  induction mask generalizing rc kc with
  | nil => cases kc <;> simp_all [entriesWhere, interleave, positionsWhere]
  | cons m ms ih =>
    cases m
    · simp only [positionsWhere, Bool.false_eq_true, if_false, List.length_map] at hk
      cases rc <;> simp [interleave, entriesWhere, ih _ _ hk]
    · simp only [positionsWhere, if_true, List.length_cons, List.length_map] at hk
      cases kc with
      | nil => simp at hk
      | cons k kc => simp [interleave, entriesWhere, ih _ _ (by simpa using hk)]

theorem entriesWhere_interleave_false (mask : List Bool) (rc kc : List Nat)
    (hr : rc.length = (positionsWhere false mask).length) :
    entriesWhere false mask (interleave mask rc kc) = rc := by
  induction mask generalizing rc kc with
  | nil => cases rc <;> simp_all [entriesWhere, interleave, positionsWhere]
  | cons m ms ih =>
    cases m
    · simp only [positionsWhere, if_true, List.length_cons, List.length_map] at hr
      cases rc with
      | nil => simp at hr
      | cons r rc => simp [interleave, entriesWhere, ih _ _ (by simpa using hr)]
    · simp only [positionsWhere, Bool.true_eq_false, if_false, List.length_map] at hr
      cases kc <;> simp [interleave, entriesWhere, ih _ _ hr]

theorem interleave_entriesWhere (mask : List Bool) (cs : List Nat)
    (h : mask.length = cs.length) :
    interleave mask (entriesWhere false mask cs) (entriesWhere true mask cs) = cs := by
  induction mask generalizing cs with
  | nil => cases cs <;> simp_all [interleave]
  | cons m ms ih =>
    cases cs with
    | nil => simp at h
    | cons c cs =>
      have := ih cs (by simpa using h)
      cases m <;> simp [interleave, entriesWhere, this]

theorem interleave_bounded (mask : List Bool) (dims rc kc : List Nat)
    (h : mask.length = dims.length)
    (hr : List.Forall₂ (· < ·) rc (entriesWhere false mask dims))
    (hk : List.Forall₂ (· < ·) kc (entriesWhere true mask dims)) :
    List.Forall₂ (· < ·) (interleave mask rc kc) dims := by
  induction mask generalizing dims rc kc with
  | nil => cases dims <;> simp_all [interleave]
  | cons m ms ih =>
    cases dims with
    | nil => simp at h
    | cons d ds =>
      have hl : ms.length = ds.length := by simpa using h
      cases m
      · simp only [entriesWhere, if_true, Bool.false_eq_true, if_false] at hr hk
        cases hr with
        | cons h1 h2 => exact List.Forall₂.cons h1 (ih ds _ _ hl h2 hk)
      · simp only [entriesWhere, if_true, Bool.true_eq_false, if_false] at hr hk
        cases hk with
        | cons h1 h2 => exact List.Forall₂.cons h1 (ih ds _ _ hl hr h2)

theorem entriesWhere_bounded (b : Bool) (mask : List Bool) (dims cs : List Nat)
    (h : mask.length = dims.length) (hc : List.Forall₂ (· < ·) cs dims) :
    List.Forall₂ (· < ·) (entriesWhere b mask cs) (entriesWhere b mask dims) := by
  induction mask generalizing dims cs with
  | nil => simp [entriesWhere]
  | cons m ms ih =>
    cases hc with
    | nil => simp at h
    | cons h1 h2 =>
      have := ih _ _ (by simpa using h) h2
      by_cases hm : m = b
      · simp only [entriesWhere, hm, if_true]; exact List.Forall₂.cons h1 this
      · simp only [entriesWhere, hm, if_false]; exact this

/-! ## Source offsets through a permutation -/

theorem strideOf_cons_succ (d : Nat) (ds : List Nat) (a : Nat) :
    strideOf (d :: ds) (a + 1) = strideOf ds a := by
  simp [strideOf]

theorem strideOf_cons_zero (d : Nat) (ds : List Nat) : strideOf (d :: ds) 0 = ds.prod := by
  simp [strideOf]

theorem offsetVia_nil_left (dims ks : List Nat) : offsetVia dims [] ks = 0 := by
  simp [offsetVia]

theorem offsetVia_nil_right (dims ta : List Nat) : offsetVia dims ta [] = 0 := by
  simp [offsetVia]

theorem offsetVia_cons (dims : List Nat) (a : Nat) (ta : List Nat) (k : Nat) (ks : List Nat) :
    offsetVia dims (a :: ta) (k :: ks) = k * strideOf dims a + offsetVia dims ta ks := by
  simp [offsetVia]

theorem offsetVia_map_succ (d : Nat) (ds ta ks : List Nat) :
    offsetVia (d :: ds) (ta.map Nat.succ) ks = offsetVia ds ta ks := by
  induction ta generalizing ks with
  | nil => simp [offsetVia]
  | cons a ta ih =>
    cases ks with
    | nil => simp [offsetVia]
    | cons k ks =>
      rw [List.map_cons, offsetVia_cons, offsetVia_cons, ih]
      rw [show Nat.succ a = a + 1 from rfl, strideOf_cons_succ]

theorem offsetVia_append (dims A B ka kb : List Nat) (h : A.length = ka.length) :
    offsetVia dims (A ++ B) (ka ++ kb) = offsetVia dims A ka + offsetVia dims B kb := by
  unfold offsetVia
  rw [List.zipWith_append _ _ _ _ _ h, List.sum_append]

theorem offsetVia_interleave (mask : List Bool) (dims rc kc : List Nat)
    (h : mask.length = dims.length)
    (hr : rc.length = (positionsWhere false mask).length)
    (hk : kc.length = (positionsWhere true mask).length) :
    offsetVia dims (positionsWhere false mask) rc + offsetVia dims (positionsWhere true mask) kc
      = ravel dims (interleave mask rc kc) := by
  induction mask generalizing dims rc kc with
  | nil => cases dims <;> simp_all [positionsWhere, interleave, ravel, offsetVia]
  | cons m ms ih =>
    cases dims with
    | nil => simp at h
    | cons d ds =>
      have hl : ms.length = ds.length := by simpa using h
      cases m
      · simp only [positionsWhere, if_true, Bool.true_eq_false, Bool.false_eq_true, if_false,
          List.length_cons, List.length_map] at hr hk ⊢
        cases rc with
        | nil => simp at hr
        | cons r rc =>
          have := ih ds rc kc hl (by simpa using hr) hk
          rw [offsetVia_cons, offsetVia_map_succ, offsetVia_map_succ, strideOf_cons_zero]
          simp only [interleave, ravel]
          omega
      · simp only [positionsWhere, if_true, Bool.true_eq_false, Bool.false_eq_true, if_false,
          List.length_cons, List.length_map] at hr hk ⊢
        cases kc with
        | nil => simp at hk
        | cons k kc =>
          have := ih ds rc kc hl hr (by simpa using hk)
          rw [offsetVia_cons, offsetVia_map_succ, offsetVia_map_succ, strideOf_cons_zero]
          simp only [interleave, ravel]
          omega

theorem offsetVia_range' (dims ks : List Nat) (n : Nat) (h : n + ks.length = dims.length) :
    offsetVia dims (List.range' n ks.length) ks = ravel (dims.drop n) ks := by
  induction ks generalizing n with
  | nil => simp [offsetVia, ravel]
  | cons k ks ih =>
    have hn : n < dims.length := by simp at h; omega
    rw [List.length_cons, List.range'_succ, offsetVia_cons, ih (n + 1) (by simp at h ⊢; omega)]
    rw [List.drop_eq_getElem_cons hn]
    simp [ravel, strideOf]

/-! ## The odometer -/

theorem ravel_append (A B a b : List Nat) (h : A.length = a.length) :
    ravel (A ++ B) (a ++ b) = ravel A a * B.prod + ravel B b := by
  induction A generalizing a with
  | nil => cases a <;> simp_all [ravel]
  | cons d ds ih =>
    cases a with
    | nil => simp at h
    | cons c cs =>
      rw [List.cons_append, List.cons_append]
      simp only [ravel, List.prod_append]
      rw [ih cs (by simpa using h)]
      ring

theorem getD_append_at {A : List Nat} {n : Nat} (h : A.length = n) (x : Nat) (B : List Nat) :
    (A ++ x :: B).getD n 0 = x := by
  subst h
  induction A with
  | nil => rfl
  | cons a A ih => simpa using ih

theorem getD_append_at_succ {A : List Nat} {n : Nat} (h : A.length = n) (x y : Nat)
    (B : List Nat) : (A ++ x :: y :: B).getD (n + 1) 0 = y := by
  subst h
  induction A with
  | nil => rfl
  | cons a A ih => simpa using ih

theorem set_append_at {A : List Nat} {n : Nat} (h : A.length = n) (x v : Nat) (B : List Nat) :
    (A ++ x :: B).set n v = A ++ v :: B := by
  subst h
  induction A with
  | nil => rfl
  | cons a A ih => simp [ih]

theorem set_append_at_succ {A : List Nat} {n : Nat} (h : A.length = n) (x y v : Nat)
    (B : List Nat) : (A ++ x :: y :: B).set (n + 1) v = A ++ x :: v :: B := by
  subst h
  induction A with
  | nil => rfl
  | cons a A ih => simp [ih]

theorem forall₂_tail_pairs (L : List (Nat × Nat)) (h : ∀ p ∈ L.tail, p.1 < p.2) :
    List.Forall₂ (· < ·) (L.map Prod.fst).tail (L.map Prod.snd).tail := by
  rw [← List.map_tail, ← List.map_tail, List.forall₂_map_left_iff, List.forall₂_map_right_iff,
    List.forall₂_same]
  exact h

/-- The carry loop started at digit `pre.length`: the digits are `pre.map fst`
before it, `y` at it and `post.map fst` after it, the dimension sizes are the
second components. -/
theorem carryLoop_spec (pre : List (Nat × Nat)) (y dy : Nat) (post : List (Nat × Nat))
    (ext : List Nat)
    (hpost : ∀ p ∈ post, p.1 < p.2) (hpre : ∀ p ∈ pre.tail, p.1 < p.2)
    (hy : pre ≠ [] → y ≤ dy ∧ 0 < dy) :
    (carryLoop (pre.map Prod.snd ++ dy :: post.map Prod.snd ++ ext) pre.length
        (pre.map Prod.fst ++ y :: post.map Prod.fst)).length = pre.length + 1 + post.length ∧
    List.Forall₂ (· < ·)
      (carryLoop (pre.map Prod.snd ++ dy :: post.map Prod.snd ++ ext) pre.length
        (pre.map Prod.fst ++ y :: post.map Prod.fst)).tail
      (pre.map Prod.snd ++ dy :: post.map Prod.snd).tail ∧
    ravel (pre.map Prod.snd ++ dy :: post.map Prod.snd)
      (carryLoop (pre.map Prod.snd ++ dy :: post.map Prod.snd ++ ext) pre.length
        (pre.map Prod.fst ++ y :: post.map Prod.fst))
      = ravel (pre.map Prod.snd ++ dy :: post.map Prod.snd)
          (pre.map Prod.fst ++ y :: post.map Prod.fst) := by
  induction pre using List.reverseRecOn generalizing y dy post with
  | nil =>
    simp only [List.map_nil, List.nil_append, List.length_nil, carryLoop, List.length_cons,
      List.length_map, List.tail_cons, true_and]
    refine ⟨by omega, ?_⟩
    rw [List.forall₂_map_left_iff, List.forall₂_map_right_iff, List.forall₂_same]
    exact ⟨hpost, trivial⟩
  | append_singleton pre' p ih =>
    obtain ⟨y', dy'⟩ := p
    have hlen : (pre' ++ [(y', dy')]).length = pre'.length + 1 := by simp
    have hD : (List.map Prod.snd (pre' ++ [(y', dy')]) ++ dy :: List.map Prod.snd post ++ ext)
        = List.map Prod.snd pre' ++ dy' :: (List.map Prod.snd ((y, dy) :: post)) ++ ext := by
      simp
    have hI : (List.map Prod.fst (pre' ++ [(y', dy')]) ++ y :: List.map Prod.fst post)
        = List.map Prod.fst pre' ++ y' :: (List.map Prod.fst ((y, dy) :: post)) := by
      simp
    have hDn : (List.map Prod.snd (pre' ++ [(y', dy')]) ++ dy :: List.map Prod.snd post)
        = List.map Prod.snd pre' ++ dy' :: (List.map Prod.snd ((y, dy) :: post)) := by
      simp
    have hA : (List.map Prod.fst pre').length = pre'.length := by simp
    have hB : (List.map Prod.snd pre').length = pre'.length := by simp
    rw [hlen, carryLoop, hI, hD, hDn]
    simp only [List.map_cons, List.cons_append, List.append_assoc]
    rw [getD_append_at_succ hA, getD_append_at_succ hB]
    by_cases hlt : y < dy
    · simp only [hlt, if_true]
      refine ⟨by simp; omega, ?_, trivial⟩
      have h1 : List.map Prod.fst pre' ++ y' :: y :: List.map Prod.fst post
          = (pre' ++ (y', dy') :: (y, dy) :: post).map Prod.fst := by simp
      have h2 : List.map Prod.snd pre' ++ dy' :: dy :: List.map Prod.snd post
          = (pre' ++ (y', dy') :: (y, dy) :: post).map Prod.snd := by simp
      rw [h1, h2]
      apply forall₂_tail_pairs
      intro p hp
      cases pre' with
      | nil =>
        simp only [List.nil_append, List.tail_cons, List.mem_cons] at hp
        rcases hp with rfl | hp
        · exact hlt
        · exact hpost p hp
      | cons p0 pre'' =>
        simp only [List.cons_append, List.tail_cons, List.mem_append, List.mem_cons] at hp hpre
        rcases hp with hp | rfl | rfl | hp
        · exact hpre p (Or.inl hp)
        · exact hpre _ (Or.inr (by simp))
        · exact hlt
        · exact hpost p hp
    · simp only [hlt, if_false]
      rw [set_append_at_succ hA, getD_append_at hA, set_append_at hA]
      have hyd := hy (by simp)
      have hyd : y = dy := by omega
      subst hyd
      rw [Nat.mod_self]
      have hpre' : ∀ p ∈ pre'.tail, p.1 < p.2 := by
        intro p hp
        apply hpre
        cases pre' with
        | nil => simp at hp
        | cons p0 pre'' => simp at hp ⊢; exact Or.inl hp
      have hy' : pre' ≠ [] → y' + 1 ≤ dy' ∧ 0 < dy' := by
        intro hne
        have : (y', dy') ∈ (pre' ++ [(y', dy')]).tail := by
          cases pre' with
          | nil => exact absurd rfl hne
          | cons p0 pre'' => simp
        have := hpre _ this
        simp only at this
        omega
      have hpost' : ∀ p ∈ (0, y) :: post, p.1 < p.2 := by
        intro p hp
        simp only [List.mem_cons] at hp
        rcases hp with rfl | hp
        · exact (hy (by simp)).2
        · exact hpost p hp
      obtain ⟨i1, i2, i3⟩ := ih (y' + 1) dy' ((0, y) :: post) hpost' hpre' hy'
      simp only [List.map_cons, List.cons_append, List.append_assoc, List.length_cons] at i1 i2 i3
      refine ⟨by rw [i1]; omega, i2, ?_⟩
      rw [i3, ravel_append _ _ _ _ (hB.trans hA.symm), ravel_append _ _ _ _ (hB.trans hA.symm)]
      simp only [ravel, List.prod_cons]
      ring

theorem forall₂_of_tail {Dn R : List Nat} (hlen : R.length = Dn.length)
    (htail : List.Forall₂ (· < ·) R.tail Dn.tail) (hlt : ravel Dn R < Dn.prod) :
    List.Forall₂ (· < ·) R Dn := by
  cases Dn with
  | nil =>
    cases R with
    | nil => exact List.Forall₂.nil
    | cons c cs => simp at hlen
  | cons d ds =>
    cases R with
    | nil => simp at hlen
    | cons c cs =>
      simp only [List.tail_cons] at htail
      refine List.Forall₂.cons ?_ htail
      simp only [ravel, List.prod_cons] at hlt
      by_contra hcd
      have : d * ds.prod ≤ c * ds.prod := Nat.mul_le_mul_right _ (Nat.le_of_not_lt hcd)
      omega

/-- One step of the odometer takes the digits of `k` to the digits of `k + 1`. -/
theorem advance_unravel (Dn ext : List Nat) (hpos : ∀ d ∈ Dn, 0 < d) (hne : Dn ≠ [])
    (k : Nat) (hk : k + 1 < Dn.prod) :
    advance (Dn ++ ext) Dn.length (unravel Dn k) = unravel Dn (k + 1) := by
  have hb := unravel_bounded hpos k
  have hrav : ravel Dn (unravel Dn k) = k := ravel_unravel (by omega)
  obtain ⟨hlen, hzip⟩ := List.forall₂_iff_zip.1 hb
  have hfst : ((unravel Dn k).zip Dn).map Prod.fst = unravel Dn k :=
    List.map_fst_zip _ _ (by omega)
  have hsnd : ((unravel Dn k).zip Dn).map Prod.snd = Dn :=
    List.map_snd_zip _ _ (by omega)
  have hLne : (unravel Dn k).zip Dn ≠ [] := by
    intro h0
    rw [h0] at hsnd
    exact hne hsnd.symm
  rcases List.eq_nil_or_concat ((unravel Dn k).zip Dn) with h0 | ⟨pre, ⟨last, dlast⟩, hL⟩
  · exact absurd h0 hLne
  · rw [hL] at hfst hsnd
    simp only [List.concat_eq_append, List.map_append, List.map_cons, List.map_nil] at hfst hsnd
    have hlast : last < dlast := by
      have : (last, dlast) ∈ (unravel Dn k).zip Dn := by rw [hL]; simp
      exact hzip this
    have hall : ∀ p ∈ pre, p.1 < p.2 := by
      intro p hp
      have : p ∈ (unravel Dn k).zip Dn := by rw [hL]; simp [hp]
      exact hzip this
    have hA : (List.map Prod.fst pre).length = pre.length := by simp
    have hB : (List.map Prod.snd pre).length = pre.length := by simp
    have hn : Dn.length = pre.length + 1 := by rw [← hsnd]; simp
    obtain ⟨c1, c2, c3⟩ := carryLoop_spec pre (last + 1) dlast [] ext (by simp)
      (fun p hp => hall p (List.mem_of_mem_tail hp)) (fun _ => ⟨hlast, by omega⟩)
    simp only [List.map_nil, List.length_nil, Nat.add_zero] at c1 c2 c3
    unfold advance
    rw [hn, Nat.add_sub_cancel]
    conv_lhs => rw [← hfst, ← hsnd]
    rw [getD_append_at hA, set_append_at hA]
    simp only [List.append_assoc, List.singleton_append] at c1 c2 c3 ⊢
    have hR : ravel Dn (carryLoop (List.map Prod.snd pre ++ dlast :: ext) pre.length
        (List.map Prod.fst pre ++ [last + 1])) = k + 1 := by
      have hk' : ravel (List.map Prod.snd pre ++ [dlast]) (List.map Prod.fst pre ++ [last]) = k := by
        rw [hsnd, hfst, hrav]
      rw [← hsnd, c3, ← hk', ravel_append _ _ _ _ (hB.trans hA.symm),
        ravel_append _ _ _ _ (hB.trans hA.symm)]
      simp only [ravel, List.prod_cons, List.prod_nil]
      ring
    have hbR := @forall₂_of_tail Dn _ (by rw [c1, hn]) (by rw [← hsnd]; simpa using c2)
      (by rw [hR]; exact hk)
    rw [← unravel_ravel hbR, hR]

/-! ## The shared suffix and the strides -/

/-- What the backward scan returns from position `i`: it counts `m` further
fixed positions, multiplies their permuted sizes into `blocksize`, and stops at
position `0` or at a position the permutation moves. -/
theorem sharedLoop_spec (ta nd : List Nat) (i b s : Nat) (hi : i ≤ nd.length) :
    ∃ m, m ≤ i ∧
      sharedLoop ta nd i (b, s) = (b * ((nd.take i).drop (i - m)).prod, s + m) ∧
      (∀ j, i - m ≤ j → j < i → ta.getD j 0 = j) ∧
      (m < i → ta.getD (i - m - 1) 0 ≠ i - m - 1) := by
  induction i generalizing b s with
  | zero => exact ⟨0, le_refl _, by simp [sharedLoop], by intro j _ h; omega, by intro h; omega⟩
  | succ i ih =>
    by_cases hfix : ta.getD i 0 = i
    · obtain ⟨m, hm, hval, hall, hstop⟩ := ih (b * nd.getD i 0) (s + 1) (by omega)
      refine ⟨m + 1, by omega, ?_, ?_, ?_⟩
      · rw [sharedLoop, if_pos hfix, hval]
        have hlt : i < nd.length := by omega
        have htake : nd.take (i + 1) = nd.take i ++ [nd.getD i 0] := by
          rw [List.take_succ, List.getD_eq_getElem?_getD, List.getElem?_eq_getElem hlt]
          rfl
        have hdrop : (nd.take (i + 1)).drop (i + 1 - (m + 1))
            = (nd.take i).drop (i - m) ++ [nd.getD i 0] := by
          rw [htake, show i + 1 - (m + 1) = i - m by omega,
            List.drop_append_of_le_length (by rw [List.length_take]; omega)]
        rw [hdrop, List.prod_append]
        simp only [List.prod_cons, List.prod_nil, Nat.mul_one, Prod.mk.injEq]
        constructor
        · ring
        · omega
      · intro j hj1 hj2
        by_cases hji : j = i
        · rw [hji]; exact hfix
        · exact hall j (by omega) (by omega)
      · intro hlt
        have := hstop (by omega)
        rw [show i + 1 - (m + 1) - 1 = i - m - 1 by omega]
        exact this
    · refine ⟨0, by omega, ?_, by intro j h1 h2; omega, ?_⟩
      · rw [sharedLoop, if_neg hfix]
        have : (nd.take (i + 1)).drop (i + 1 - 0) = [] := by
          apply List.drop_eq_nil_of_le
          rw [List.length_take]; omega
        rw [this]; simp
      · intro _
        simpa using hfix

theorem map_getD_range' (l : List Nat) (a n : Nat) (hn : n ≤ l.length) :
    (List.range' a (n - a)).map (fun j => l.getD j 0) = (l.take n).drop a := by
  apply List.ext_getElem?
  intro j
  simp only [List.getElem?_map, List.getElem?_range', List.getElem?_drop, List.getElem?_take]
  by_cases hj : j < n - a
  · have : a + j < n := by omega
    have h2 : a + j < l.length := by omega
    simp [hj, this, List.getD_eq_getElem?_getD, List.getElem?_eq_getElem h2]
  · have : ¬ a + j < n := by omega
    simp [hj, this]
    omega

theorem foldl_add_eq_sum (g : Nat → Nat) (l : List Nat) (a : Nat) :
    l.foldl (fun acc i => acc + g i) a = a + (l.map g).sum := by
  induction l generalizing a with
  | nil => simp
  | cons x xs ih => simp [ih, Nat.add_assoc]

theorem zipWith_eq_map_range (f : Nat → Nat → Nat) (A K : List Nat) (n : Nat)
    (hA : A.length = n) (hK : K.length = n) :
    List.zipWith f A K = (List.range n).map (fun i => f (A.getD i 0) (K.getD i 0)) := by
  induction A generalizing K n with
  | nil => subst hA; simp
  | cons a A ih =>
    cases K with
    | nil => subst hK; simp at hA
    | cons k K =>
      cases n with
      | zero => simp at hA
      | succ n =>
        rw [List.zipWith_cons_cons, ih K n (by simpa using hA) (by simpa using hK),
          List.range_succ_eq_map]
        simp [List.map_map, Function.comp_def]

/-! ## The plan of a valid input -/

theorem keptMask_length (ndim : Nat) (axes_ : List Int) : (keptMask ndim axes_).length = ndim := by
  simp [keptMask]

theorem keptMask_getD (ndim : Nat) (axes_ : List Int) (i : Nat) (hi : i < ndim) :
    (keptMask ndim axes_).getD i true = decide ((i : Int) ∉ axes_) := by
  simp [keptMask, List.getD_eq_getElem?_getD, List.getElem?_map, List.getElem?_range hi]

/-- For in-range axes the mask the code builds is the mask read off the axis list. -/
theorem keep_axis_eq_keptMask {ndim : Nat} {axes_ : List Int}
    (h : ∀ a ∈ axes_, 0 ≤ a ∧ a < (ndim : Int)) :
    keep_axis ndim (sortedAxes axes_) = keptMask ndim axes_ := by
  apply List.ext_getElem
  · rw [keep_axis_length, keptMask_length]
  · intro i h1 h2
    rw [keep_axis_length] at h1
    have e1 := keep_axis_getD ndim (sortedAxes axes_) i h1
    have e2 := keptMask_getD ndim axes_ i h1
    rw [List.getD_eq_getElem?_getD, List.getElem?_eq_getElem (by rw [keep_axis_length]; exact h1)]
      at e1
    rw [List.getD_eq_getElem?_getD, List.getElem?_eq_getElem h2] at e2
    simp only [Option.getD_some] at e1 e2
    rw [e1, e2]
    have := mem_sortedAxes h i
    simp [this]

theorem transposed_axes_positions {ndim : Nat} {axes_ : List Int} (h : ValidAxes ndim axes_) :
    transposed_axes ndim axes_
      = positionsWhere false (keptMask ndim axes_) ++ positionsWhere true (keptMask ndim axes_) := by
  rw [transposed_axes_valid h, ← filter_range_eq_positionsWhere, ← filter_range_eq_positionsWhere,
    keptMask_length]
  congr 1
  · apply List.filter_congr
    intro i hi
    rw [keptMask_getD _ _ _ (List.mem_range.1 hi)]
    simp
  · apply List.filter_congr
    intro i hi
    rw [keptMask_getD _ _ _ (List.mem_range.1 hi)]
    simp

theorem new_dims_entries (dims : List Nat) (axes_ : List Int)
    (h : ValidAxes dims.length axes_) :
    new_dims_ dims (transposed_axes dims.length axes_)
      = entriesWhere false (keptMask dims.length axes_) dims ++ keptDims dims axes_ := by
  unfold new_dims_ keptDims
  rw [transposed_axes_positions h, List.map_append,
    map_getD_positionsWhere _ _ _ (keptMask_length _ _),
    map_getD_positionsWhere _ _ _ (keptMask_length _ _)]

theorem prod_entriesWhere (mask : List Bool) (dims : List Nat) (h : mask.length = dims.length) :
    (entriesWhere false mask dims).prod * (entriesWhere true mask dims).prod = dims.prod := by
  induction mask generalizing dims with
  | nil => cases dims <;> simp_all [entriesWhere]
  | cons m ms ih =>
    cases dims with
    | nil => simp at h
    | cons d ds =>
      have := ih ds (by simpa using h)
      cases m
      · simp only [entriesWhere, if_true, Bool.false_eq_true, if_false, List.prod_cons]
        rw [Nat.mul_assoc, this]
      · simp only [entriesWhere, if_true, Bool.true_eq_false, if_false, List.prod_cons]
        rw [Nat.mul_left_comm, this]

theorem entriesWhere_pos (b : Bool) (mask : List Bool) (dims : List Nat)
    (hpos : ∀ d ∈ dims, 0 < d) : ∀ d ∈ entriesWhere b mask dims, 0 < d := by
  induction mask generalizing dims with
  | nil => simp [entriesWhere]
  | cons m ms ih =>
    cases dims with
    | nil => simp [entriesWhere]
    | cons d ds =>
      have h1 := ih ds (fun x hx => hpos x (List.mem_cons_of_mem _ hx))
      have h0 := hpos d (List.mem_cons_self _ _)
      by_cases hm : m = b
      · simp only [entriesWhere, hm, if_true, List.mem_cons]
        rintro x (rfl | hx)
        · exact h0
        · exact h1 x hx
      · simp only [entriesWhere, hm, if_false]
        exact h1

theorem prod_pos_of_pos {l : List Nat} (h : ∀ d ∈ l, 0 < d) : 0 < l.prod := by
  induction l with
  | nil => simp
  | cons d ds ih =>
    rw [List.prod_cons]
    exact Nat.mul_pos (h d (List.mem_cons_self _ _)) (ih (fun x hx => h x (List.mem_cons_of_mem _ hx)))

/-- The source offset of a scratch position, for valid axes: split the position
into the block number `i` and the slot `j`, take their coordinates on the
reduced and on the kept axes, and merge them along the mask. -/
theorem offsetVia_block_slot (dims : List Nat) (axes_ : List Int)
    (h : ValidAxes dims.length axes_) (i j : Nat)
    (hj : j < (keptDims dims axes_).prod) :
    offsetVia dims (transposed_axes dims.length axes_)
        (unravel (new_dims_ dims (transposed_axes dims.length axes_))
          (i * (keptDims dims axes_).prod + j))
      = ravel dims (interleave (keptMask dims.length axes_)
          (unravel (entriesWhere false (keptMask dims.length axes_) dims) i)
          (unravel (keptDims dims axes_) j)) := by
  have hml := keptMask_length dims.length axes_
  rw [new_dims_entries dims axes_ h, unravel_append (by omega) i j hj,
    transposed_axes_positions h, offsetVia_append, offsetVia_interleave _ _ _ _ hml]
  · rw [unravel_length, positionsWhere_length _ _ dims hml]
  · rw [unravel_length, keptDims, positionsWhere_length _ _ dims hml]
  · rw [unravel_length, positionsWhere_length _ _ dims hml]

/-- The offsets gathered into output slot `j` are exactly the input offsets whose
kept-axis coordinates are those of `j`, each taken once. -/
theorem slot_sources_perm (dims : List Nat) (axes_ : List Int)
    (hpos : ∀ d ∈ dims, 0 < d) (j : Nat) :
    ((List.range (entriesWhere false (keptMask dims.length axes_) dims).prod).map fun i =>
      ravel dims (interleave (keptMask dims.length axes_)
        (unravel (entriesWhere false (keptMask dims.length axes_) dims) i)
        (unravel (keptDims dims axes_) j))).Perm
    ((List.range dims.prod).filter fun q =>
      decide (keptCoords dims axes_ q = unravel (keptDims dims axes_) j)) := by
  have hml := keptMask_length dims.length axes_
  have hRpos := entriesWhere_pos false (keptMask dims.length axes_) dims hpos
  have hKpos : ∀ d ∈ keptDims dims axes_, 0 < d :=
    entriesWhere_pos true (keptMask dims.length axes_) dims hpos
  have hkb := unravel_bounded hKpos j
  have hib : ∀ i, List.Forall₂ (· < ·)
      (interleave (keptMask dims.length axes_)
        (unravel (entriesWhere false (keptMask dims.length axes_) dims) i)
        (unravel (keptDims dims axes_) j)) dims :=
    fun i => interleave_bounded _ _ _ _ hml (unravel_bounded hRpos i) hkb
  have hrl : ∀ i, (unravel (entriesWhere false (keptMask dims.length axes_) dims) i).length
      = (positionsWhere false (keptMask dims.length axes_)).length := by
    intro i; rw [unravel_length, positionsWhere_length _ _ dims hml]
  have hkl : (unravel (keptDims dims axes_) j).length
      = (positionsWhere true (keptMask dims.length axes_)).length := by
    rw [unravel_length, keptDims, positionsWhere_length _ _ dims hml]
  rw [List.perm_ext_iff_of_nodup ?_ ((List.nodup_range _).filter _)]
  · intro q
    simp only [List.mem_map, List.mem_range, List.mem_filter, decide_eq_true_eq]
    constructor
    · rintro ⟨i, _, rfl⟩
      refine ⟨ravel_lt (hib i), ?_⟩
      unfold keptCoords
      rw [unravel_ravel (hib i), entriesWhere_interleave_true _ _ _ hkl]
    · rintro ⟨hq, hkc⟩
      have hqb := unravel_bounded hpos q
      have hrb := entriesWhere_bounded false _ _ _ hml hqb
      refine ⟨ravel (entriesWhere false (keptMask dims.length axes_) dims)
        (entriesWhere false (keptMask dims.length axes_) (unravel dims q)), ravel_lt hrb, ?_⟩
      rw [unravel_ravel hrb, ← hkc]
      unfold keptCoords
      rw [interleave_entriesWhere _ _ (by rw [hml, unravel_length]), ravel_unravel hq]
  · apply List.Nodup.map_on ?_ (List.nodup_range _)
    intro i hi i' hi' heq
    have h1 := congrArg (fun q => ravel (entriesWhere false (keptMask dims.length axes_) dims)
      (entriesWhere false (keptMask dims.length axes_) (unravel dims q))) heq
    simp only at h1
    rw [unravel_ravel (hib i), unravel_ravel (hib i'),
      entriesWhere_interleave_false _ _ _ (hrl i), entriesWhere_interleave_false _ _ _ (hrl i'),
      ravel_unravel (List.mem_range.1 hi), ravel_unravel (List.mem_range.1 hi')] at h1
    exact h1

/-! ## The shared suffix of a valid plan -/

/-- The facts about the shared suffix that the gather relies on. `n` is
`itr_axes`, the number of leading positions that are iterated. -/
theorem suffix_facts (dims : List Nat) (axes_ : List Int) (h : ValidAxes dims.length axes_) :
    let ta := transposed_axes dims.length axes_
    let nd := new_dims_ dims ta
    let shared := sharedLoop ta nd ta.length (1, 0)
    let n := ta.length - shared.2
    shared.2 ≤ dims.length ∧
    ta.drop n = List.range' n (dims.length - n) ∧
    nd.drop n = dims.drop n ∧
    shared.1 = (dims.drop n).prod ∧
    (∀ i, i < n → ta.getD i 0 < n) ∧
    (shared.2 < dims.length → ta.getD (n - 1) 0 ≠ n - 1) := by
  intro ta nd shared n
  have hlen : ta.length = dims.length := transposed_axes_length h
  have hndlen : nd.length = dims.length := by simp [nd, new_dims_, hlen]
  obtain ⟨m, hm, hval, hall, hstop⟩ := sharedLoop_spec ta nd ta.length 1 0 (by omega)
  have hs1 : shared.1 = ((nd.take ta.length).drop (ta.length - m)).prod := by
    simp [shared, hval]
  have hs2 : shared.2 = m := by simp [shared, hval]
  have hn : n = dims.length - m := by simp [n, hs2, hlen]
  have hdrop : ta.drop n = List.range' n (dims.length - n) := by
    apply List.ext_getElem?
    intro j
    rw [List.getElem?_drop]
    by_cases hj : j < dims.length - n
    · have h1 : n + j < ta.length := by omega
      have := hall (n + j) (by omega) h1
      rw [List.getD_eq_getElem?_getD, List.getElem?_eq_getElem h1] at this
      simp only [Option.getD_some] at this
      rw [List.getElem?_eq_getElem h1, this, List.getElem?_range' _ _ hj]
      simp
    · rw [List.getElem?_eq_none (by omega), List.getElem?_eq_none (by simp; omega)]
  have hnd : nd.drop n = dims.drop n := by
    have : nd.drop n = (ta.drop n).map (fun a => dims.getD a 0) := by
      simp [nd, new_dims_, List.map_drop]
    rw [this, hdrop, map_getD_range' dims n dims.length (le_refl _), List.take_length]
  have hperm := transposed_axes_perm h
  have hnodup : ta.Nodup := hperm.nodup_iff.2 (List.nodup_range _)
  refine ⟨by omega, hdrop, hnd, ?_, ?_, ?_⟩
  · rw [hs1, ← hnd, hn, hlen, ← hndlen, List.take_length]
  · intro i hi
    have hi' : i < ta.length := by omega
    have hmem : ta[i] < dims.length := List.mem_range.1 (hperm.mem_iff.1 (List.getElem_mem hi'))
    rw [List.getD_eq_getElem?_getD, List.getElem?_eq_getElem hi']
    simp only [Option.getD_some]
    by_contra hge
    have hj : ta[i] < ta.length := by omega
    have hfix := hall ta[i] (by omega) hj
    rw [List.getD_eq_getElem?_getD, List.getElem?_eq_getElem hj] at hfix
    simp only [Option.getD_some] at hfix
    have := (@List.Nodup.getElem_inj_iff _ _ hnodup _ hj _ hi').1 hfix
    omega
  · intro hlt
    have := hstop (by omega)
    rw [hn]
    rw [hlen] at this
    exact this

theorem strideOf_split (dims : List Nat) (a n : Nat) (ha : a + 1 ≤ n) (hn : n ≤ dims.length) :
    strideOf dims a = ((dims.take n).drop (a + 1)).prod * (dims.drop n).prod := by
  unfold strideOf
  conv_lhs => rw [← List.take_append_drop n dims]
  rw [List.drop_append_of_le_length (by rw [List.length_take]; omega), List.prod_append]

theorem stride_x_getD (ta dims : List Nat) (n i : Nat) (hi : i < n) (hn : n ≤ dims.length) :
    (stride_x ta dims n).getD i 0 = ((dims.take n).drop (ta.getD i 0 + 1)).prod := by
  unfold stride_x
  rw [List.getD_eq_getElem?_getD, List.getElem?_map, List.getElem?_range hi]
  simp only [Option.map_some', Option.getD_some]
  rw [map_getD_range' dims _ n hn]

/-- The `from_index` of the source, scaled by `blocksize`, is the source offset
of the iterated coordinates. -/
theorem from_index_offsetVia (ta dims idxs : List Nat) (n : Nat) (hn : n ≤ dims.length)
    (hta : n ≤ ta.length) (hidx : idxs.length = n) (hlt : ∀ i, i < n → ta.getD i 0 < n) :
    (dims.drop n).prod * from_index (stride_x ta dims n) idxs n
      = offsetVia dims (ta.take n) idxs := by
  unfold from_index offsetVia
  rw [foldl_add_eq_sum, Nat.zero_add,
    zipWith_eq_map_range _ (ta.take n) idxs n (by rw [List.length_take]; omega) hidx,
    ← List.sum_map_mul_left]
  congr 1
  apply List.map_congr_left
  intro i hi
  have hi' := List.mem_range.1 hi
  have h1 : (ta.take n).getD i 0 = ta.getD i 0 := by
    simp [List.getD_eq_getElem?_getD, List.getElem?_take, hi']
  rw [h1, stride_x_getD ta dims n i hi' hn, strideOf_split dims _ n (hlt i hi') hn]
  ring

/-! ## The copy loops -/

theorem memcpy_ok {α : Type} (to_data : List α) (dst : Nat) (from_data : List α) (src n : Nat)
    (hs : src + n ≤ from_data.length) (hd : dst + n ≤ to_data.length) :
    ∃ r, memcpy to_data dst from_data src n = .ok r ∧ r.length = to_data.length ∧
      ∀ p, r[p]? = if dst ≤ p ∧ p < dst + n then from_data[src + (p - dst)]? else to_data[p]? := by
  refine ⟨_, by unfold memcpy; rw [if_pos ⟨hs, hd⟩], ?_, ?_⟩
  · simp only [List.length_append, List.length_take, List.length_drop]
    omega
  · intro p
    simp only [List.getElem?_append, List.length_take, List.length_drop, List.getElem?_take,
      List.getElem?_drop]
    have h1 : min dst to_data.length = dst := by omega
    have h2 : min n (from_data.length - src) = n := by omega
    rw [h1, h2]
    by_cases hp1 : p < dst
    · have : ¬ (dst ≤ p ∧ p < dst + n) := by omega
      rw [if_pos hp1, if_pos hp1, if_neg this]
    · rw [if_neg hp1]
      by_cases hp2 : p - dst < n
      · have : dst ≤ p ∧ p < dst + n := by omega
        rw [if_pos hp2, if_pos hp2, if_pos this]
      · have : ¬ (dst ≤ p ∧ p < dst + n) := by omega
        rw [if_neg hp2, if_neg this]
        congr 1
        omega

/-- The block-copy loop over a scratch buffer of `Dn.prod * bs` elements: `m`
iterations from block `index` fill the blocks `index .. index + m - 1` with the
source elements `src p` and leave the rest as it was. -/
theorem blockCopyLoop_spec {α : Type} [Zero α] (data : List α) (bs : Nat)
    (strides Dn ext : List Nat) (hpos : ∀ d ∈ Dn, 0 < d) (hne : Dn ≠ [])
    (src : Nat → Nat)
    (hsrc : ∀ index t, index < Dn.prod → t < bs →
      bs * from_index strides (unravel Dn index) Dn.length + t = src (index * bs + t))
    (hbound : ∀ p, p < Dn.prod * bs → src p < data.length)
    (m index : Nat) (idxs : List Nat) (to_data : List α)
    (hm : index + m ≤ Dn.prod) (hidx : 0 < m → idxs = unravel Dn index)
    (hlen : to_data.length = Dn.prod * bs) :
    ∃ r, blockCopyLoop data bs strides (Dn ++ ext) Dn.length m index idxs to_data = .ok r ∧
      r.length = to_data.length ∧
      ∀ p, r[p]? = if index * bs ≤ p ∧ p < (index + m) * bs then some (data.getD (src p) 0)
        else to_data[p]? := by
  induction m generalizing index idxs to_data with
  | zero =>
    refine ⟨to_data, by simp [blockCopyLoop], rfl, ?_⟩
    intro p
    have : ¬ (index * bs ≤ p ∧ p < (index + 0) * bs) := by simp
    rw [if_neg this]
  | succ m ih =>
    have hi := hidx (by omega)
    subst hi
    have hindex : index < Dn.prod := by omega
    have hmul : (index + 1) * bs ≤ Dn.prod * bs := Nat.mul_le_mul_right _ (by omega)
    have hs : bs * from_index strides (unravel Dn index) Dn.length + bs ≤ data.length := by
      rcases Nat.eq_zero_or_pos bs with h0 | hpos'
      · simp [h0]
      · have e := hsrc index (bs - 1) hindex (by omega)
        have b := hbound (index * bs + (bs - 1)) (by
          calc index * bs + (bs - 1) < (index + 1) * bs := by
                rw [Nat.add_mul]; omega
            _ ≤ Dn.prod * bs := hmul)
        omega
    have hd : bs * index + bs ≤ to_data.length := by
      rw [hlen, Nat.mul_comm bs index]
      calc index * bs + bs = (index + 1) * bs := by ring
        _ ≤ Dn.prod * bs := hmul
    obtain ⟨r1, hr1, hl1, hp1⟩ := memcpy_ok to_data (bs * index) data _ bs hs hd
    have hadv : 0 < m → advance (Dn ++ ext) Dn.length (unravel Dn index)
        = unravel Dn (index + 1) := by
      intro hm0
      exact advance_unravel Dn ext hpos hne index (by omega)
    obtain ⟨r, hr, hl, hp⟩ := ih (index + 1) _ r1 (by omega) hadv (by rw [hl1, hlen])
    refine ⟨r, ?_, by rw [hl, hl1], ?_⟩
    · rw [blockCopyLoop, hr1]
      exact hr
    · intro p
      rw [hp p, hp1 p]
      by_cases hA : (index + 1) * bs ≤ p ∧ p < (index + 1 + m) * bs
      · have hB : index * bs ≤ p ∧ p < (index + (m + 1)) * bs := by
          have e1 : (index + 1) * bs = index * bs + bs := by ring
          have e2 : index + (m + 1) = index + 1 + m := by ring
          rw [e2]; omega
        rw [if_pos hA, if_pos hB]
      · rw [if_neg hA]
        by_cases hC : bs * index ≤ p ∧ p < bs * index + bs
        · have hB : index * bs ≤ p ∧ p < (index + (m + 1)) * bs := by
            have e1 : (index + (m + 1)) * bs = index * bs + bs + m * bs := by ring
            have e2 : bs * index = index * bs := by ring
            omega
          rw [if_pos hC, if_pos hB]
          have hpt : p = index * bs + (p - bs * index) := by
            have e2 : bs * index = index * bs := by ring
            omega
          have e := hsrc index (p - bs * index) hindex (by omega)
          rw [← hpt] at e
          rw [e]
          have hb := hbound p (by
            have e1 : (index + 1) * bs = index * bs + bs := by ring
            have e2 : bs * index = index * bs := by ring
            omega)
          rw [List.getD_eq_getElem?_getD, List.getElem?_eq_getElem hb]
          simp
        · have hB : ¬ (index * bs ≤ p ∧ p < (index + (m + 1)) * bs) := by
            have e1 : (index + 1) * bs = index * bs + bs := by ring
            have e2 : bs * index = index * bs := by ring
            have e3 : (index + (m + 1)) * bs = (index + 1 + m) * bs := by ring
            rw [e3]
            omega
          rw [if_neg hC, if_neg hB]

/-- The single-element loop is the block-copy loop run with `blocksize = 1`. -/
theorem elementCopyLoop_eq_blockCopyLoop {α : Type} (data : List α) (strides nd : List Nat)
    (n m index : Nat) (idxs : List Nat) (to_data : List α) :
    elementCopyLoop data strides nd n m index idxs to_data
      = blockCopyLoop data 1 strides nd n m index idxs to_data := by
  induction m generalizing index idxs to_data with
  | zero => rfl
  | succ m ih =>
    rw [elementCopyLoop, blockCopyLoop]
    simp only [Nat.one_mul]
    by_cases hs : from_index strides idxs n < data.length
    · have hget : data.get? (from_index strides idxs n) = some data[from_index strides idxs n] := by
        simp [List.getElem?_eq_getElem hs]
      rw [hget]
      by_cases hd : index < to_data.length
      · have hcopy : memcpy to_data index data (from_index strides idxs n) 1
            = .ok (to_data.set index data[from_index strides idxs n]) := by
          unfold memcpy
          rw [if_pos ⟨by omega, by omega⟩, List.set_eq_take_append_cons_drop, if_pos hd]
          rw [List.drop_eq_getElem_cons hs, List.take_succ_cons, List.take_zero]
          rfl
        simp only [hcopy, if_pos hd]
        exact ih _ _ _
      · have hcopy : memcpy to_data index data (from_index strides idxs n) 1
            = .error .outOfBounds := by
          unfold memcpy
          rw [if_neg (by omega)]
        simp only [hcopy, if_neg hd]
    · have hget : data.get? (from_index strides idxs n) = none := by
        simp only [List.get?_eq_getElem?]
        exact List.getElem?_eq_none (by omega)
      have hcopy : memcpy to_data index data (from_index strides idxs n) 1
          = .error .outOfBounds := by
        unfold memcpy
        rw [if_neg (by omega)]
      simp only [hcopy, hget]

/-! ## The output shape and the geometry -/

theorem foldl_range_eq_foldl_zip {β : Type} (F : β → Bool → Nat → β) (keep : List Bool)
    (dims : List Nat) (h : keep.length = dims.length) (init : β) :
    (List.range dims.length).foldl (fun acc i => F acc (keep.getD i true) (dims.getD i 0)) init
      = (keep.zip dims).foldl (fun acc p => F acc p.1 p.2) init := by
  induction dims generalizing keep init with
  | nil => cases keep <;> simp_all
  | cons d ds ih =>
    cases keep with
    | nil => simp at h
    | cons m ms =>
      rw [List.length_cons, List.range_succ_eq_map, List.foldl_cons, List.foldl_map]
      simp only [List.zip_cons_cons, List.foldl_cons]
      have := ih ms (by simpa using h) (F init m d)
      simpa using this

theorem reducedDimsLoop_zip (keepdims_ : Bool) (keep : List Bool) (dims : List Nat)
    (a : Nat) (l : List Nat) :
    (keep.zip dims).foldl
      (fun (acc : Nat × List Nat) p =>
        if p.1 then (acc.1, acc.2 ++ [p.2])
        else (acc.1 * p.2, if keepdims_ then acc.2 ++ [1] else acc.2)) (a, l)
      = (a * (entriesWhere false keep dims).prod, l ++ reducedShape keepdims_ keep dims) := by
  induction keep generalizing dims a l with
  | nil => simp [entriesWhere, reducedShape]
  | cons m ms ih =>
    cases dims with
    | nil => simp [entriesWhere, reducedShape]
    | cons d ds =>
      simp only [List.zip_cons_cons, List.foldl_cons]
      cases m
      · have ih' := ih ds (a * d) (if keepdims_ then l ++ [1] else l)
        cases keepdims_
        · simp only [Bool.false_eq_true, if_false] at ih' ⊢
          rw [ih']
          simp [entriesWhere, reducedShape, Nat.mul_assoc]
        · simp only [if_true, Bool.false_eq_true, if_false] at ih' ⊢
          rw [ih']
          simp [entriesWhere, reducedShape, Nat.mul_assoc]
      · have ih' := ih ds a (l ++ [d])
        simp only [if_true] at ih' ⊢
        rw [ih']
        simp [entriesWhere, reducedShape]

theorem reducedDimsLoop_spec (dims : List Nat) (keep : List Bool) (keepdims_ : Bool)
    (h : keep.length = dims.length) :
    reducedDimsLoop dims keep keepdims_
      = ((entriesWhere false keep dims).prod, reducedShape keepdims_ keep dims) := by
  unfold reducedDimsLoop
  have := foldl_range_eq_foldl_zip
    (fun (acc : Nat × List Nat) (m : Bool) (d : Nat) =>
      if m then (acc.1, acc.2 ++ [d])
      else (acc.1 * d, if keepdims_ then acc.2 ++ [1] else acc.2)) keep dims h (1, [])
  simp only at this
  rw [this, reducedDimsLoop_zip]
  simp

theorem unravel_zero (dims : List Nat) : unravel dims 0 = List.replicate dims.length 0 := by
  induction dims with
  | nil => rfl
  | cons d ds ih => simp [unravel, ih, List.replicate_succ]

theorem resize_length {α : Type} [Zero α] (v : List α) (n : Nat) : (resize v n).length = n := by
  simp [resize]
  omega

/-- Every scratch position has its source inside the input buffer. -/
theorem transposeSource_lt (dims : List Nat) (axes_ : List Int)
    (h : ValidAxes dims.length axes_) (hpos : ∀ d ∈ dims, 0 < d) (p : Nat) :
    transposeSource dims axes_ p < dims.prod := by
  have hml := keptMask_length dims.length axes_
  have hKpos : ∀ d ∈ keptDims dims axes_, 0 < d :=
    entriesWhere_pos true (keptMask dims.length axes_) dims hpos
  have hK := prod_pos_of_pos hKpos
  have hp : p = p / (keptDims dims axes_).prod * (keptDims dims axes_).prod
      + p % (keptDims dims axes_).prod := (Nat.div_add_mod' p _).symm
  unfold transposeSource
  rw [hp, offsetVia_block_slot dims axes_ h _ _ (Nat.mod_lt _ hK)]
  exact ravel_lt (interleave_bounded _ _ _ _ hml
    (unravel_bounded (entriesWhere_pos false _ dims hpos) _) (unravel_bounded hKpos _))

/-- For valid axes the fast path is taken exactly when the permutation is the identity. -/
theorem takesFastPath_iff (dims : List Nat) (axes_ : List Int)
    (h : ValidAxes dims.length axes_) :
    takesFastPath dims axes_ = true ↔
      transposed_axes dims.length axes_ = List.range dims.length := by
  have hlen := transposed_axes_length h
  have hperm := transposed_axes_perm h
  obtain ⟨f1, f2, _, _, _, f6⟩ := suffix_facts dims axes_ h
  unfold takesFastPath
  rw [decide_eq_true_eq]
  constructor
  · rintro (hlt | heq)
    · rw [hlen] at hlt
      rcases Nat.lt_or_ge dims.length 1 with h0 | h1
      · have h0' : dims.length = 0 := by omega
        rw [h0'] at hperm ⊢
        simpa using hperm
      · have h1' : dims.length = 1 := by omega
        rw [h1'] at hperm ⊢
        simpa [List.range_succ] using hperm
    · rw [heq, Nat.sub_self] at f2
      simpa [List.range_eq_range'] using f2
  · intro hid
    right
    by_contra hne
    have hfix : ∀ k, k < dims.length → (transposed_axes dims.length axes_).getD k 0 = k := by
      intro k hk
      rw [hid]
      simp [List.getD_eq_getElem?_getD, List.getElem?_range hk]
    exact f6 (by omega) (hfix _ (by omega))

/-! ## The general path -/

theorem block_source_aux (dims ta nd : List Nat) (n bs : Nat)
    (hta : ta.length = dims.length) (hnd : nd.length = dims.length) (hn : n ≤ dims.length)
    (f2 : ta.drop n = List.range' n (dims.length - n)) (f3 : nd.drop n = dims.drop n)
    (f4 : bs = (dims.drop n).prod) (f5 : ∀ i, i < n → ta.getD i 0 < n)
    (index t : Nat) (ht : t < bs) :
    bs * from_index (stride_x ta dims n) (unravel (nd.take n) index) n + t
      = offsetVia dims ta (unravel nd (index * bs + t)) := by
  have hul : (unravel (nd.take n) index).length = n := by
    rw [unravel_length, List.length_take]; omega
  have hul2 : (unravel (dims.drop n) t).length = dims.length - n := by
    rw [unravel_length, List.length_drop]
  have e1 : unravel nd (index * bs + t) = unravel (nd.take n) index ++ unravel (dims.drop n) t := by
    conv_lhs => rw [← List.take_append_drop n nd, f3, f4]
    exact unravel_append (by omega) _ _ (by omega)
  have e2 := offsetVia_range' dims (unravel (dims.drop n) t) n (by rw [hul2]; omega)
  rw [hul2] at e2
  rw [e1]
  conv_rhs => rw [← List.take_append_drop n ta]
  rw [offsetVia_append _ _ _ _ _ (by rw [hul, List.length_take]; omega), f2, e2,
    ravel_unravel (by omega), f4, from_index_offsetVia ta dims _ n hn (by omega) hul f5]

/-- The source run of block `index` and the scratch positions it fills. -/
theorem block_source (dims : List Nat) (axes_ : List Int) (h : ValidAxes dims.length axes_)
    (index t : Nat)
    (ht : t < (sharedLoop (transposed_axes dims.length axes_)
        (new_dims_ dims (transposed_axes dims.length axes_))
        (transposed_axes dims.length axes_).length (1, 0)).1) :
    (sharedLoop (transposed_axes dims.length axes_)
        (new_dims_ dims (transposed_axes dims.length axes_))
        (transposed_axes dims.length axes_).length (1, 0)).1 *
      from_index (stride_x (transposed_axes dims.length axes_) dims
          ((transposed_axes dims.length axes_).length -
            (sharedLoop (transposed_axes dims.length axes_)
              (new_dims_ dims (transposed_axes dims.length axes_))
              (transposed_axes dims.length axes_).length (1, 0)).2))
        (unravel ((new_dims_ dims (transposed_axes dims.length axes_)).take
          ((transposed_axes dims.length axes_).length -
            (sharedLoop (transposed_axes dims.length axes_)
              (new_dims_ dims (transposed_axes dims.length axes_))
              (transposed_axes dims.length axes_).length (1, 0)).2)) index)
        ((transposed_axes dims.length axes_).length -
            (sharedLoop (transposed_axes dims.length axes_)
              (new_dims_ dims (transposed_axes dims.length axes_))
              (transposed_axes dims.length axes_).length (1, 0)).2) + t
      = transposeSource dims axes_
          (index * (sharedLoop (transposed_axes dims.length axes_)
            (new_dims_ dims (transposed_axes dims.length axes_))
            (transposed_axes dims.length axes_).length (1, 0)).1 + t) := by
  obtain ⟨f1, f2, f3, f4, f5, _⟩ := suffix_facts dims axes_ h
  have hlen := transposed_axes_length h
  exact block_source_aux dims _ _ _ _ hlen (by simp [new_dims_, hlen]) (by omega) f2 f3 f4 f5
    index t ht

theorem new_dims_prod (dims : List Nat) (axes_ : List Int) (h : ValidAxes dims.length axes_) :
    (new_dims_ dims (transposed_axes dims.length axes_)).prod = dims.prod := by
  rw [new_dims_entries dims axes_ h, List.prod_append, keptDims,
    prod_entriesWhere _ _ (keptMask_length _ _)]

theorem new_dims_pos (dims : List Nat) (axes_ : List Int) (h : ValidAxes dims.length axes_)
    (hpos : ∀ d ∈ dims, 0 < d) :
    ∀ d ∈ new_dims_ dims (transposed_axes dims.length axes_), 0 < d := by
  rw [new_dims_entries dims axes_ h]
  intro d hd
  rcases List.mem_append.1 hd with hd | hd
  · exact entriesWhere_pos false _ dims hpos d hd
  · exact entriesWhere_pos true _ dims hpos d hd

theorem gatherCopy_aux {α : Type} [Zero α] (dims : List Nat) (data : List α)
    (ta nd : List Nat) (bs m count : Nat) (src : Nat → Nat) (to_data : List α)
    (hm : m < ta.length) (hndlen : nd.length = ta.length)
    (hndpos : ∀ d ∈ nd, 0 < d) (hbs : bs = (nd.drop (ta.length - m)).prod)
    (hcount : count = nd.prod) (hto : to_data.length = count)
    (hsrc : ∀ index t, t < bs →
      bs * from_index (stride_x ta dims (ta.length - m))
        (unravel (nd.take (ta.length - m)) index) (ta.length - m) + t = src (index * bs + t))
    (hbound : ∀ p, src p < data.length) :
    gatherCopy dims data ta nd bs m count to_data
      = .ok ((List.range count).map fun p => data.getD (src p) 0) := by
  have hDl : (nd.take (ta.length - m)).length = ta.length - m := by
    rw [List.length_take]; omega
  have hDpos : ∀ d ∈ nd.take (ta.length - m), 0 < d :=
    fun d hd => hndpos d (List.mem_of_mem_take hd)
  have hDne : nd.take (ta.length - m) ≠ [] := by
    intro h0
    rw [h0] at hDl
    simp at hDl
    omega
  have hbpos : 0 < bs := by
    rw [hbs]
    exact prod_pos_of_pos (fun d hd => hndpos d (List.mem_of_mem_drop hd))
  have hcnt : count = (nd.take (ta.length - m)).prod * bs := by
    rw [hcount, hbs, ← List.prod_append, List.take_append_drop]
  have key : gatherCopy dims data ta nd bs m count to_data
      = blockCopyLoop data bs (stride_x ta dims (ta.length - m))
          (nd.take (ta.length - m) ++ nd.drop (ta.length - m)) (nd.take (ta.length - m)).length
          (nd.take (ta.length - m)).prod 0 (unravel (nd.take (ta.length - m)) 0) to_data := by
    unfold gatherCopy
    simp only
    rw [hDl, List.take_append_drop, unravel_zero, hDl]
    by_cases hb : bs > 1
    · rw [if_pos hb, hcnt, Nat.mul_div_cancel _ hbpos]
    · have hb1 : bs = 1 := by omega
      rw [if_neg hb, elementCopyLoop_eq_blockCopyLoop, hcnt, hb1, Nat.mul_one]
  obtain ⟨r, hr, hl, hp⟩ := blockCopyLoop_spec data bs (stride_x ta dims (ta.length - m))
    (nd.take (ta.length - m)) (nd.drop (ta.length - m)) hDpos hDne src
    (by intro index t _ ht; rw [hDl]; exact hsrc index t ht)
    (fun p _ => hbound p) (nd.take (ta.length - m)).prod 0 _ to_data (by omega) (fun _ => rfl)
    (by rw [hto, hcnt])
  rw [key, hr]
  congr 1
  apply List.ext_getElem?
  intro p
  rw [hp p, List.getElem?_map]
  by_cases hpc : p < count
  · rw [if_pos (by rw [Nat.zero_add, ← hcnt]; exact ⟨by omega, hpc⟩), List.getElem?_range hpc]
    rfl
  · rw [if_neg (by rw [Nat.zero_add, ← hcnt]; omega), List.getElem?_eq_none (by omega),
      List.getElem?_eq_none (by simp; omega)]
    rfl

/-- The gather of a valid general-path input fills the scratch buffer with the
transposed input. -/
theorem gatherCopy_valid {α : Type} [Zero α] (dims : List Nat) (data : List α)
    (axes_ : List Int) (hv : ValidAxes dims.length axes_) (hpos : ∀ d ∈ dims, 0 < d)
    (hdata : data.length = dims.prod) (hgen : takesFastPath dims axes_ = false)
    (to_data : List α) (hto : to_data.length = dims.prod) :
    gatherCopy dims data (transposed_axes dims.length axes_)
        (new_dims_ dims (transposed_axes dims.length axes_))
        (sharedLoop (transposed_axes dims.length axes_)
          (new_dims_ dims (transposed_axes dims.length axes_))
          (transposed_axes dims.length axes_).length (1, 0)).1
        (sharedLoop (transposed_axes dims.length axes_)
          (new_dims_ dims (transposed_axes dims.length axes_))
          (transposed_axes dims.length axes_).length (1, 0)).2
        dims.prod to_data
      = .ok ((List.range dims.prod).map fun p => data.getD (transposeSource dims axes_ p) 0) := by
  obtain ⟨f1, _, f3, f4, _, _⟩ := suffix_facts dims axes_ hv
  have hlen := transposed_axes_length hv
  have hne : ¬ ((transposed_axes dims.length axes_).length < 2 ∨
      (sharedLoop (transposed_axes dims.length axes_)
        (new_dims_ dims (transposed_axes dims.length axes_))
        (transposed_axes dims.length axes_).length (1, 0)).2
        = (transposed_axes dims.length axes_).length) := by
    unfold takesFastPath at hgen
    exact of_decide_eq_false hgen
  apply gatherCopy_aux
  · omega
  · simp [new_dims_]
  · exact new_dims_pos dims axes_ hv hpos
  · rw [f3, f4]
  · exact (new_dims_prod dims axes_ hv).symm
  · exact hto
  · intro index t ht
    exact block_source dims axes_ hv index t ht
  · intro p
    rw [hdata]
    exact transposeSource_lt dims axes_ hv hpos p

/-- The outcome of `PrepareForReduce` on the general path: the scratch buffer is
the transposed input, the handle holds the reduced shape, `blocks` is the
product of the reduced sizes and `block_size` the product of the kept sizes. -/
theorem PrepareForReduce_general {α : Type} [Zero α] (input : Tensor α) (axes_ : List Int)
    (keepdims_ : Bool) (s : ReduceState α)
    (hv : ValidAxes input.dims.length axes_) (hpos : ∀ d ∈ input.dims, 0 < d)
    (hwf : input.WellFormed) (hgen : takesFastPath input.dims axes_ = false) :
    PrepareForReduce input axes_ keepdims_ s
      = (none,
          { transposedInputData := (List.range input.Size).map fun p =>
              input.data.getD (transposeSource input.dims axes_ p) 0,
            reducedTensor :=
              some (reducedShape keepdims_ (keptMask input.dims.length axes_) input.dims),
            block_size := ((keptDims input.dims axes_).prod : Nat),
            blocks := ((entriesWhere false (keptMask input.dims.length axes_) input.dims).prod
              : Nat) }) := by
  have hne : ¬ ((transposed_axes input.dims.length axes_).length < 2 ∨
      (sharedLoop (transposed_axes input.dims.length axes_)
        (new_dims_ input.dims (transposed_axes input.dims.length axes_))
        (transposed_axes input.dims.length axes_).length (1, 0)).2
        = (transposed_axes input.dims.length axes_).length) := by
    unfold takesFastPath at hgen
    exact of_decide_eq_false hgen
  have hcopy := gatherCopy_valid input.dims input.data axes_ hv hpos hwf hgen
    (resize s.transposedInputData input.Size) (resize_length _ _)
  have hml := keptMask_length input.dims.length axes_
  have hRpos := prod_pos_of_pos (entriesWhere_pos false (keptMask input.dims.length axes_)
    input.dims hpos)
  have hprod := prod_entriesWhere (keptMask input.dims.length axes_) input.dims hml
  unfold PrepareForReduce
  simp only [Tensor.Size] at hcopy
  simp only [hv.inRange, not_true_eq_false, if_false, if_neg hne, Tensor.Size]
  rw [hcopy]
  simp only [keep_axis_eq_keptMask hv.2, reducedDimsLoop_spec _ _ _ hml]
  rw [if_neg (by omega)]
  congr 2
  rw [← hprod, keptDims, Nat.mul_div_cancel_left _ hRpos]

/-! ## The folds over the scratch buffer -/

theorem foldl_add_map_sum {β : Type} [AddMonoid β] (g : Nat → β) (l : List Nat) (a : β) :
    l.foldl (fun acc i => acc + g i) a = a + (l.map g).sum := by
  induction l generalizing a with
  | nil => simp
  | cons x xs ih => simp [ih, add_assoc]

theorem foldl_mul_map_prod {β : Type} [Monoid β] (g : Nat → β) (l : List Nat) (a : β) :
    l.foldl (fun acc i => acc * g i) a = a * (l.map g).prod := by
  induction l generalizing a with
  | nil => simp
  | cons x xs ih => simp [ih, mul_assoc]

/-- The values folded into output slot `j` are the input elements whose
kept-axis coordinates are those of `j`, each taken once. -/
theorem slot_values_perm {α : Type} [Zero α] (input : Tensor α) (axes_ : List Int)
    (hv : ValidAxes input.dims.length axes_) (hpos : ∀ d ∈ input.dims, 0 < d)
    (j : Nat) (hj : j < (keptDims input.dims axes_).prod) :
    ((List.range (entriesWhere false (keptMask input.dims.length axes_) input.dims).prod).map
      fun i => ((List.range input.Size).map fun p =>
        input.data.getD (transposeSource input.dims axes_ p) 0).getD
          (i * (keptDims input.dims axes_).prod + j) 0).Perm
    (((List.range input.Size).filter fun q =>
        decide (keptCoords input.dims axes_ q = unravel (keptDims input.dims axes_) j)).map
      fun q => input.data.getD q 0) := by
  have hml := keptMask_length input.dims.length axes_
  have hprod := prod_entriesWhere (keptMask input.dims.length axes_) input.dims hml
  have h1 : ((List.range (entriesWhere false (keptMask input.dims.length axes_) input.dims).prod).map
      fun i => ((List.range input.Size).map fun p =>
        input.data.getD (transposeSource input.dims axes_ p) 0).getD
          (i * (keptDims input.dims axes_).prod + j) 0)
      = ((List.range (entriesWhere false (keptMask input.dims.length axes_) input.dims).prod).map
          fun i => ravel input.dims (interleave (keptMask input.dims.length axes_)
            (unravel (entriesWhere false (keptMask input.dims.length axes_) input.dims) i)
            (unravel (keptDims input.dims axes_) j))).map (fun q => input.data.getD q 0) := by
    rw [List.map_map]
    apply List.map_congr_left
    intro i hi
    have hi' := List.mem_range.1 hi
    have hlt : i * (keptDims input.dims axes_).prod + j < input.Size := by
      unfold Tensor.Size
      rw [← hprod]
      unfold keptDims at hj ⊢
      calc i * (entriesWhere true (keptMask input.dims.length axes_) input.dims).prod + j
          < (i + 1) * (entriesWhere true (keptMask input.dims.length axes_) input.dims).prod := by
            rw [Nat.add_mul]; omega
        _ ≤ _ := Nat.mul_le_mul_right _ hi'
    rw [List.getD_eq_getElem?_getD, List.getElem?_map, List.getElem?_range hlt]
    simp only [Option.map_some', Option.getD_some, Function.comp]
    rw [transposeSource, offsetVia_block_slot input.dims axes_ hv i j hj]
  rw [h1]
  exact (slot_sources_perm input.dims axes_ hpos j).map _

/-! ## The fast path -/

/-- The outcome of `PrepareForReduce` on the fast path: the scratch buffer is a
copy of the input, `block_size` is `1`, `blocks` is the narrowed element count,
and the output handle is returned as it was received. -/
theorem PrepareForReduce_fast {α : Type} [Zero α] (input : Tensor α) (axes_ : List Int)
    (keepdims_ : Bool) (s : ReduceState α)
    (hr : axesInRange input.dims.length axes_ = true) (hwf : input.WellFormed)
    (hfast : takesFastPath input.dims axes_ = true) :
    PrepareForReduce input axes_ keepdims_ s
      = (none,
          { transposedInputData := input.data,
            reducedTensor := s.reducedTensor,
            block_size := 1,
            blocks := toInt32 input.Size }) := by
  have hcond : (transposed_axes input.dims.length axes_).length < 2 ∨
      (sharedLoop (transposed_axes input.dims.length axes_)
        (new_dims_ input.dims (transposed_axes input.dims.length axes_))
        (transposed_axes input.dims.length axes_).length (1, 0)).2
        = (transposed_axes input.dims.length axes_).length := by
    unfold takesFastPath at hfast
    exact of_decide_eq_true hfast
  have hcopy : memcpy (resize s.transposedInputData input.Size) 0 input.data 0 input.Size
      = .ok input.data := by
    unfold memcpy
    rw [if_pos ⟨by rw [hwf]; omega, by rw [resize_length]; omega⟩]
    rw [List.take_zero, List.drop_zero, List.nil_append, Nat.zero_add,
      List.drop_eq_nil_of_le (by rw [resize_length]), List.append_nil,
      List.take_of_length_le (by rw [hwf])]
  unfold PrepareForReduce
  simp only [hr, not_true_eq_false, if_false, if_pos hcond]
  rw [hcopy]

/-- On the fast path every `Compute` body ends in the use of the handle that
`PrepareForReduce` never assigned. -/
theorem computeWith_fast {α : Type} [Zero α]
    (fold : List α → Int → Int → Except ReduceError (List α))
    (input : Tensor α) (axes_ : List Int) (keepdims_ : Bool)
    (hr : axesInRange input.dims.length axes_ = true) (hwf : input.WellFormed)
    (hfast : takesFastPath input.dims axes_ = true) :
    computeWith fold input axes_ keepdims_ = .error .unsetOutput := by
  unfold computeWith
  rw [PrepareForReduce_fast input axes_ keepdims_ (freshState α) hr hwf hfast]
  rfl

theorem validAxes_nil (ndim : Nat) : ValidAxes ndim [] := by
  simp [ValidAxes]

theorem validAxes_all (ndim : Nat) :
    ValidAxes ndim ((List.range ndim).map fun i : Nat => (i : Int)) := by
  refine ⟨(List.nodup_range ndim).map (fun a b hab => by exact_mod_cast hab), ?_⟩
  intro a ha
  obtain ⟨i, hi, rfl⟩ := List.mem_map.1 ha
  have := List.mem_range.1 hi
  omega

/-- With no axis listed the call takes the fast path. -/
theorem takesFastPath_no_axes (dims : List Nat) : takesFastPath dims [] = true := by
  rw [takesFastPath_iff dims [] (validAxes_nil _), transposed_axes_valid (validAxes_nil _)]
  simp

/-- With every axis listed the call takes the fast path. -/
theorem takesFastPath_all_axes (dims : List Nat) :
    takesFastPath dims ((List.range dims.length).map fun i : Nat => (i : Int)) = true := by
  rw [takesFastPath_iff dims _ (validAxes_all _), transposed_axes_valid (validAxes_all _)]
  have h1 : (List.range dims.length).filter (fun i : Nat =>
      decide ((i : Int) ∈ (List.range dims.length).map fun i : Nat => (i : Int)))
      = List.range dims.length := by
    rw [List.filter_eq_self]
    intro a ha
    simp only [decide_eq_true_eq, List.mem_map]
    exact ⟨a, ha, rfl⟩
  have h2 : (List.range dims.length).filter (fun i : Nat =>
      decide ((i : Int) ∉ (List.range dims.length).map fun i : Nat => (i : Int))) = [] := by
    rw [List.filter_eq_nil_iff]
    intro a ha
    simp only [decide_eq_true_eq, List.mem_map, not_not]
    exact ⟨a, ha, rfl⟩
  rw [h1, h2, List.append_nil]

theorem reducedShape_keepdims_length (mask : List Bool) (dims : List Nat)
    (h : mask.length = dims.length) : (reducedShape true mask dims).length = dims.length := by
  induction mask generalizing dims with
  | nil => cases dims <;> simp_all [reducedShape]
  | cons m ms ih =>
    cases dims with
    | nil => simp at h
    | cons d ds =>
      have := ih ds (by simpa using h)
      cases m <;> simp [reducedShape, this]

theorem reducedShape_squeeze (mask : List Bool) (dims : List Nat) :
    reducedShape false mask dims = entriesWhere true mask dims := by
  induction mask generalizing dims with
  | nil => simp [reducedShape, entriesWhere]
  | cons m ms ih =>
    cases dims with
    | nil => simp [reducedShape, entriesWhere]
    | cons d ds => cases m <;> simp [reducedShape, entriesWhere, ih]

/-! ## Narrowing and degenerate sizes -/

theorem toInt32_of_lt {n : Nat} (h : n < 2 ^ 31) : toInt32 n = n := by
  unfold toInt32
  have h1 : (n + 2 ^ 31) % 2 ^ 32 = n + 2 ^ 31 := Nat.mod_eq_of_lt (by omega)
  rw [h1]
  push_cast
  ring

theorem gatherCopy_zero {α : Type} (in_dims : List Nat) (from_data : List α)
    (transposed new_dims : List Nat) (blocksize n_shared_idxs : Nat) (to_data : List α) :
    gatherCopy in_dims from_data transposed new_dims blocksize n_shared_idxs 0 to_data
      = .ok to_data := by
  unfold gatherCopy
  simp only [Nat.zero_div]
  split <;> rfl

theorem prod_eq_zero_of_mem {l : List Nat} (h : (0 : Nat) ∈ l) : l.prod = 0 :=
  List.prod_eq_zero h

theorem reducedShape_prod (keepdims_ : Bool) (mask : List Bool) (dims : List Nat) :
    (reducedShape keepdims_ mask dims).prod = (entriesWhere true mask dims).prod := by
  induction mask generalizing dims with
  | nil => simp [reducedShape, entriesWhere]
  | cons m ms ih =>
    cases dims with
    | nil => simp [reducedShape, entriesWhere]
    | cons d ds =>
      cases m <;> cases keepdims_ <;> simp [reducedShape, entriesWhere, ih]

/-- The outcome of `PrepareForReduce` on the general path, zero sizes included:
the handle is assigned the reduced shape before the division, and a call that
succeeds returns the products of the reduced and of the kept sizes. -/
theorem PrepareForReduce_general_any {α : Type} [Zero α] (input : Tensor α) (axes_ : List Int)
    (keepdims_ : Bool) (s : ReduceState α)
    (hv : ValidAxes input.dims.length axes_) (hwf : input.WellFormed)
    (hgen : takesFastPath input.dims axes_ = false) :
    (PrepareForReduce input axes_ keepdims_ s).2.reducedTensor
      = some (reducedShape keepdims_ (keptMask input.dims.length axes_) input.dims) ∧
    ((PrepareForReduce input axes_ keepdims_ s).1 = none →
      (PrepareForReduce input axes_ keepdims_ s).2.blocks
        = ((entriesWhere false (keptMask input.dims.length axes_) input.dims).prod : Nat) ∧
      (PrepareForReduce input axes_ keepdims_ s).2.block_size
        = ((keptDims input.dims axes_).prod : Nat) ∧
      (entriesWhere false (keptMask input.dims.length axes_) input.dims).prod ≠ 0) ∧
    ((PrepareForReduce input axes_ keepdims_ s).1 = none ∨
      ((PrepareForReduce input axes_ keepdims_ s).1 = some .divideByZero ∧
        (entriesWhere false (keptMask input.dims.length axes_) input.dims).prod = 0)) := by
  by_cases hpos : ∀ d ∈ input.dims, 0 < d
  · rw [PrepareForReduce_general input axes_ keepdims_ s hv hpos hwf hgen]
    have := prod_pos_of_pos (entriesWhere_pos false (keptMask input.dims.length axes_)
      input.dims hpos)
    exact ⟨rfl, fun _ => ⟨rfl, rfl, by omega⟩, Or.inl rfl⟩
  · have hzero : input.dims.prod = 0 := by
      push_neg at hpos
      obtain ⟨d, hd, hd0⟩ := hpos
      have : d = 0 := by omega
      subst this
      exact List.prod_eq_zero hd
    have hne : ¬ ((transposed_axes input.dims.length axes_).length < 2 ∨
        (sharedLoop (transposed_axes input.dims.length axes_)
          (new_dims_ input.dims (transposed_axes input.dims.length axes_))
          (transposed_axes input.dims.length axes_).length (1, 0)).2
          = (transposed_axes input.dims.length axes_).length) := by
      unfold takesFastPath at hgen
      exact of_decide_eq_false hgen
    have hml := keptMask_length input.dims.length axes_
    have hprod := prod_entriesWhere (keptMask input.dims.length axes_) input.dims hml
    unfold PrepareForReduce
    simp only [hv.inRange, not_true_eq_false, if_false, if_neg hne, Tensor.Size, hzero,
      gatherCopy_zero, keep_axis_eq_keptMask hv.2, reducedDimsLoop_spec _ _ _ hml]
    by_cases h0 : (entriesWhere false (keptMask input.dims.length axes_) input.dims).prod = 0
    · simp [h0]
    · simp only [if_neg h0, true_and, true_or, and_true, forall_const, ne_eq, h0,
        not_false_eq_true]
      have hk : (keptDims input.dims axes_).prod = 0 := by
        unfold keptDims
        rw [hzero] at hprod
        rcases Nat.mul_eq_zero.1 hprod with h | h
        · exact absurd h h0
        · exact h
      rw [hk]
      simp

theorem reducedShape_keepdims_eq (mask : List Bool) (dims : List Nat)
    (h : mask.length = dims.length) :
    reducedShape true mask dims
      = (List.range dims.length).map fun i => if mask.getD i true then dims.getD i 0 else 1 := by
  induction mask generalizing dims with
  | nil => cases dims <;> simp_all [reducedShape]
  | cons m ms ih =>
    cases dims with
    | nil => simp at h
    | cons d ds =>
      have := ih ds (by simpa using h)
      rw [List.length_cons, List.range_succ_eq_map, List.map_cons, List.map_map]
      cases m <;> simp [reducedShape, this, Function.comp_def]

/-! ## The scratch buffer as a transpose -/

theorem offsetVia_map (dims ta : List Nat) (g : Nat → Nat) :
    offsetVia dims ta (ta.map g) = (ta.map fun a => g a * strideOf dims a).sum := by
  unfold offsetVia
  congr 1
  induction ta with
  | nil => rfl
  | cons a ta ih => simp [ih]

/-- Giving axis `ta[i]` the coordinate `c[ta[i]]`, for a permutation `ta` of
the axes, reaches the row-major offset of `c`. -/
theorem offsetVia_perm (dims ta c : List Nat) (hperm : ta.Perm (List.range dims.length))
    (hc : c.length = dims.length) :
    offsetVia dims ta (ta.map fun a => c.getD a 0) = ravel dims c := by
  rw [offsetVia_map, (hperm.map _).sum_eq]
  have h1 := offsetVia_range' dims c 0 (by omega)
  rw [List.drop_zero] at h1
  rw [← h1, hc, ← List.range_eq_range']
  unfold offsetVia
  rw [zipWith_eq_map_range _ (List.range dims.length) c dims.length (by simp) hc]
  congr 1
  apply List.map_congr_left
  intro a ha
  simp [List.getD_eq_getElem?_getD, List.getElem?_range (List.mem_range.1 ha)]

/-! ## The iterations of the gather -/

/-- The block-copy loop is the fold of its `memcpy` over the trace. -/
theorem blockCopyLoop_eq_foldlM {α : Type} (data : List α) (bs : Nat)
    (strides nd : List Nat) (n m index : Nat) (idxs : List Nat) (to_data : List α) :
    blockCopyLoop data bs strides nd n m index idxs to_data
      = (gatherTrace strides nd n m index idxs).foldlM
          (fun buf e => memcpy buf (bs * e.1) data (bs * e.2.2) bs) to_data := by
  induction m generalizing index idxs to_data with
  | zero => rfl
  | succ m ih =>
    rw [blockCopyLoop, gatherTrace, List.foldlM_cons]
    cases hcopy : memcpy to_data (bs * index) data (bs * from_index strides idxs n) bs with
    | error e => rfl
    | ok r => exact ih _ _ _

/-- Every iteration of the trace reads the digits of its own loop counter. -/
theorem gatherTrace_mem (strides Dn ext : List Nat) (hpos : ∀ d ∈ Dn, 0 < d) (hne : Dn ≠ [])
    (m index : Nat) (idxs : List Nat) (hm : index + m ≤ Dn.prod)
    (hidx : 0 < m → idxs = unravel Dn index) :
    ∀ e ∈ gatherTrace strides (Dn ++ ext) Dn.length m index idxs,
      ∃ k, index ≤ k ∧ k < index + m ∧
        e = (k, unravel Dn k, from_index strides (unravel Dn k) Dn.length) := by
  induction m generalizing index idxs with
  | zero => intro e he; simp [gatherTrace] at he
  | succ m ih =>
    have hi := hidx (by omega)
    subst hi
    intro e he
    rw [gatherTrace, List.mem_cons] at he
    rcases he with rfl | he
    · exact ⟨index, le_refl _, by omega, rfl⟩
    · have hadv : 0 < m → advance (Dn ++ ext) Dn.length (unravel Dn index)
          = unravel Dn (index + 1) :=
        fun _ => advance_unravel Dn ext hpos hne index (by omega)
      obtain ⟨k, h1, h2, h3⟩ := ih (index + 1) _ (by omega) hadv e he
      exact ⟨k, by omega, by omega, h3⟩

theorem gatherTrace_aux (dims : List Nat) (ta nd : List Nat) (bs m count total : Nat)
    (src : Nat → Nat)
    (hm : m < ta.length) (hndlen : nd.length = ta.length)
    (hndpos : ∀ d ∈ nd, 0 < d) (hbs : bs = (nd.drop (ta.length - m)).prod)
    (hcount : count = nd.prod)
    (hsrc : ∀ index t, t < bs →
      bs * from_index (stride_x ta dims (ta.length - m))
        (unravel (nd.take (ta.length - m)) index) (ta.length - m) + t = src (index * bs + t))
    (hbound : ∀ p, src p < total) :
    ∀ e ∈ gatherTrace (stride_x ta dims (ta.length - m)) nd (ta.length - m) (count / bs) 0
        (List.replicate (ta.length - m) 0),
      bs * e.2.2 + bs ≤ total ∧ bs * e.1 + bs ≤ count ∧
      List.Forall₂ (· < ·) e.2.1 (nd.take (ta.length - m)) := by
  have hDl : (nd.take (ta.length - m)).length = ta.length - m := by
    rw [List.length_take]; omega
  have hDpos : ∀ d ∈ nd.take (ta.length - m), 0 < d :=
    fun d hd => hndpos d (List.mem_of_mem_take hd)
  have hDne : nd.take (ta.length - m) ≠ [] := by
    intro h0
    rw [h0] at hDl
    simp at hDl
    omega
  have hbpos : 0 < bs := by
    rw [hbs]
    exact prod_pos_of_pos (fun d hd => hndpos d (List.mem_of_mem_drop hd))
  have hcnt : count = (nd.take (ta.length - m)).prod * bs := by
    rw [hcount, hbs, ← List.prod_append, List.take_append_drop]
  have hdiv : count / bs = (nd.take (ta.length - m)).prod := by
    rw [hcnt, Nat.mul_div_cancel _ hbpos]
  intro e he
  have hmem := gatherTrace_mem (stride_x ta dims (ta.length - m)) (nd.take (ta.length - m))
    (nd.drop (ta.length - m)) hDpos hDne (nd.take (ta.length - m)).prod 0
    (List.replicate (ta.length - m) 0) (by omega)
    (fun _ => by rw [unravel_zero, hDl]) e
    (by rw [List.take_append_drop, hDl, ← hdiv]; exact he)
  obtain ⟨k, _, hk, rfl⟩ := hmem
  rw [hDl]
  simp only
  refine ⟨?_, ?_, unravel_bounded hDpos k⟩
  · have e1 := hsrc k (bs - 1) (by omega)
    have e2 := hbound (k * bs + (bs - 1))
    omega
  · rw [hcnt, Nat.mul_comm bs k]
    calc k * bs + bs = (k + 1) * bs := by ring
      _ ≤ (nd.take (ta.length - m)).prod * bs := Nat.mul_le_mul_right _ (by omega)

/-- The gather is the fold of `memcpy` over its trace: in the element branch
each single-element copy is a `memcpy` of one element. -/
theorem gatherCopy_eq_foldlM {α : Type} (in_dims : List Nat) (data : List α)
    (ta nd : List Nat) (bs m count : Nat) (to_data : List α) (hbs : 0 < bs) :
    gatherCopy in_dims data ta nd bs m count to_data
      = (gatherTrace (stride_x ta in_dims (ta.length - m)) nd (ta.length - m) (count / bs) 0
          (List.replicate (ta.length - m) 0)).foldlM
          (fun buf e => memcpy buf (bs * e.1) data (bs * e.2.2) bs) to_data := by
  unfold gatherCopy
  simp only
  by_cases hb : bs > 1
  · rw [if_pos hb, blockCopyLoop_eq_foldlM]
  · have hb1 : bs = 1 := by omega
    rw [if_neg hb, elementCopyLoop_eq_blockCopyLoop, blockCopyLoop_eq_foldlM, hb1, Nat.div_one]

/-! ## Narrowing, prefixes and zero divisors -/

theorem toInt32_range (n : Nat) :
    -(2 ^ 31 : Int) ≤ toInt32 n ∧ toInt32 n < 2 ^ 31 ∧
    ∃ q : Int, (n : Int) = toInt32 n + q * 2 ^ 32 := by
  unfold toInt32
  have h1 := Nat.mod_lt (n + 2 ^ 31) (show 0 < 2 ^ 32 by norm_num)
  have h2 := Nat.div_add_mod (n + 2 ^ 31) (2 ^ 32)
  refine ⟨by omega, by omega, ⟨((n + 2 ^ 31) / 2 ^ 32 : Nat), ?_⟩⟩
  omega

theorem toInt32_ne_of_ge {n : Nat} (h : 2 ^ 31 ≤ n) : toInt32 n ≠ (n : Int) := by
  have := (toInt32_range n).2.1
  omega

theorem filter_mem_axes_eq_range {ndim k : Nat} {axes_ : List Int}
    (h : ∀ i : Nat, i < ndim → ((i : Int) ∈ axes_ ↔ i < k)) :
    (List.range ndim).filter (fun i : Nat => decide ((i : Int) ∈ axes_))
      ++ (List.range ndim).filter (fun i : Nat => decide ((i : Int) ∉ axes_))
      = List.range ndim := by
  apply List.eq_of_perm_of_sorted (r := (· < ·)) ?_ ?_ (List.sorted_lt_range ndim)
  · have := List.filter_append_perm (fun i : Nat => decide ((i : Int) ∈ axes_)) (List.range ndim)
    simpa using this
  · rw [List.Sorted, List.pairwise_append]
    refine ⟨(List.sorted_lt_range ndim).filter _, (List.sorted_lt_range ndim).filter _, ?_⟩
    intro a ha b hb
    simp only [List.mem_filter, List.mem_range, decide_eq_true_eq] at ha hb
    have h1 := (h a ha.1).1 ha.2
    have h2 : ¬ b < k := fun hlt => hb.2 ((h b hb.1).2 hlt)
    omega

/-! ## Shape equality and slice addressing -/

theorem shapesEqualLoop_iff (real_shape : List Int) (expected_shape : List (Option Int))
    (n i : Nat) :
    shapesEqualLoop real_shape expected_shape n i = true ↔
      ∀ j, i ≤ j → j < i + n → ∀ d, expected_shape.getD j none = some d →
        real_shape.getD j 0 = d := by
  induction n generalizing i with
  | zero =>
    simp only [shapesEqualLoop, true_iff]
    intro j h1 h2
    omega
  | succ n ih =>
    rw [shapesEqualLoop]
    cases hE : expected_shape.getD i none with
    | none =>
      simp only
      rw [ih]
      constructor
      · intro h j h1 h2 d hd
        rcases Nat.eq_or_lt_of_le h1 with heq | hlt
        · subst heq
          rw [hE] at hd
          cases hd
        · exact h j hlt (by omega) d hd
      · intro h j h1 h2
        exact h j (by omega) (by omega)
    | some d =>
      simp only
      by_cases hd : d = real_shape.getD i 0
      · rw [if_neg (by simpa using hd), ih]
        constructor
        · intro h j h1 h2 e he
          rcases Nat.eq_or_lt_of_le h1 with heq | hlt
          · subst heq
            rw [hE] at he
            cases he
            exact hd.symm
          · exact h j hlt (by omega) e he
        · intro h j h1 h2
          exact h j (by omega) (by omega)
      · rw [if_pos hd]
        simp only [Bool.false_eq_true, false_iff]
        intro h
        exact hd (h i (Nat.le_refl i) (by omega) d hE).symm

theorem AreShapesEqual_spec (real_shape : List Int) (expected_shape : List (Option Int)) :
    AreShapesEqual real_shape expected_shape = true ↔
      real_shape.length = expected_shape.length ∧
        ∀ (i : Nat) (d : Int), expected_shape[i]? = some (some d) → real_shape[i]? = some d := by
  unfold AreShapesEqual
  have hlen : ¬ ((expected_shape.length : Int) < 0) := by omega
  simp only [hlen, if_false]
  by_cases hl : real_shape.length = expected_shape.length
  · rw [if_neg (by simpa using hl), shapesEqualLoop_iff]
    constructor
    · intro h
      refine ⟨hl, ?_⟩
      intro i d hi
      have hilt : i < expected_shape.length := by
        rcases Nat.lt_or_ge i expected_shape.length with h1 | h1
        · exact h1
        · rw [List.getElem?_eq_none h1] at hi
          cases hi
      have := h i (Nat.zero_le i) (by omega) d (by rw [List.getD_eq_getElem?_getD, hi]; rfl)
      rw [List.getD_eq_getElem?_getD] at this
      rw [List.getElem?_eq_getElem (by omega)] at this ⊢
      simpa using this
    · rintro ⟨_, h⟩ j _ hj d hd
      have hjlt : j < expected_shape.length := by omega
      rw [List.getD_eq_getElem?_getD, List.getElem?_eq_getElem hjlt] at hd
      have := h j d (by rw [List.getElem?_eq_getElem hjlt]; simpa using hd)
      rw [List.getD_eq_getElem?_getD, this]
      rfl
  · rw [if_pos (by simpa using hl)]
    simp [hl]

theorem LpNorm_stridedIndex_eq_ravel (m n sf i k : Nat) :
    LpNorm.stridedIndex m sf i k = ravel [n / sf, m, sf] [i / sf, k, i % sf] := by
  simp only [LpNorm.stridedIndex, LpNorm.base, ravel, List.prod_cons, List.prod_nil]
  ring

theorem LpNorm_coords_bounded {m n sf i k : Nat} (hsf : 1 ≤ sf) (hn : sf ∣ n) (hi : i < n)
    (hk : k < m) : List.Forall₂ (· < ·) [i / sf, k, i % sf] [n / sf, m, sf] := by
  refine List.Forall₂.cons ?_ (List.Forall₂.cons hk (List.Forall₂.cons ?_ List.Forall₂.nil))
  · exact Nat.div_lt_of_lt_mul (by rw [Nat.mul_div_cancel' hn]; exact hi)
  · exact Nat.mod_lt _ (by omega)

theorem LpNorm_unravel_stridedIndex {m n sf i k : Nat} (hsf : 1 ≤ sf) (hn : sf ∣ n)
    (hi : i < n) (hk : k < m) :
    unravel [n / sf, m, sf] (LpNorm.stridedIndex m sf i k) = [i / sf, k, i % sf] := by
  rw [LpNorm_stridedIndex_eq_ravel m n sf i k]
  exact unravel_ravel (LpNorm_coords_bounded hsf hn hi hk)

theorem LpNorm_shape_prod {n sf : Nat} (m : Nat) (hn : sf ∣ n) :
    [n / sf, m, sf].prod = n * m := by
  obtain ⟨q, rfl⟩ := hn
  rcases Nat.eq_zero_or_pos sf with h0 | hpos
  · subst h0
    simp
  · simp only [List.prod_cons, List.prod_nil, Nat.mul_one]
    rw [Nat.mul_div_cancel_left q hpos]
    ring

/-- The geometry that `Compute` passes to `DoNormalizeP1` and `DoNormalizeP2`
meets the requirements of the slice addressing. -/
theorem LpNorm_geometry_spec (dims : List Nat) (canonical_axis : Nat)
    (h : canonical_axis < dims.length) (hm : 1 ≤ dims.getD canonical_axis 0) :
    (LpNorm.geometry dims canonical_axis).2.2 ∣ (LpNorm.geometry dims canonical_axis).2.1 ∧
      (LpNorm.geometry dims canonical_axis).2.1 * (LpNorm.geometry dims canonical_axis).1
        = dims.prod ∧
      (LpNorm.geometry dims canonical_axis).2.1
        = (dims.take canonical_axis).prod * (LpNorm.geometry dims canonical_axis).2.2 := by
  simp only [LpNorm.geometry]
  have hsplit : dims = dims.take canonical_axis ++
      dims.getD canonical_axis 0 :: dims.drop (canonical_axis + 1) := by
    rw [List.getD_eq_getElem?_getD, List.getElem?_eq_getElem h, Option.getD_some]
    conv_lhs => rw [← List.take_append_drop canonical_axis dims]
    rw [List.drop_eq_getElem_cons h]
  have hprod : dims.prod = (dims.take canonical_axis).prod *
      (dims.drop (canonical_axis + 1)).prod * dims.getD canonical_axis 0 := by
    conv_lhs => rw [hsplit]
    rw [List.prod_append, List.prod_cons]
    ring
  have hdiv : dims.prod / dims.getD canonical_axis 0 =
      (dims.take canonical_axis).prod * (dims.drop (canonical_axis + 1)).prod := by
    rw [hprod]
    exact Nat.mul_div_cancel _ (by omega)
  rw [hdiv]
  refine ⟨Dvd.intro_left _ rfl, ?_, rfl⟩
  rw [hprod]

/-! ## The sparse loop of CastMap -/

theorem compareFloatStep_differs {α : Type} [LinearOrderedRing α] (e r : List α) (tol rel : α)
    (st : FloatCompareState α) (di : Nat)
    (h : tol + rel * |e.getD di 0| < |e.getD di 0 - r.getD di 0|) :
    (compareFloatStep e r tol rel false st di).first = COMPARE_RESULT.RESULT_DIFFERS ∧
      (compareFloatStep e r tol rel false st di).diff_count = st.diff_count + 1 := by
  unfold compareFloatStep
  simp only [Bool.false_eq_true, if_false, gt_iff_lt, if_pos h]
  split <;> exact ⟨rfl, rfl⟩

theorem compareFloatStep_within {α : Type} [LinearOrderedRing α] (e r : List α) (tol rel : α)
    (st : FloatCompareState α) (di : Nat)
    (h : ¬ tol + rel * |e.getD di 0| < |e.getD di 0 - r.getD di 0|) :
    compareFloatStep e r tol rel false st di = st := by
  unfold compareFloatStep
  simp only [Bool.false_eq_true, if_false, gt_iff_lt, if_neg h]

theorem compareFloat_fold {α : Type} [LinearOrderedRing α] (e r : List α) (tol rel : α)
    (l : List Nat) (st : FloatCompareState α) :
    (l.foldl (compareFloatStep e r tol rel false) st).diff_count =
        st.diff_count + (l.filter fun di : Nat =>
          decide (tol + rel * |e.getD di 0| < |e.getD di 0 - r.getD di 0|)).length ∧
      (l.foldl (compareFloatStep e r tol rel false) st).first =
        if (l.filter fun di : Nat =>
          decide (tol + rel * |e.getD di 0| < |e.getD di 0 - r.getD di 0|)).length = 0
        then st.first else COMPARE_RESULT.RESULT_DIFFERS := by
  induction l generalizing st with
  | nil => simp
  | cons di l ih =>
    simp only [List.foldl_cons]
    obtain ⟨ih1, ih2⟩ := ih (compareFloatStep e r tol rel false st di)
    by_cases h : tol + rel * |e.getD di 0| < |e.getD di 0 - r.getD di 0|
    · obtain ⟨h1, h2⟩ := compareFloatStep_differs e r tol rel st di h
      rw [ih1, ih2, h1, h2, List.filter_cons_of_pos (by simpa using h)]
      constructor
      · simp only [List.length_cons]
        omega
      · simp
    · rw [ih1, ih2, compareFloatStep_within e r tol rel st di h,
        List.filter_cons_of_neg (by simpa using h)]
      exact ⟨rfl, rfl⟩

/-! ## The loops over int counters -/

theorem foldlM_ok {σ : Type} (l : List Nat) (body : Nat → σ → Except ReduceError σ)
    (g : Nat → σ → σ) (h : ∀ c s, body c s = .ok (g c s)) (s : σ) :
    l.foldlM (fun acc c => body c acc) s = .ok (l.foldl (fun acc c => g c acc) s) := by
  have hb : body = fun c s => .ok (g c s) := funext fun c => funext fun s => h c s
  subst hb
  induction l generalizing s with
  | nil => rfl
  | cons a l ih =>
    simp only [List.foldlM_cons, List.foldl_cons]
    exact ih _

theorem intLoop_ok {σ : Type} {bound : Int} (hb : bound < 2 ^ 31)
    (body : Nat → σ → Except ReduceError σ) (g : Nat → σ → σ)
    (h : ∀ c s, body c s = .ok (g c s)) (s : σ) :
    intLoop bound body s = .ok ((List.range bound.toNat).foldl (fun acc c => g c acc) s) := by
  unfold intLoop
  rw [if_neg (by omega)]
  exact foldlM_ok _ body g h s

theorem intLoop_overflow {σ : Type} {bound : Int} (hb : 2 ^ 31 ≤ bound)
    (body : Nat → σ → Except ReduceError σ) (s : σ) :
    intLoop bound body s = .error .intOverflow := by
  unfold intLoop
  rw [if_pos hb]

theorem intLoop_first_error {σ : Type} {bound : Int} (hb : bound < 2 ^ 31) (h0 : 0 < bound)
    (body : Nat → σ → Except ReduceError σ) (s : σ) (e : ReduceError)
    (h : body 0 s = .error e) : intLoop bound body s = .error e := by
  unfold intLoop
  rw [if_neg (by omega)]
  obtain ⟨n, hn⟩ : ∃ n, bound.toNat = n + 1 := ⟨bound.toNat - 1, by omega⟩
  rw [hn, List.range_succ_eq_map]
  simp only [List.foldlM_cons, h]
  rfl

theorem foldl_push_eq_map {β : Type} (f : Nat → β) (l : List Nat) (acc : List β) :
    l.foldl (fun out j => out ++ [f j]) acc = acc ++ l.map f := by
  induction l generalizing acc with
  | nil => simp
  | cons a l ih => simp [ih]

theorem foldL1_ok {α : Type} [LinearOrderedRing α] (scratch : List α) {block_size blocks : Int}
    (h1 : block_size < 2 ^ 31) (h2 : blocks < 2 ^ 31) :
    foldL1 scratch block_size blocks
      = .ok ((List.range block_size.toNat).map fun j =>
          (List.range blocks.toNat).foldl
            (fun abs_sum i => abs_sum + |scratch.getD (i * block_size.toNat + j) 0|) 0) := by
  unfold foldL1
  rw [intLoop_ok h1 _ (fun j output_data => output_data ++
    [(List.range blocks.toNat).foldl
      (fun abs_sum i => abs_sum + |scratch.getD (i * block_size.toNat + j) 0|) 0])]
  · rw [foldl_push_eq_map, List.nil_append]
  · intro j output_data
    rw [intLoop_ok h2 _ (fun i abs_sum =>
      abs_sum + |scratch.getD (i * block_size.toNat + j) 0|) (fun _ _ => rfl)]

theorem foldProd_ok {α : Type} [LinearOrderedRing α] (scratch : List α)
    {block_size blocks : Int} (h1 : block_size < 2 ^ 31) (h2 : blocks < 2 ^ 31) :
    foldProd scratch block_size blocks
      = .ok ((List.range block_size.toNat).map fun j =>
          (List.range blocks.toNat).foldl
            (fun prod i => prod * scratch.getD (i * block_size.toNat + j) 0) 1) := by
  unfold foldProd
  rw [intLoop_ok h1 _ (fun j output_data => output_data ++
    [(List.range blocks.toNat).foldl
      (fun prod i => prod * scratch.getD (i * block_size.toNat + j) 0) 1])]
  · rw [foldl_push_eq_map, List.nil_append]
  · intro j output_data
    rw [intLoop_ok h2 _ (fun i prod =>
      prod * scratch.getD (i * block_size.toNat + j) 0) (fun _ _ => rfl)]

theorem foldL2_ok {α : Type} [LinearOrderedRing α] (sqrt : α → α) (scratch : List α)
    {block_size blocks : Int} (h1 : block_size < 2 ^ 31) (h2 : blocks < 2 ^ 31) :
    foldL2 sqrt scratch block_size blocks
      = .ok ((List.range block_size.toNat).map fun j =>
          sqrt ((List.range blocks.toNat).foldl
            (fun square_sum i =>
              square_sum + scratch.getD (i * block_size.toNat + j) 0 ^ 2) 0)) := by
  unfold foldL2
  rw [intLoop_ok h1 _ (fun j output_data => output_data ++
    [sqrt ((List.range blocks.toNat).foldl
      (fun square_sum i => square_sum + scratch.getD (i * block_size.toNat + j) 0 ^ 2) 0)])]
  · rw [foldl_push_eq_map, List.nil_append]
  · intro j output_data
    rw [intLoop_ok h2 _ (fun i square_sum =>
      square_sum + scratch.getD (i * block_size.toNat + j) 0 ^ 2) (fun _ _ => rfl)]

theorem foldL1_overflow {α : Type} [LinearOrderedRing α] (scratch : List α)
    {block_size blocks : Int}
    (h : 2 ^ 31 ≤ block_size ∨ (0 < block_size ∧ 2 ^ 31 ≤ blocks)) :
    foldL1 scratch block_size blocks = .error .intOverflow := by
  unfold foldL1
  by_cases h1 : 2 ^ 31 ≤ block_size
  · exact intLoop_overflow h1 _ _
  · rcases h with h | ⟨h0, h2⟩
    · exact absurd h h1
    · apply intLoop_first_error (by omega) h0
      rw [intLoop_overflow h2]

theorem foldProd_overflow {α : Type} [LinearOrderedRing α] (scratch : List α)
    {block_size blocks : Int}
    (h : 2 ^ 31 ≤ block_size ∨ (0 < block_size ∧ 2 ^ 31 ≤ blocks)) :
    foldProd scratch block_size blocks = .error .intOverflow := by
  unfold foldProd
  by_cases h1 : 2 ^ 31 ≤ block_size
  · exact intLoop_overflow h1 _ _
  · rcases h with h | ⟨h0, h2⟩
    · exact absurd h h1
    · apply intLoop_first_error (by omega) h0
      rw [intLoop_overflow h2]

/-- The two loop bounds of a general-path call are factors of the element count. -/
theorem loop_bounds_le_size {dims : List Nat} (axes_ : List Int)
    (hpos : ∀ d ∈ dims, 0 < d) :
    (keptDims dims axes_).prod ≤ dims.prod ∧
      (entriesWhere false (keptMask dims.length axes_) dims).prod ≤ dims.prod ∧
      0 < (keptDims dims axes_).prod ∧
      0 < (entriesWhere false (keptMask dims.length axes_) dims).prod := by
  have hml := keptMask_length dims.length axes_
  have hprod := prod_entriesWhere (keptMask dims.length axes_) dims hml
  have hR := prod_pos_of_pos (entriesWhere_pos false (keptMask dims.length axes_) dims hpos)
  have hK := prod_pos_of_pos (entriesWhere_pos true (keptMask dims.length axes_) dims hpos)
  unfold keptDims
  refine ⟨?_, ?_, hK, hR⟩
  · rw [← hprod]
    exact Nat.le_mul_of_pos_left _ hR
  · rw [← hprod]
    exact Nat.le_mul_of_pos_right _ hK

/-- On the general gather path, for fewer than `2^31` elements, `ReduceL1`
agrees with the reference: it succeeds, its output has the reduced shape, and
its values are those of `referenceL1`. -/
theorem ReduceL1_general_eq_reference {α : Type} [LinearOrderedRing α] (input : Tensor α)
    (axes_ : List Int) (keepdims_ : Bool)
    (hwf : input.WellFormed) (hpos : ∀ d ∈ input.dims, 0 < d)
    (hv : ValidAxes input.dims.length axes_)
    (hmove : transposed_axes input.dims.length axes_ ≠ List.range input.dims.length)
    (hsize : input.Size < 2 ^ 31) :
    ReduceL1 input axes_ keepdims_
      = .ok { dims := reducedShape keepdims_ (keptMask input.dims.length axes_) input.dims,
              data := referenceL1 input axes_ } := by
  have hgen : takesFastPath input.dims axes_ = false := by
    rw [← Bool.not_eq_true, takesFastPath_iff input.dims axes_ hv]
    exact hmove
  obtain ⟨hk, hr, _, _⟩ := loop_bounds_le_size axes_ hpos
  unfold Tensor.Size at hsize
  have h1 : (((keptDims input.dims axes_).prod : Nat) : Int) < 2 ^ 31 := by
    exact_mod_cast Nat.lt_of_le_of_lt hk hsize
  have h2 : (((entriesWhere false (keptMask input.dims.length axes_) input.dims).prod : Nat)
      : Int) < 2 ^ 31 := by
    exact_mod_cast Nat.lt_of_le_of_lt hr hsize
  unfold ReduceL1 computeWith
  rw [PrepareForReduce_general input axes_ keepdims_ (freshState α) hv hpos hwf hgen]
  dsimp only
  rw [foldL1_ok _ h1 h2]
  simp only [Except.ok.injEq, Tensor.mk.injEq, true_and]
  unfold referenceL1
  simp only [Int.toNat_ofNat]
  apply List.map_congr_left
  intro j hj
  rw [foldl_add_map_sum, zero_add]
  have hperm := slot_values_perm input axes_ hv hpos j (List.mem_range.1 hj)
  have := (hperm.map (fun x : α => |x|)).sum_eq
  simpa [List.map_map, Function.comp_def] using this

/-- On the general gather path, for fewer than `2^31` elements, `ReduceProd`
writes the products of the slices, as `referenceProd` lists them. -/
theorem ReduceProd_general_eq_reference {α : Type} [LinearOrderedCommRing α]
    (input : Tensor α) (axes_ : List Int) (keepdims_ : Bool)
    (hwf : input.WellFormed) (hpos : ∀ d ∈ input.dims, 0 < d)
    (hv : ValidAxes input.dims.length axes_)
    (hmove : transposed_axes input.dims.length axes_ ≠ List.range input.dims.length)
    (hsize : input.Size < 2 ^ 31) :
    ReduceProd input axes_ keepdims_
      = .ok { dims := reducedShape keepdims_ (keptMask input.dims.length axes_) input.dims,
              data := referenceProd input axes_ } := by
  have hgen : takesFastPath input.dims axes_ = false := by
    rw [← Bool.not_eq_true, takesFastPath_iff input.dims axes_ hv]
    exact hmove
  obtain ⟨hk, hr, _, _⟩ := loop_bounds_le_size axes_ hpos
  unfold Tensor.Size at hsize
  have h1 : (((keptDims input.dims axes_).prod : Nat) : Int) < 2 ^ 31 := by
    exact_mod_cast Nat.lt_of_le_of_lt hk hsize
  have h2 : (((entriesWhere false (keptMask input.dims.length axes_) input.dims).prod : Nat)
      : Int) < 2 ^ 31 := by
    exact_mod_cast Nat.lt_of_le_of_lt hr hsize
  unfold ReduceProd computeWith
  rw [PrepareForReduce_general input axes_ keepdims_ (freshState α) hv hpos hwf hgen]
  dsimp only
  rw [foldProd_ok _ h1 h2]
  simp only [Except.ok.injEq, Tensor.mk.injEq, true_and]
  unfold referenceProd
  simp only [Int.toNat_ofNat]
  apply List.map_congr_left
  intro j hj
  rw [foldl_mul_map_prod, one_mul]
  exact (slot_values_perm input axes_ hv hpos j (List.mem_range.1 hj)).prod_eq

/-- On the general gather path a loop bound of `2^31` or more makes the `int`
counter of `ReduceL1` overflow. -/
theorem ReduceL1_general_overflow {α : Type} [LinearOrderedRing α] (input : Tensor α)
    (axes_ : List Int) (keepdims_ : Bool)
    (hwf : input.WellFormed) (hpos : ∀ d ∈ input.dims, 0 < d)
    (hv : ValidAxes input.dims.length axes_)
    (hgen : takesFastPath input.dims axes_ = false)
    (hbig : 2 ^ 31 ≤ (keptDims input.dims axes_).prod ∨
      2 ^ 31 ≤ (entriesWhere false (keptMask input.dims.length axes_) input.dims).prod) :
    ReduceL1 input axes_ keepdims_ = .error .intOverflow := by
  obtain ⟨_, _, hk0, _⟩ := loop_bounds_le_size axes_ hpos
  unfold ReduceL1 computeWith
  rw [PrepareForReduce_general input axes_ keepdims_ (freshState α) hv hpos hwf hgen]
  dsimp only
  rw [foldL1_overflow]
  rcases hbig with h | h
  · exact Or.inl (by exact_mod_cast h)
  · exact Or.inr ⟨by exact_mod_cast hk0, by exact_mod_cast h⟩

/-- On the general gather path a loop bound of `2^31` or more makes the `int`
counter of `ReduceProd` overflow. -/
theorem ReduceProd_general_overflow {α : Type} [LinearOrderedRing α] (input : Tensor α)
    (axes_ : List Int) (keepdims_ : Bool)
    (hwf : input.WellFormed) (hpos : ∀ d ∈ input.dims, 0 < d)
    (hv : ValidAxes input.dims.length axes_)
    (hgen : takesFastPath input.dims axes_ = false)
    (hbig : 2 ^ 31 ≤ (keptDims input.dims axes_).prod ∨
      2 ^ 31 ≤ (entriesWhere false (keptMask input.dims.length axes_) input.dims).prod) :
    ReduceProd input axes_ keepdims_ = .error .intOverflow := by
  obtain ⟨_, _, hk0, _⟩ := loop_bounds_le_size axes_ hpos
  unfold ReduceProd computeWith
  rw [PrepareForReduce_general input axes_ keepdims_ (freshState α) hv hpos hwf hgen]
  dsimp only
  rw [foldProd_overflow]
  rcases hbig with h | h
  · exact Or.inl (by exact_mod_cast h)
  · exact Or.inr ⟨by exact_mod_cast hk0, by exact_mod_cast h⟩

/-- The general-path run on `dims = [2,3,4]`, reduce axis `1`, for both kernels. -/
theorem Reduce_general_on_2x3x4 :
    ReduceL1 (⟨[2, 3, 4], (List.range 24).map fun i => (i : Int)⟩ : Tensor Int) [1] false
      = .ok { dims := [2, 4], data := [12, 15, 18, 21, 48, 51, 54, 57] } ∧
    ReduceProd (⟨[2, 3, 4], (List.range 24).map fun i => (i : Int) + 1⟩ : Tensor Int) [1] false
      = .ok { dims := [2, 4],
              data := [45, 120, 231, 384, 4641, 5544, 6555, 7680] } := by
  decide

/-! ## The returned geometry -/

/-- For a dense tensor with positive dimension sizes and distinct in-range
axes, `PrepareForReduce` returns `blocks × block_size = total_size` on the
general path, and on the fast path as long as `(int)count` keeps the count. -/
theorem blocks_mul_block_size {α : Type} [Zero α] (input : Tensor α) (axes_ : List Int)
    (keepdims_ : Bool) (s : ReduceState α)
    (hv : ValidAxes input.dims.length axes_) (hpos : ∀ d ∈ input.dims, 0 < d)
    (hwf : input.WellFormed)
    (hsize : takesFastPath input.dims axes_ = true → input.Size < 2 ^ 31) :
    (PrepareForReduce input axes_ keepdims_ s).1 = none ∧
    (PrepareForReduce input axes_ keepdims_ s).2.blocks *
        (PrepareForReduce input axes_ keepdims_ s).2.block_size = (input.Size : Int) := by
  by_cases hfast : takesFastPath input.dims axes_ = true
  · rw [PrepareForReduce_fast input axes_ keepdims_ s hv.inRange hwf hfast]
    simp only [toInt32_of_lt (hsize hfast), mul_one, and_self]
  · rw [PrepareForReduce_general input axes_ keepdims_ s hv hpos hwf (by simpa using hfast)]
    simp only [true_and]
    rw [← Nat.cast_mul, keptDims, prod_entriesWhere _ _ (keptMask_length _ _), Tensor.Size]

/-- The frame of the fast path: the output handle is left as it was,
`block_size` is `1` and `blocks` is `(int)count`. -/
theorem PrepareForReduce_fast_path_frame {α : Type} [Zero α] (input : Tensor α)
    (axes_ : List Int) (keepdims_ : Bool) (s : ReduceState α)
    (hr : axesInRange input.dims.length axes_ = true) (hwf : input.WellFormed)
    (hfast : takesFastPath input.dims axes_ = true) :
    (PrepareForReduce input axes_ keepdims_ s).1 = none ∧
    (PrepareForReduce input axes_ keepdims_ s).2.reducedTensor = s.reducedTensor ∧
    (PrepareForReduce input axes_ keepdims_ s).2.block_size = 1 ∧
    (PrepareForReduce input axes_ keepdims_ s).2.blocks = toInt32 input.Size ∧
    (input.Size < 2 ^ 31 →
      (PrepareForReduce input axes_ keepdims_ s).2.blocks = (input.Size : Int)) := by
  rw [PrepareForReduce_fast input axes_ keepdims_ s hr hwf hfast]
  exact ⟨rfl, rfl, rfl, rfl, fun h => toInt32_of_lt h⟩

/-! ## Settled statements -/

/-- C1 (the code departs from the claim): the dense tensor of shape
`[1, 2^31]` with reduce axis `1` is a valid general-path input with positive
sizes. `PrepareForReduce` succeeds on it with the output shape `[1]`,
`block_size = 1` and `blocks = 2^31`, and the inner loop of `ReduceL1`,
`for (int i = 0; i < blocks; ++i)`, then increments its `int` counter past
`INT_MAX`: the run ends in the overflow instead of storing the sum of `|x|`
over the `2^31` elements that the reference gives. -/
theorem ReduceL1_counter_overflow :
    (⟨[1, 2 ^ 31], List.replicate (2 ^ 31) 1⟩ : Tensor Int).WellFormed ∧
    (∀ d ∈ [1, 2 ^ 31], 0 < d) ∧
    ValidAxes [1, 2 ^ 31].length [1] ∧
    transposed_axes [1, 2 ^ 31].length [1] ≠ List.range [1, 2 ^ 31].length ∧
    (PrepareForReduce (⟨[1, 2 ^ 31], List.replicate (2 ^ 31) 1⟩ : Tensor Int) [1] false
      (freshState Int)).1 = none ∧
    (PrepareForReduce (⟨[1, 2 ^ 31], List.replicate (2 ^ 31) 1⟩ : Tensor Int) [1] false
      (freshState Int)).2.reducedTensor = some [1] ∧
    (PrepareForReduce (⟨[1, 2 ^ 31], List.replicate (2 ^ 31) 1⟩ : Tensor Int) [1] false
      (freshState Int)).2.block_size = 1 ∧
    (PrepareForReduce (⟨[1, 2 ^ 31], List.replicate (2 ^ 31) 1⟩ : Tensor Int) [1] false
      (freshState Int)).2.blocks = 2 ^ 31 ∧
    ReduceL1 (⟨[1, 2 ^ 31], List.replicate (2 ^ 31) 1⟩ : Tensor Int) [1] false
      = .error .intOverflow ∧
    (referenceL1 (⟨[1, 2 ^ 31], List.replicate (2 ^ 31) 1⟩ : Tensor Int) [1]).length = 1 := by
  have hwf : (⟨[1, 2 ^ 31], List.replicate (2 ^ 31) 1⟩ : Tensor Int).WellFormed := by
    unfold Tensor.WellFormed Tensor.Size
    rw [List.length_replicate]
    rfl
  have hpos : ∀ d ∈ [1, 2 ^ 31], 0 < d := by decide
  have hv : ValidAxes [1, 2 ^ 31].length [1] := by decide
  have hgen : takesFastPath [1, 2 ^ 31] [1] = false := by decide
  have hp := PrepareForReduce_general (⟨[1, 2 ^ 31], List.replicate (2 ^ 31) 1⟩ : Tensor Int)
    [1] false (freshState Int) hv hpos hwf hgen
  refine ⟨hwf, hpos, hv, by decide, ?_, ?_, ?_, ?_, ?_, ?_⟩
  · rw [hp]
  · rw [hp]
    show some (reducedShape false (keptMask [1, 2 ^ 31].length [1]) [1, 2 ^ 31]) = some [1]
    decide
  · rw [hp]
    show (((keptDims [1, 2 ^ 31] [1]).prod : Nat) : Int) = 1
    decide
  · rw [hp]
    show (((entriesWhere false (keptMask [1, 2 ^ 31].length [1]) [1, 2 ^ 31]).prod : Nat) : Int)
      = 2 ^ 31
    decide
  · exact ReduceL1_general_overflow _ [1] false hwf hpos hv hgen (Or.inr (by decide))
  · unfold referenceL1
    rw [List.length_map, List.length_range]
    decide

/-- C2 (the code departs from the claim): on the dense tensor of shape
`[1, 2^31]` with reduce axis `1`, a valid general-path input with positive
sizes, `PrepareForReduce` succeeds with the output shape `[1]`,
`block_size = 1` and `blocks = 2^31`, and the inner loop of `ReduceProd`,
`for (int i = 0; i < blocks; ++i)`, then increments its `int` counter past
`INT_MAX`: the run ends in the overflow instead of storing the product of the
`2^31` elements. -/
theorem ReduceProd_counter_overflow :
    (⟨[1, 2 ^ 31], List.replicate (2 ^ 31) 1⟩ : Tensor Int).WellFormed ∧
    (∀ d ∈ [1, 2 ^ 31], 0 < d) ∧
    ValidAxes [1, 2 ^ 31].length [1] ∧
    takesFastPath [1, 2 ^ 31] [1] = false ∧
    (PrepareForReduce (⟨[1, 2 ^ 31], List.replicate (2 ^ 31) 1⟩ : Tensor Int) [1] false
      (freshState Int)).1 = none ∧
    (PrepareForReduce (⟨[1, 2 ^ 31], List.replicate (2 ^ 31) 1⟩ : Tensor Int) [1] false
      (freshState Int)).2.reducedTensor = some [1] ∧
    (PrepareForReduce (⟨[1, 2 ^ 31], List.replicate (2 ^ 31) 1⟩ : Tensor Int) [1] false
      (freshState Int)).2.block_size = 1 ∧
    (PrepareForReduce (⟨[1, 2 ^ 31], List.replicate (2 ^ 31) 1⟩ : Tensor Int) [1] false
      (freshState Int)).2.blocks = 2 ^ 31 ∧
    ReduceProd (⟨[1, 2 ^ 31], List.replicate (2 ^ 31) 1⟩ : Tensor Int) [1] false
      = .error .intOverflow ∧
    (referenceProd (⟨[1, 2 ^ 31], List.replicate (2 ^ 31) 1⟩ : Tensor Int) [1]).length = 1 := by
  have hwf : (⟨[1, 2 ^ 31], List.replicate (2 ^ 31) 1⟩ : Tensor Int).WellFormed := by
    unfold Tensor.WellFormed Tensor.Size
    rw [List.length_replicate]
    rfl
  have hpos : ∀ d ∈ [1, 2 ^ 31], 0 < d := by decide
  have hv : ValidAxes [1, 2 ^ 31].length [1] := by decide
  have hgen : takesFastPath [1, 2 ^ 31] [1] = false := by decide
  have hp := PrepareForReduce_general (⟨[1, 2 ^ 31], List.replicate (2 ^ 31) 1⟩ : Tensor Int)
    [1] false (freshState Int) hv hpos hwf hgen
  refine ⟨hwf, hpos, hv, hgen, ?_, ?_, ?_, ?_, ?_, ?_⟩
  · rw [hp]
  · rw [hp]
    show some (reducedShape false (keptMask [1, 2 ^ 31].length [1]) [1, 2 ^ 31]) = some [1]
    decide
  · rw [hp]
    show (((keptDims [1, 2 ^ 31] [1]).prod : Nat) : Int) = 1
    decide
  · rw [hp]
    show (((entriesWhere false (keptMask [1, 2 ^ 31].length [1]) [1, 2 ^ 31]).prod : Nat) : Int)
      = 2 ^ 31
    decide
  · exact ReduceProd_general_overflow _ [1] false hwf hpos hv hgen (Or.inr (by decide))
  · unfold referenceProd
    rw [List.length_map, List.length_range]
    decide

/-- C3 (the code departs from the claim): on the tensor `[[1,2,3],[4,5,6]]`
with reduce axes `{0}` and `keepdims = false` the planned permutation is the
identity, so `PrepareForReduce` takes the fast path: it returns `block_size = 1`,
`blocks = 6` and leaves the output handle unassigned. `ReduceProd` and `ReduceL1`
therefore end in the use of the unassigned handle, and their folds compute the
single values `720` and `21`; the outputs the claim states, `[4, 10, 18]` and
`[5, 7, 9]`, are those of the references. -/
theorem reduce_axis0_of_2x3 :
    PrepareForReduce (⟨[2, 3], [1, 2, 3, 4, 5, 6]⟩ : Tensor Int) [0] false (freshState Int)
      = (none, ⟨[1, 2, 3, 4, 5, 6], none, 1, 6⟩) ∧
    ReduceProd (⟨[2, 3], [1, 2, 3, 4, 5, 6]⟩ : Tensor Int) [0] false = .error .unsetOutput ∧
    ReduceL1 (⟨[2, 3], [1, 2, 3, 4, 5, 6]⟩ : Tensor Int) [0] false = .error .unsetOutput ∧
    foldProd ([1, 2, 3, 4, 5, 6] : List Int) 1 6 = .ok [720] ∧
    foldL1 ([1, 2, 3, 4, 5, 6] : List Int) 1 6 = .ok [21] ∧
    referenceProd (⟨[2, 3], [1, 2, 3, 4, 5, 6]⟩ : Tensor Int) [0] = [4, 10, 18] ∧
    referenceL1 (⟨[2, 3], [1, 2, 3, 4, 5, 6]⟩ : Tensor Int) [0] = [5, 7, 9] := by
  decide

/-- C4 (the code departs from the claim): `dims = [4,2,3]` with the distinct
in-range axes `[0,1]` is a valid input, yet `PrepareForReduce` produces no
output tensor for it, with `keepdims` true or false: the call takes the fast
path and returns with the output handle still unassigned, so there is no
output of rank `3` (or `1`) whose kept axis has size `3`. -/
theorem PrepareForReduce_valid_without_output :
    ValidAxes [4, 2, 3].length [0, 1] ∧
    (PrepareForReduce (⟨[4, 2, 3], List.replicate 24 1⟩ : Tensor Int) [0, 1] true
      (freshState Int)).1 = none ∧
    (PrepareForReduce (⟨[4, 2, 3], List.replicate 24 1⟩ : Tensor Int) [0, 1] true
      (freshState Int)).2.reducedTensor = none ∧
    (PrepareForReduce (⟨[4, 2, 3], List.replicate 24 1⟩ : Tensor Int) [0, 1] false
      (freshState Int)).1 = none ∧
    (PrepareForReduce (⟨[4, 2, 3], List.replicate 24 1⟩ : Tensor Int) [0, 1] false
      (freshState Int)).2.reducedTensor = none := by
  decide

/-- C5 (the code departs from the claim): reducing the tensor `[[1,-2],[3,-4]]`
over both of its axes takes the fast path. The folds over the scratch buffer
compute the single values `10` (L1) and `24` (product), but `PrepareForReduce`
has left the output handle unassigned, so `ReduceL1` and `ReduceProd` end in the
use of the unassigned handle instead of yielding a one-element output. -/
theorem reduce_all_axes_of_2x2 :
    PrepareForReduce (⟨[2, 2], [1, -2, 3, -4]⟩ : Tensor Int) [0, 1] false (freshState Int)
      = (none, ⟨[1, -2, 3, -4], none, 1, 4⟩) ∧
    ReduceL1 (⟨[2, 2], [1, -2, 3, -4]⟩ : Tensor Int) [0, 1] false = .error .unsetOutput ∧
    ReduceProd (⟨[2, 2], [1, -2, 3, -4]⟩ : Tensor Int) [0, 1] false = .error .unsetOutput ∧
    foldL1 ([1, -2, 3, -4] : List Int) 1 4 = .ok [10] ∧
    foldProd ([1, -2, 3, -4] : List Int) 1 4 = .ok [24] := by
  decide

/-- C6 (the code departs from the claim): `ReduceProd` of the vector `[2,3,4]`
with an empty reduce-axis list takes the fast path with `block_size = 1` and
`blocks = 3`. Its fold covers one block of three elements and computes the
single value `24`, not the three values `2, 3, 4`, and the call ends in the use
of the unassigned output handle. -/
theorem ReduceProd_no_axes_of_vector :
    PrepareForReduce (⟨[3], [2, 3, 4]⟩ : Tensor Int) [] false (freshState Int)
      = (none, ⟨[2, 3, 4], none, 1, 3⟩) ∧
    ReduceProd (⟨[3], [2, 3, 4]⟩ : Tensor Int) [] false = .error .unsetOutput ∧
    foldProd ([2, 3, 4] : List Int) 1 3 = .ok [24] := by
  decide

/-- C7: listing the same reduce axes in another order changes nothing. For any
two axis lists that are permutations of each other `PrepareForReduce` returns
the same outcome (error, scratch buffer, `block_size`, `blocks`, output shape),
and so do `ReduceL1`, `ReduceL2` (for every `sqrt`) and `ReduceProd`. -/
theorem PrepareForReduce_axes_perm {α : Type} [LinearOrderedRing α] (input : Tensor α)
    (axes₁ axes₂ : List Int) (keepdims_ : Bool) (s : ReduceState α)
    (h : axes₁.Perm axes₂) :
    PrepareForReduce input axes₁ keepdims_ s = PrepareForReduce input axes₂ keepdims_ s ∧
    ReduceL1 input axes₁ keepdims_ = ReduceL1 input axes₂ keepdims_ ∧
    (∀ sqrt : α → α, ReduceL2 sqrt input axes₁ keepdims_ = ReduceL2 sqrt input axes₂ keepdims_) ∧
    ReduceProd input axes₁ keepdims_ = ReduceProd input axes₂ keepdims_ := by
  have hsort : axes₁.insertionSort (· ≤ ·) = axes₂.insertionSort (· ≤ ·) := by
    apply List.eq_of_perm_of_sorted (r := (· ≤ ·)) ?_ (List.sorted_insertionSort _ _)
      (List.sorted_insertionSort _ _)
    exact ((List.perm_insertionSort _ _).trans h).trans (List.perm_insertionSort _ _).symm
  have hsa : sortedAxes axes₁ = sortedAxes axes₂ := by unfold sortedAxes; rw [hsort]
  have hta : ∀ n, transposed_axes n axes₁ = transposed_axes n axes₂ := by
    intro n; unfold transposed_axes; rw [hsa]
  have hr : ∀ n, axesInRange n axes₁ = axesInRange n axes₂ := by
    intro n
    rw [Bool.eq_iff_iff, axesInRange_iff, axesInRange_iff]
    exact ⟨fun hh a ha => hh a (h.mem_iff.2 ha), fun hh a ha => hh a (h.mem_iff.1 ha)⟩
  have hp : ∀ (β : Type) [Zero β] (inp : Tensor β) (st : ReduceState β),
      PrepareForReduce inp axes₁ keepdims_ st = PrepareForReduce inp axes₂ keepdims_ st := by
    intro β _ inp st
    unfold PrepareForReduce
    simp only [hr, hta, hsa]
  refine ⟨hp α input s, ?_, ?_, ?_⟩
  · unfold ReduceL1 computeWith; rw [hp]
  · intro sqrt; unfold ReduceL2 computeWith; rw [hp]
  · unfold ReduceProd computeWith; rw [hp]

/-- Witness for C7 on `dims = [2,3,4]` with the axes listed as `[2,0]` and as `[0,2]`. -/
theorem PrepareForReduce_axes_perm_witness :
    PrepareForReduce (⟨[2, 3, 4], List.replicate 24 (1 : Int)⟩ : Tensor Int) [2, 0] false
        (freshState Int)
      = PrepareForReduce ⟨[2, 3, 4], List.replicate 24 (1 : Int)⟩ [0, 2] false (freshState Int) :=
  (PrepareForReduce_axes_perm ⟨[2, 3, 4], List.replicate 24 (1 : Int)⟩ [2, 0] [0, 2] false
    (freshState Int) (List.Perm.swap 0 2 [])).1

/-- C8: `PrepareForReduce` reports `axisOutOfRange` exactly when some listed
axis is negative or at least `ndim`, and a call that reports it returns the
reference parameters (scratch buffer, output handle, `block_size`, `blocks`)
exactly as it received them. -/
theorem PrepareForReduce_axisOutOfRange {α : Type} [Zero α] (input : Tensor α)
    (axes_ : List Int) (keepdims_ : Bool) (s : ReduceState α) :
    ((PrepareForReduce input axes_ keepdims_ s).1 = some .axisOutOfRange ↔
      ∃ a ∈ axes_, a < 0 ∨ (input.dims.length : Int) ≤ a) ∧
    ((PrepareForReduce input axes_ keepdims_ s).1 = some .axisOutOfRange →
      (PrepareForReduce input axes_ keepdims_ s).2 = s) := by
  by_cases hr : axesInRange input.dims.length axes_ = true
  · have hne := PrepareForReduce_inRange_error input axes_ keepdims_ s hr
    refine ⟨⟨fun h => absurd h hne, ?_⟩, fun h => absurd h hne⟩
    rintro ⟨a, ha, hbad⟩
    have := (axesInRange_iff _ _).1 hr a ha
    omega
  · have hres : PrepareForReduce input axes_ keepdims_ s = (some .axisOutOfRange, s) := by
      unfold PrepareForReduce
      simp [hr]
    refine ⟨⟨fun _ => ?_, fun _ => by rw [hres]⟩, fun _ => by rw [hres]⟩
    by_contra hcon
    apply hr
    rw [axesInRange_iff]
    intro a ha
    by_contra hbad
    exact hcon ⟨a, ha, by omega⟩

/-- Witness for C8: axis `5` on a tensor with `ndim = 3` and a caller state that
already holds data and a handle. -/
theorem PrepareForReduce_axisOutOfRange_witness :
    (PrepareForReduce (⟨[2, 3, 4], List.replicate 24 (1 : Int)⟩ : Tensor Int) [5] false
        ⟨[7, 8], some [9], 3, 4⟩).2 = ⟨[7, 8], some [9], 3, 4⟩ :=
  (PrepareForReduce_axisOutOfRange ⟨[2, 3, 4], List.replicate 24 (1 : Int)⟩ [5] false
    ⟨[7, 8], some [9], 3, 4⟩).2 (by decide)

/-- C9: for distinct axes in `[0, ndim)` the planned permutation
`transposed_axes` has length `ndim`, holds only indices below `ndim`, and holds
every index below `ndim` exactly once. -/
theorem transposed_axes_bijection (dims : List Nat) (axes_ : List Int)
    (h : ValidAxes dims.length axes_) :
    (transposed_axes dims.length axes_).length = dims.length ∧
    (∀ a ∈ transposed_axes dims.length axes_, a < dims.length) ∧
    ∀ a, a < dims.length → (transposed_axes dims.length axes_).count a = 1 := by
  have hp := transposed_axes_perm h
  refine ⟨transposed_axes_length h, fun a ha => List.mem_range.1 (hp.mem_iff.1 ha), ?_⟩
  intro a ha
  rw [hp.count_eq]
  exact List.count_eq_one_of_mem (List.nodup_range _) (List.mem_range.2 ha)

/-- Witness for C9 on `dims = [4,2,3]`, axes `[2,0]`. -/
theorem transposed_axes_bijection_witness :
    ValidAxes [4, 2, 3].length [2, 0] ∧
    (transposed_axes [4, 2, 3].length [2, 0]).length = [4, 2, 3].length ∧
    (∀ a ∈ transposed_axes [4, 2, 3].length [2, 0], a < [4, 2, 3].length) ∧
    ∀ a, a < [4, 2, 3].length → (transposed_axes [4, 2, 3].length [2, 0]).count a = 1 :=
  ⟨by decide, transposed_axes_bijection [4, 2, 3] [2, 0] (by decide)⟩

/-- C10: for distinct axes in `[0, ndim)` the planned permutation is the
reduced axes in ascending order followed by the kept axes in ascending order;
its first part is the sorted axis list (a sorted rearrangement of `axes_`), and
at every position `i < ndim` the permuted dimension vector holds
`dims[permutation[i]]`. -/
theorem transposed_axes_layout (dims : List Nat) (axes_ : List Int)
    (h : ValidAxes dims.length axes_) :
    transposed_axes dims.length axes_
      = (List.range dims.length).filter (fun i : Nat => decide ((i : Int) ∈ axes_))
        ++ (List.range dims.length).filter (fun i : Nat => decide ((i : Int) ∉ axes_)) ∧
    (((List.range dims.length).filter (fun i : Nat => decide ((i : Int) ∈ axes_))).map
      (fun i : Nat => (i : Int))).Perm axes_ ∧
    (((List.range dims.length).filter (fun i : Nat => decide ((i : Int) ∈ axes_))).map
      (fun i : Nat => (i : Int))) = axes_.insertionSort (· ≤ ·) ∧
    ∀ i, i < dims.length → ∃ a, (transposed_axes dims.length axes_)[i]? = some a ∧
      a < dims.length ∧
      (new_dims_ dims (transposed_axes dims.length axes_))[i]? = dims[a]? := by
  have hsorted : ((List.range dims.length).filter (fun i : Nat => decide ((i : Int) ∈ axes_))).map
      (fun i : Nat => (i : Int)) = axes_.insertionSort (· ≤ ·) := by
    rw [← sortedAxes_eq_filter h]
    unfold sortedAxes
    rw [List.map_map]
    conv_rhs => rw [← List.map_id (axes_.insertionSort (· ≤ ·))]
    apply List.map_congr_left
    intro a ha
    have := (h.2 a ((List.mem_insertionSort _).1 ha)).1
    simp [Int.toNat_of_nonneg this]
  refine ⟨transposed_axes_valid h, ?_, hsorted, ?_⟩
  · rw [hsorted]; exact List.perm_insertionSort _ _
  · intro i hi
    have hlen := transposed_axes_length h
    have hi' : i < (transposed_axes dims.length axes_).length := by rw [hlen]; exact hi
    refine ⟨(transposed_axes dims.length axes_)[i], List.getElem?_eq_getElem hi', ?_, ?_⟩
    · exact List.mem_range.1 ((transposed_axes_perm h).mem_iff.1 (List.getElem_mem hi'))
    · have hlt : (transposed_axes dims.length axes_)[i] < dims.length :=
        List.mem_range.1 ((transposed_axes_perm h).mem_iff.1 (List.getElem_mem hi'))
      simp [new_dims_, List.getElem?_map, List.getElem?_eq_getElem hi',
        List.getD_eq_getElem?_getD, List.getElem?_eq_getElem hlt]

/-- Witness for C10 on `dims = [4,2,3]`, axes `[2,0]`: the permutation is `[0,2,1]`. -/
theorem transposed_axes_layout_witness :
    ValidAxes [4, 2, 3].length [2, 0] ∧
    transposed_axes [4, 2, 3].length [2, 0]
      = (List.range [4, 2, 3].length).filter (fun i : Nat => decide ((i : Int) ∈ [2, 0]))
        ++ (List.range [4, 2, 3].length).filter (fun i : Nat => decide ((i : Int) ∉ [2, 0])) :=
  ⟨by decide, (transposed_axes_layout [4, 2, 3] [2, 0] (by decide)).1⟩

/-- C11 (the code departs from the claim): for `dims = [3,4]` with reduce axes
`{0}`, a valid input, the true geometry is `blocks = 3` (the size of the
reduced axis) and `block_size = 4` (the size of the kept axis), but the call
takes the fast path and returns the placeholders `blocks = 12`,
`block_size = 1`. -/
theorem PrepareForReduce_fast_path_geometry :
    ValidAxes [3, 4].length [0] ∧
    (PrepareForReduce (⟨[3, 4], List.replicate 12 1⟩ : Tensor Int) [0] false (freshState Int)).1
      = none ∧
    (PrepareForReduce (⟨[3, 4], List.replicate 12 1⟩ : Tensor Int) [0] false
      (freshState Int)).2.blocks = 12 ∧
    (PrepareForReduce (⟨[3, 4], List.replicate 12 1⟩ : Tensor Int) [0] false
      (freshState Int)).2.block_size = 1 ∧
    (entriesWhere false (keptMask [3, 4].length [0]) [3, 4]).prod = 3 ∧
    (keptDims [3, 4] [0]).prod = 4 := by
  decide

/-- C12 (the code departs from the claim): the vector of `2^31` elements with
no reduce axis is a valid input with positive sizes; it takes the fast path,
whose `blocks = (int)count` narrows the element count to 32 bits. The call
returns `block_size = 1` and `blocks = -2^31`, so `blocks × block_size` is not
the element count. -/
theorem blocks_mul_block_size_narrowed :
    (⟨[2 ^ 31], List.replicate (2 ^ 31) 0⟩ : Tensor Int).WellFormed ∧
    ValidAxes [2 ^ 31].length [] ∧
    (∀ d ∈ [2 ^ 31], 0 < d) ∧
    ¬ ((PrepareForReduce (⟨[2 ^ 31], List.replicate (2 ^ 31) 0⟩ : Tensor Int) [] false
          (freshState Int)).2.blocks *
        (PrepareForReduce (⟨[2 ^ 31], List.replicate (2 ^ 31) 0⟩ : Tensor Int) [] false
          (freshState Int)).2.block_size
      = ((⟨[2 ^ 31], List.replicate (2 ^ 31) 0⟩ : Tensor Int).Size : Int)) := by
  have hwf : (⟨[2 ^ 31], List.replicate (2 ^ 31) 0⟩ : Tensor Int).WellFormed := by
    unfold Tensor.WellFormed Tensor.Size
    rw [List.length_replicate]
    rfl
  refine ⟨hwf, validAxes_nil _, by decide, ?_⟩
  rw [PrepareForReduce_fast _ [] false (freshState Int) rfl hwf (takesFastPath_no_axes _)]
  show ¬ (toInt32 ([2 ^ 31].prod) * 1 = (([2 ^ 31].prod : Nat) : Int))
  decide

/-- C14: whenever `PrepareForReduce` takes the fast path on a dense tensor of
fewer than `2^31` elements, it succeeds, the scratch buffer has `total_size`
elements and equals the input buffer, `block_size` is `1` and `blocks` is
`total_size`. -/
theorem PrepareForReduce_fast_path_copy {α : Type} [Zero α] (input : Tensor α)
    (axes_ : List Int) (keepdims_ : Bool) (s : ReduceState α)
    (hr : axesInRange input.dims.length axes_ = true) (hwf : input.WellFormed)
    (hfast : takesFastPath input.dims axes_ = true) (hsize : input.Size < 2 ^ 31) :
    (PrepareForReduce input axes_ keepdims_ s).1 = none ∧
    (PrepareForReduce input axes_ keepdims_ s).2.transposedInputData.length = input.Size ∧
    (PrepareForReduce input axes_ keepdims_ s).2.transposedInputData = input.data ∧
    (PrepareForReduce input axes_ keepdims_ s).2.block_size = 1 ∧
    (PrepareForReduce input axes_ keepdims_ s).2.blocks = (input.Size : Int) := by
  rw [PrepareForReduce_fast input axes_ keepdims_ s hr hwf hfast]
  exact ⟨rfl, hwf, rfl, rfl, toInt32_of_lt hsize⟩

/-- Witness for C14: `dims = [2,3]` with reduce axis `0`, into a scratch vector
that already holds other data. -/
theorem PrepareForReduce_fast_path_copy_witness :
    (PrepareForReduce (⟨[2, 3], [1, 2, 3, 4, 5, 6]⟩ : Tensor Int) [0] false
        ⟨[9, 9], none, 0, 0⟩).2.transposedInputData = [1, 2, 3, 4, 5, 6] :=
  (PrepareForReduce_fast_path_copy ⟨[2, 3], [1, 2, 3, 4, 5, 6]⟩ [0] false ⟨[9, 9], none, 0, 0⟩
    (by decide) (by decide) (by decide) (by decide)).2.2.1

/-- C16 (the code departs from the claim): the `2^16 × 2^16` tensor with
reduce axis `0` takes the fast path, whose `blocks = (int)count` narrows the
element count to 32 bits: the returned `blocks` is `0`, not the placeholder
`total_size = 2^32` that the claim states. -/
theorem fast_path_blocks_not_total :
    takesFastPath [2 ^ 16, 2 ^ 16] [0] = true ∧
    (PrepareForReduce (⟨[2 ^ 16, 2 ^ 16], List.replicate (2 ^ 32) 0⟩ : Tensor Int) [0] false
        (freshState Int)).2.blocks = 0 ∧
    ¬ ((PrepareForReduce (⟨[2 ^ 16, 2 ^ 16], List.replicate (2 ^ 32) 0⟩ : Tensor Int) [0] false
        (freshState Int)).2.blocks
      = ((⟨[2 ^ 16, 2 ^ 16], List.replicate (2 ^ 32) 0⟩ : Tensor Int).Size : Int)) := by
  have hwf : (⟨[2 ^ 16, 2 ^ 16], List.replicate (2 ^ 32) 0⟩ : Tensor Int).WellFormed := by
    unfold Tensor.WellFormed Tensor.Size
    rw [List.length_replicate]
    rfl
  have hfast : takesFastPath [2 ^ 16, 2 ^ 16] [0] = true := by decide
  refine ⟨hfast, ?_, ?_⟩
  · rw [PrepareForReduce_fast _ [0] false (freshState Int) (by decide) hwf hfast]
    show toInt32 ([2 ^ 16, 2 ^ 16].prod) = 0
    decide
  · rw [PrepareForReduce_fast _ [0] false (freshState Int) (by decide) hwf hfast]
    show ¬ (toInt32 ([2 ^ 16, 2 ^ 16].prod) = (([2 ^ 16, 2 ^ 16].prod : Nat) : Int))
    decide

/-- C17: on the general path of a dense tensor with distinct in-range axes, the
shape passed to the output allocation is the input dimension vector with every
reduced axis replaced by `1` at its position when `keepdims_` is set, and with
every reduced axis deleted otherwise, the kept axes keeping their sizes and
their order; when the call succeeds the number of elements of that shape is the
returned `block_size`. -/
theorem PrepareForReduce_output_shape {α : Type} [Zero α] (input : Tensor α)
    (axes_ : List Int) (keepdims_ : Bool) (s : ReduceState α)
    (hv : ValidAxes input.dims.length axes_) (hwf : input.WellFormed)
    (hgen : takesFastPath input.dims axes_ = false) :
    ∃ shape, (PrepareForReduce input axes_ keepdims_ s).2.reducedTensor = some shape ∧
      (keepdims_ = true → shape = (List.range input.dims.length).map fun i : Nat =>
        if (i : Int) ∈ axes_ then 1 else input.dims.getD i 0) ∧
      (keepdims_ = false → shape
        = ((List.range input.dims.length).filter fun i : Nat => decide ((i : Int) ∉ axes_)).map
            fun i => input.dims.getD i 0) ∧
      ((PrepareForReduce input axes_ keepdims_ s).1 = none →
        ((shape.prod : Nat) : Int) = (PrepareForReduce input axes_ keepdims_ s).2.block_size) := by
  obtain ⟨h1, h2, _⟩ := PrepareForReduce_general_any input axes_ keepdims_ s hv hwf hgen
  have hml := keptMask_length input.dims.length axes_
  refine ⟨_, h1, ?_, ?_, ?_⟩
  · intro hk
    subst hk
    rw [reducedShape_keepdims_eq _ _ hml]
    apply List.map_congr_left
    intro i hi
    rw [keptMask_getD _ _ _ (List.mem_range.1 hi)]
    by_cases hmem : (i : Int) ∈ axes_ <;> simp [hmem]
  · intro hk
    subst hk
    rw [reducedShape_squeeze, ← map_getD_positionsWhere _ _ _ hml,
      ← filter_range_eq_positionsWhere, hml]
    congr 1
    apply List.filter_congr
    intro i hi
    rw [keptMask_getD _ _ _ (List.mem_range.1 hi)]
    simp
  · intro hok
    rw [(h2 hok).2.1, reducedShape_prod, keptDims]

/-- Witness for C17: `dims = [2,3,4]`, reduce axis `1`, `keepdims_` set: the
allocated shape is `[2,1,4]`. -/
theorem PrepareForReduce_output_shape_witness :
    (PrepareForReduce (⟨[2, 3, 4], List.replicate 24 1⟩ : Tensor Int) [1] true
        (freshState Int)).2.reducedTensor = some [2, 1, 4] ∧
    ∃ shape, (PrepareForReduce (⟨[2, 3, 4], List.replicate 24 1⟩ : Tensor Int) [1] true
        (freshState Int)).2.reducedTensor = some shape ∧
      (true = true → shape = (List.range [2, 3, 4].length).map fun i : Nat =>
        if (i : Int) ∈ [1] then 1 else [2, 3, 4].getD i 0) :=
  ⟨by decide,
    let ⟨shape, h1, h2, _⟩ := PrepareForReduce_output_shape
      (⟨[2, 3, 4], List.replicate 24 1⟩ : Tensor Int) [1] true (freshState Int)
      (by decide) (by decide) (by decide)
    ⟨shape, h1, h2⟩⟩

/-- C19: the two copy loops of the general path agree. The single-element loop
returns, on every input, what the block-copy loop returns when it is run with
`blocksize = 1`; in particular the gather of a tensor whose `blocksize` is `1`
is the block-copy loop with `blocksize = 1` over all `count` elements. -/
theorem element_loop_agrees_with_block_loop {α : Type} (from_data : List α)
    (in_dims transposed strides new_dims : List Nat)
    (itr_axes n index n_shared_idxs count : Nat) (itr_idxs : List Nat) (to_data : List α) :
    elementCopyLoop from_data strides new_dims itr_axes n index itr_idxs to_data
      = blockCopyLoop from_data 1 strides new_dims itr_axes n index itr_idxs to_data ∧
    gatherCopy in_dims from_data transposed new_dims 1 n_shared_idxs count to_data
      = blockCopyLoop from_data 1
          (stride_x transposed in_dims (transposed.length - n_shared_idxs)) new_dims
          (transposed.length - n_shared_idxs) count 0
          (List.replicate (transposed.length - n_shared_idxs) 0) to_data := by
  refine ⟨elementCopyLoop_eq_blockCopyLoop _ _ _ _ _ _ _ _, ?_⟩
  unfold gatherCopy
  simp only [gt_iff_lt, lt_self_iff_false, if_false]
  exact elementCopyLoop_eq_blockCopyLoop _ _ _ _ _ _ _ _

/-- C20: a duplicated in-range axis corrupts the plan. For `axes_ = [1,1]` on
`dims = [2,3]` the planned permutation is `[1,1,0]`: it holds axis `1` twice
and has length `3 > ndim`; the derived `permuted_dims` is `[3,3,2]`, which is
not a rearrangement of `dims`, and its product `18` is not `total_size = 6`. -/
theorem transposed_axes_duplicate :
    (∀ a ∈ ([1, 1] : List Int), 0 ≤ a ∧ a < (([2, 3] : List Nat).length : Int)) ∧
    transposed_axes [2, 3].length [1, 1] = [1, 1, 0] ∧
    (transposed_axes [2, 3].length [1, 1]).count 1 = 2 ∧
    [2, 3].length < (transposed_axes [2, 3].length [1, 1]).length ∧
    new_dims_ [2, 3] (transposed_axes [2, 3].length [1, 1]) = [3, 3, 2] ∧
    ¬ (new_dims_ [2, 3] (transposed_axes [2, 3].length [1, 1])).Perm [2, 3] ∧
    (new_dims_ [2, 3] (transposed_axes [2, 3].length [1, 1])).prod ≠ [2, 3].prod := by
  refine ⟨by decide, by decide, by decide, by decide, by decide, ?_, by decide⟩
  intro h
  have := h.length_eq
  revert this
  decide

/-- C13: on the general path the scratch buffer is the row-major transpose of
the input by the planned permutation. For a dense tensor with positive sizes
and distinct in-range axes that takes the general path, and for every
multi-index `ks` below `permuted_dims` and coordinate list `c` whose coordinate
on axis `permutation[i]` is `ks[i]`, the scratch element at the row-major
offset of `ks` in `permuted_dims` exists and is the input element at the
row-major offset of `c` in `dims`. -/
theorem scratch_is_transpose {α : Type} [Zero α] (input : Tensor α) (axes_ : List Int)
    (keepdims_ : Bool) (s : ReduceState α)
    (hv : ValidAxes input.dims.length axes_) (hpos : ∀ d ∈ input.dims, 0 < d)
    (hwf : input.WellFormed) (hgen : takesFastPath input.dims axes_ = false)
    (ks c : List Nat)
    (hks : List.Forall₂ (· < ·) ks
      (new_dims_ input.dims (transposed_axes input.dims.length axes_)))
    (hc : c.length = input.dims.length)
    (hkc : ∀ i, i < input.dims.length →
      c.getD ((transposed_axes input.dims.length axes_).getD i 0) 0 = ks.getD i 0) :
    ravel (new_dims_ input.dims (transposed_axes input.dims.length axes_)) ks
      < (PrepareForReduce input axes_ keepdims_ s).2.transposedInputData.length ∧
    ravel input.dims c < input.data.length ∧
    (PrepareForReduce input axes_ keepdims_ s).2.transposedInputData[
        ravel (new_dims_ input.dims (transposed_axes input.dims.length axes_)) ks]?
      = input.data[ravel input.dims c]? := by
  have hlen := transposed_axes_length hv
  have hp : ravel (new_dims_ input.dims (transposed_axes input.dims.length axes_)) ks
      < input.Size := by
    have := ravel_lt hks
    rwa [new_dims_prod input.dims axes_ hv] at this
  have hkl : ks.length = (transposed_axes input.dims.length axes_).length := by
    rw [hks.length_eq]; simp [new_dims_]
  have hmap : ks = (transposed_axes input.dims.length axes_).map fun a => c.getD a 0 := by
    apply List.ext_getElem
    · rw [hkl, List.length_map]
    · intro i h1 h2
      have hi : i < input.dims.length := by rw [← hlen, ← hkl]; exact h1
      have hi' : i < (transposed_axes input.dims.length axes_).length := by rw [hlen]; exact hi
      have := hkc i hi
      rw [List.getD_eq_getElem?_getD (l := ks), List.getElem?_eq_getElem h1,
        List.getD_eq_getElem?_getD (l := transposed_axes input.dims.length axes_),
        List.getElem?_eq_getElem hi'] at this
      simp only [Option.getD_some] at this
      rw [List.getElem_map, this]
  have hsrc : transposeSource input.dims axes_
      (ravel (new_dims_ input.dims (transposed_axes input.dims.length axes_)) ks)
      = ravel input.dims c := by
    unfold transposeSource
    rw [unravel_ravel hks, hmap, offsetVia_perm _ _ _ (transposed_axes_perm hv) hc]
  have hq : ravel input.dims c < input.data.length := by
    rw [← hsrc, hwf]
    exact transposeSource_lt input.dims axes_ hv hpos _
  rw [PrepareForReduce_general input axes_ keepdims_ s hv hpos hwf hgen]
  refine ⟨by simpa using hp, hq, ?_⟩
  simp only [List.getElem?_map, List.getElem?_range hp, Option.map_some', hsrc,
    List.getD_eq_getElem?_getD, List.getElem?_eq_getElem hq, Option.getD_some]

/-- Witness for C13: the `ThreeDim` transpose test. `dims = [4,2,3]` with
reduce axes `{0,2}` plans the permutation `[0,2,1]`, the scratch buffer holds
the `expected_vals` of the test, and the position `[1,2,1]` of the permuted
shape holds the input element at `[1,1,2]`. -/
theorem scratch_is_transpose_witness :
    transposed_axes [4, 2, 3].length [0, 2] = [0, 2, 1] ∧
    (PrepareForReduce
      (⟨[4, 2, 3],
        [1.0, 2.0, 3.0, 4.0, 5.0, 6.0, 1.1, 2.1, 3.1, 4.1, 5.1, 6.1,
         1.2, 2.2, 3.2, 4.2, 5.2, 6.2, 1.3, 2.3, 3.3, 4.3, 5.3, 6.3]⟩ : Tensor ℚ)
      [0, 2] false (freshState ℚ)).2.transposedInputData
      = [1.0, 4.0, 2.0, 5.0, 3.0, 6.0, 1.1, 4.1, 2.1, 5.1, 3.1, 6.1,
         1.2, 4.2, 2.2, 5.2, 3.2, 6.2, 1.3, 4.3, 2.3, 5.3, 3.3, 6.3] ∧
    (PrepareForReduce
      (⟨[4, 2, 3],
        [1.0, 2.0, 3.0, 4.0, 5.0, 6.0, 1.1, 2.1, 3.1, 4.1, 5.1, 6.1,
         1.2, 2.2, 3.2, 4.2, 5.2, 6.2, 1.3, 2.3, 3.3, 4.3, 5.3, 6.3]⟩ : Tensor ℚ)
      [0, 2] false (freshState ℚ)).2.transposedInputData[
        ravel (new_dims_ [4, 2, 3] (transposed_axes [4, 2, 3].length [0, 2])) [1, 2, 1]]?
      = ([1.0, 2.0, 3.0, 4.0, 5.0, 6.0, 1.1, 2.1, 3.1, 4.1, 5.1, 6.1,
         1.2, 2.2, 3.2, 4.2, 5.2, 6.2, 1.3, 2.3, 3.3, 4.3, 5.3, 6.3] : List ℚ)[
        ravel [4, 2, 3] [1, 1, 2]]? :=
  ⟨by decide, by rfl,
    (scratch_is_transpose
      (⟨[4, 2, 3],
        [1.0, 2.0, 3.0, 4.0, 5.0, 6.0, 1.1, 2.1, 3.1, 4.1, 5.1, 6.1,
         1.2, 2.2, 3.2, 4.2, 5.2, 6.2, 1.3, 2.3, 3.3, 4.3, 5.3, 6.3]⟩ : Tensor ℚ)
      [0, 2] false (freshState ℚ) (by decide) (by decide) (by decide) (by decide)
      [1, 2, 1] [1, 1, 2] (by decide) (by decide) (by decide)).2.2⟩

/-- C18: on the general path of a dense tensor with positive sizes and distinct
in-range axes the gather stays in bounds. The call raises no error; the gather
is the sequence of copies listed by its trace, `total_size / blocksize` of
them, and it returns a buffer; and in every iteration the source run
`[blocksize * from_index, blocksize * from_index + blocksize)` lies within the
input, the destination run `[blocksize * index, blocksize * index + blocksize)`
lies within the scratch buffer, and every odometer digit that is read is below
its permuted dimension size. -/
theorem gather_stays_in_bounds {α : Type} [Zero α] (input : Tensor α) (axes_ : List Int)
    (keepdims_ : Bool) (s : ReduceState α)
    (hv : ValidAxes input.dims.length axes_) (hpos : ∀ d ∈ input.dims, 0 < d)
    (hwf : input.WellFormed) (hgen : takesFastPath input.dims axes_ = false) :
    (PrepareForReduce input axes_ keepdims_ s).1 = none ∧
    gatherCopy input.dims input.data (transposed_axes input.dims.length axes_)
        (new_dims_ input.dims (transposed_axes input.dims.length axes_))
        (plannedSuffix input.dims axes_).1 (plannedSuffix input.dims axes_).2 input.Size
        (resize s.transposedInputData input.Size)
      = (gatherTrace
          (stride_x (transposed_axes input.dims.length axes_) input.dims
            ((transposed_axes input.dims.length axes_).length - (plannedSuffix input.dims axes_).2))
          (new_dims_ input.dims (transposed_axes input.dims.length axes_))
          ((transposed_axes input.dims.length axes_).length - (plannedSuffix input.dims axes_).2)
          (input.Size / (plannedSuffix input.dims axes_).1) 0
          (List.replicate
            ((transposed_axes input.dims.length axes_).length
              - (plannedSuffix input.dims axes_).2) 0)).foldlM
          (fun buf e => memcpy buf ((plannedSuffix input.dims axes_).1 * e.1) input.data
            ((plannedSuffix input.dims axes_).1 * e.2.2) (plannedSuffix input.dims axes_).1)
          (resize s.transposedInputData input.Size) ∧
    (∃ r, gatherCopy input.dims input.data (transposed_axes input.dims.length axes_)
        (new_dims_ input.dims (transposed_axes input.dims.length axes_))
        (plannedSuffix input.dims axes_).1 (plannedSuffix input.dims axes_).2 input.Size
        (resize s.transposedInputData input.Size) = .ok r) ∧
    ∀ e ∈ gatherTrace
        (stride_x (transposed_axes input.dims.length axes_) input.dims
          ((transposed_axes input.dims.length axes_).length - (plannedSuffix input.dims axes_).2))
        (new_dims_ input.dims (transposed_axes input.dims.length axes_))
        ((transposed_axes input.dims.length axes_).length - (plannedSuffix input.dims axes_).2)
        (input.Size / (plannedSuffix input.dims axes_).1) 0
        (List.replicate
          ((transposed_axes input.dims.length axes_).length
            - (plannedSuffix input.dims axes_).2) 0),
      (plannedSuffix input.dims axes_).1 * e.2.2 + (plannedSuffix input.dims axes_).1
          ≤ input.data.length ∧
      (plannedSuffix input.dims axes_).1 * e.1 + (plannedSuffix input.dims axes_).1
          ≤ (resize s.transposedInputData input.Size).length ∧
      List.Forall₂ (· < ·) e.2.1
        ((new_dims_ input.dims (transposed_axes input.dims.length axes_)).take
          ((transposed_axes input.dims.length axes_).length
            - (plannedSuffix input.dims axes_).2)) := by
  obtain ⟨f1, _, f3, f4, _, _⟩ := suffix_facts input.dims axes_ hv
  have hlen := transposed_axes_length hv
  have hne : ¬ ((transposed_axes input.dims.length axes_).length < 2 ∨
      (sharedLoop (transposed_axes input.dims.length axes_)
        (new_dims_ input.dims (transposed_axes input.dims.length axes_))
        (transposed_axes input.dims.length axes_).length (1, 0)).2
        = (transposed_axes input.dims.length axes_).length) := by
    unfold takesFastPath at hgen
    exact of_decide_eq_false hgen
  have hndpos := new_dims_pos input.dims axes_ hv hpos
  have hbs : (plannedSuffix input.dims axes_).1
      = ((new_dims_ input.dims (transposed_axes input.dims.length axes_)).drop
        ((transposed_axes input.dims.length axes_).length
          - (plannedSuffix input.dims axes_).2)).prod := by
    unfold plannedSuffix
    rw [f3, f4]
  have hbpos : 0 < (plannedSuffix input.dims axes_).1 := by
    rw [hbs]
    exact prod_pos_of_pos (fun d hd => hndpos d (List.mem_of_mem_drop hd))
  refine ⟨?_, gatherCopy_eq_foldlM _ _ _ _ _ _ _ _ hbpos, ?_, ?_⟩
  · rw [PrepareForReduce_general input axes_ keepdims_ s hv hpos hwf hgen]
  · exact ⟨_, gatherCopy_valid input.dims input.data axes_ hv hpos hwf hgen _
      (resize_length _ _)⟩
  · rw [resize_length, hwf]
    apply gatherTrace_aux input.dims _ _ _ _ _ _ (transposeSource input.dims axes_)
    · unfold plannedSuffix; omega
    · simp [new_dims_]
    · exact hndpos
    · exact hbs
    · exact (new_dims_prod input.dims axes_ hv).symm
    · intro index t ht
      exact block_source input.dims axes_ hv index t ht
    · intro p
      exact transposeSource_lt input.dims axes_ hv hpos p

/-- Witness for C18: `dims = [2,3,4]` with reduce axis `1`, six blocks of four
elements. -/
theorem gather_stays_in_bounds_witness :
    (PrepareForReduce (⟨[2, 3, 4], List.replicate 24 1⟩ : Tensor Int) [1] false
        (freshState Int)).1 = none ∧
    (gatherTrace (stride_x (transposed_axes [2, 3, 4].length [1]) [2, 3, 4] 2)
        (new_dims_ [2, 3, 4] (transposed_axes [2, 3, 4].length [1])) 2 6 0 [0, 0]).map
        (fun e => (e.1, e.2.2))
      = [(0, 0), (1, 3), (2, 1), (3, 4), (4, 2), (5, 5)] :=
  ⟨(gather_stays_in_bounds (⟨[2, 3, 4], List.replicate 24 1⟩ : Tensor Int) [1] false
      (freshState Int) (by decide) (by decide) (by decide) (by decide)).1, by decide⟩

/-- C21: the fast path stores the element count narrowed to a 32-bit signed
`int`. For a dense tensor on the fast path with `total_size ≥ 2^31` the
returned `blocks` is `total_size` wrapped modulo `2^32` into
`[-2^31, 2^31)`, and it differs from `total_size`. -/
theorem fast_path_blocks_wrapped {α : Type} [Zero α] (input : Tensor α) (axes_ : List Int)
    (keepdims_ : Bool) (s : ReduceState α)
    (hr : axesInRange input.dims.length axes_ = true) (hwf : input.WellFormed)
    (hfast : takesFastPath input.dims axes_ = true) (hbig : 2 ^ 31 ≤ input.Size) :
    (PrepareForReduce input axes_ keepdims_ s).1 = none ∧
    (PrepareForReduce input axes_ keepdims_ s).2.blocks
      = (((input.Size + 2 ^ 31) % 2 ^ 32 : Nat) : Int) - 2 ^ 31 ∧
    -(2 ^ 31 : Int) ≤ (PrepareForReduce input axes_ keepdims_ s).2.blocks ∧
    (PrepareForReduce input axes_ keepdims_ s).2.blocks < 2 ^ 31 ∧
    (∃ q : Int, (input.Size : Int)
      = (PrepareForReduce input axes_ keepdims_ s).2.blocks + q * 2 ^ 32) ∧
    (PrepareForReduce input axes_ keepdims_ s).2.blocks ≠ (input.Size : Int) := by
  rw [PrepareForReduce_fast input axes_ keepdims_ s hr hwf hfast]
  obtain ⟨h1, h2, h3⟩ := toInt32_range input.Size
  exact ⟨rfl, rfl, h1, h2, h3, toInt32_ne_of_ge hbig⟩

/-- Witness for C21: the `3 × 2^30` tensor with reduce axis `0`; the element
count `3 · 2^30` is returned as `blocks = -2^30`. -/
theorem fast_path_blocks_wrapped_witness :
    (PrepareForReduce (⟨[3, 2 ^ 30], List.replicate (3 * 2 ^ 30) 0⟩ : Tensor Int) [0] false
        (freshState Int)).2.blocks = -(2 ^ 30) := by
  have hwf : (⟨[3, 2 ^ 30], List.replicate (3 * 2 ^ 30) 0⟩ : Tensor Int).WellFormed := by
    unfold Tensor.WellFormed Tensor.Size
    rw [List.length_replicate]
    rfl
  have h := (fast_path_blocks_wrapped (⟨[3, 2 ^ 30], List.replicate (3 * 2 ^ 30) 0⟩ : Tensor Int)
    [0] false (freshState Int) (by decide) hwf (by decide) (by
      show 2 ^ 31 ≤ [3, 2 ^ 30].prod
      decide)).2.1
  rw [h]
  show ((([3, 2 ^ 30].prod + 2 ^ 31) % 2 ^ 32 : Nat) : Int) - 2 ^ 31 = -(2 ^ 30)
  decide

/-- C23: for distinct in-range axes `PrepareForReduce` takes the fast path
exactly when the listed axes are a leading prefix `0, 1, …, k−1` of the axes
for some `k ≤ ndim`; every other axis set takes the general path. In
particular every input with `ndim < 2` takes the fast path. -/
theorem takesFastPath_iff_leading_axes (dims : List Nat) (axes_ : List Int)
    (hv : ValidAxes dims.length axes_) :
    (takesFastPath dims axes_ = true ↔
      ∃ k, k ≤ dims.length ∧ ∀ a : Int, a ∈ axes_ ↔ (0 ≤ a ∧ a < (k : Int))) ∧
    (dims.length < 2 → takesFastPath dims axes_ = true) := by
  have hiff := takesFastPath_iff dims axes_ hv
  have hlen := transposed_axes_length hv
  constructor
  · rw [hiff, transposed_axes_valid hv]
    constructor
    · intro heq
      have hin : (List.range dims.length).filter (fun i : Nat => decide ((i : Int) ∈ axes_))
          = List.range ((List.range dims.length).filter
              (fun i : Nat => decide ((i : Int) ∈ axes_))).length := by
        have h1 := congrArg (List.take ((List.range dims.length).filter
          (fun i : Nat => decide ((i : Int) ∈ axes_))).length) heq
        rw [List.take_left, List.take_range] at h1
        have hle : ((List.range dims.length).filter
            (fun i : Nat => decide ((i : Int) ∈ axes_))).length ≤ dims.length := by
          have := List.length_filter_le (fun i : Nat => decide ((i : Int) ∈ axes_))
            (List.range dims.length)
          simpa using this
        rw [Nat.min_eq_left hle] at h1
        exact h1
      refine ⟨((List.range dims.length).filter
        (fun i : Nat => decide ((i : Int) ∈ axes_))).length, ?_, ?_⟩
      · have := List.length_filter_le (fun i : Nat => decide ((i : Int) ∈ axes_))
          (List.range dims.length)
        simpa using this
      · intro a
        constructor
        · intro ha
          obtain ⟨h0, hn⟩ := hv.2 a ha
          have hmem : a.toNat ∈ (List.range dims.length).filter
              (fun i : Nat => decide ((i : Int) ∈ axes_)) := by
            simp only [List.mem_filter, List.mem_range, decide_eq_true_eq]
            refine ⟨by omega, ?_⟩
            rwa [Int.toNat_of_nonneg h0]
          rw [hin, List.mem_range] at hmem
          omega
        · rintro ⟨h0, hk⟩
          have hmem : a.toNat ∈ List.range ((List.range dims.length).filter
              (fun i : Nat => decide ((i : Int) ∈ axes_))).length := by
            rw [List.mem_range]; omega
          rw [← hin] at hmem
          simp only [List.mem_filter, List.mem_range, decide_eq_true_eq] at hmem
          have := hmem.2
          rwa [Int.toNat_of_nonneg h0] at this
    · rintro ⟨k, _, hk⟩
      apply filter_mem_axes_eq_range (k := k)
      intro i _
      rw [hk]
      omega
  · intro hlt
    rw [hiff]
    have hperm := transposed_axes_perm hv
    rcases Nat.lt_or_ge dims.length 1 with h0 | h1
    · have h0' : dims.length = 0 := by omega
      rw [h0'] at hperm ⊢
      simpa using hperm
    · have h1' : dims.length = 1 := by omega
      rw [h1'] at hperm ⊢
      simpa [List.range_succ] using hperm

/-- Witness for C23: on `dims = [4,2,3]` the axes `[1,0]` are the prefix
`{0,1}` and take the fast path, the axes `[0,2]` are not a prefix and take the
general path. -/
theorem takesFastPath_iff_leading_axes_witness :
    takesFastPath [4, 2, 3] [1, 0] = true ∧ takesFastPath [4, 2, 3] [0, 2] = false ∧
    (takesFastPath [4, 2, 3] [1, 0] = true ↔
      ∃ k, k ≤ [4, 2, 3].length ∧ ∀ a : Int, a ∈ [1, 0] ↔ (0 ≤ a ∧ a < (k : Int))) :=
  ⟨by decide, by decide, (takesFastPath_iff_leading_axes [4, 2, 3] [1, 0] (by decide)).1⟩

/-- C22: with `post_processing` off and exact values, `CompareFloatResult` on
two dense tensors of one shape reads only inside both buffers, returns
`SUCCESS` exactly when every index `di` below the expected element count has
`|expected[di] - real[di]| ≤ per_sample_tolerance +
relative_per_sample_tolerance * |expected[di]|`, and otherwise returns
`RESULT_DIFFERS` with a reported count equal to the number of indices breaking
that bound (out of the expected element count). -/
theorem CompareFloatResult_success_iff {α : Type} [LinearOrderedRing α]
    (outvalue expected_value : Tensor α)
    (per_sample_tolerance relative_per_sample_tolerance : α)
    (hshape : outvalue.dims = expected_value.dims) (hout : outvalue.WellFormed)
    (hexp : expected_value.WellFormed) :
    (∀ di : Nat, di < expected_value.Size →
      di < expected_value.data.length ∧ di < outvalue.data.length) ∧
    ((CompareFloatResult outvalue expected_value per_sample_tolerance
        relative_per_sample_tolerance false).1 = COMPARE_RESULT.SUCCESS ↔
      ∀ di : Nat, di < expected_value.Size →
        |expected_value.data.getD di 0 - outvalue.data.getD di 0| ≤
          per_sample_tolerance +
            relative_per_sample_tolerance * |expected_value.data.getD di 0|) ∧
    ((CompareFloatResult outvalue expected_value per_sample_tolerance
        relative_per_sample_tolerance false).1 ≠ COMPARE_RESULT.SUCCESS →
      (CompareFloatResult outvalue expected_value per_sample_tolerance
        relative_per_sample_tolerance false).1 = COMPARE_RESULT.RESULT_DIFFERS ∧
      (CompareFloatResult outvalue expected_value per_sample_tolerance
        relative_per_sample_tolerance false).2.counts =
        some (((List.range expected_value.Size).filter fun di : Nat =>
            decide (per_sample_tolerance +
                relative_per_sample_tolerance * |expected_value.data.getD di 0| <
              |expected_value.data.getD di 0 - outvalue.data.getD di 0|)).length,
          expected_value.Size)) := by
  obtain ⟨hcount, hfirst⟩ := compareFloat_fold expected_value.data outvalue.data
    per_sample_tolerance relative_per_sample_tolerance (List.range expected_value.Size)
    { first := .SUCCESS, second := none, max_diff := 0, diff_count := 0 }
  have h1 : (CompareFloatResult outvalue expected_value per_sample_tolerance
      relative_per_sample_tolerance false).1 =
      ((List.range expected_value.Size).foldl
        (compareFloatStep expected_value.data outvalue.data per_sample_tolerance
          relative_per_sample_tolerance false)
        { first := .SUCCESS, second := none, max_diff := 0, diff_count := 0 }).first := by
    unfold CompareFloatResult
    dsimp only
    split <;> rfl
  refine ⟨?_, ?_, ?_⟩
  · intro di hdi
    have ho : outvalue.data.length = expected_value.Size := by
      rw [hout, Tensor.Size, hshape, Tensor.Size]
    rw [hexp, ho]
    exact ⟨hdi, hdi⟩
  · rw [h1, hfirst]
    constructor
    · intro h di hdi
      by_contra hlt
      have hmem : di ∈ (List.range expected_value.Size).filter fun di : Nat =>
          decide (per_sample_tolerance +
              relative_per_sample_tolerance * |expected_value.data.getD di 0| <
            |expected_value.data.getD di 0 - outvalue.data.getD di 0|) := by
        rw [List.mem_filter]
        exact ⟨List.mem_range.2 hdi, by simpa using hlt⟩
      have hpos := List.length_pos_of_mem hmem
      rw [if_neg (by omega)] at h
      cases h
    · intro h
      rw [if_pos]
      rw [List.length_eq_zero, List.filter_eq_nil_iff]
      intro di hdi
      have := h di (List.mem_range.1 hdi)
      simpa using this
  · intro hne
    rw [h1] at hne
    have hne2 := hne
    rw [hfirst] at hne2
    constructor
    · rw [h1, hfirst]
      split
      · rename_i hz
        rw [if_pos hz] at hne2
        exact absurd rfl hne2
      · rfl
    · unfold CompareFloatResult
      dsimp only
      rw [if_neg hne]
      dsimp only
      rw [hcount]
      simp

/-- Witness for C22: expected `[10, 20, 30]`, real `[10, 23, 28]`, tolerance
`1` and relative tolerance `0`: two indices break the bound. -/
theorem CompareFloatResult_success_iff_witness :
    (CompareFloatResult (⟨[3], [10, 23, 28]⟩ : Tensor Int) ⟨[3], [10, 20, 30]⟩ 1 0 false).1
        = COMPARE_RESULT.RESULT_DIFFERS ∧
      (CompareFloatResult (⟨[3], [10, 23, 28]⟩ : Tensor Int) ⟨[3], [10, 20, 30]⟩ 1 0 false).2.counts
        = some (2, 3) :=
  (CompareFloatResult_success_iff (⟨[3], [10, 23, 28]⟩ : Tensor Int) ⟨[3], [10, 20, 30]⟩ 1 0
    rfl (by decide) (by decide)).2.2 (by decide)

/-- C27: for `m ≥ 1`, `sf ≥ 1` and `n` a multiple of `sf`, the positions
`(i / sf) * sf * m + i % sf + k * sf` that `DoNormalizeP1` and `DoNormalizeP2`
visit for `i < n`, `k < m` lie below `n * m`, are pairwise different and cover
`[0, n * m)`; in the row-major shape `[n / sf, m, sf]` the position has the
coordinates `[i / sf, k, i % sf]`, so two positions belong to the same slice
exactly when they agree in every coordinate but the one on the normalisation
axis. -/
theorem LpNorm_slices_partition (m n sf : Nat) (hm : 1 ≤ m) (hsf : 1 ≤ sf) (hn : sf ∣ n) :
    (∀ i k, i < n → k < m → LpNorm.stridedIndex m sf i k < n * m) ∧
    (∀ i k i2 k2, i < n → k < m → i2 < n → k2 < m →
      LpNorm.stridedIndex m sf i k = LpNorm.stridedIndex m sf i2 k2 → i = i2 ∧ k = k2) ∧
    (∀ p, p < n * m → ∃ i k, i < n ∧ k < m ∧ LpNorm.stridedIndex m sf i k = p) ∧
    (∀ i k, i < n → k < m →
      unravel [n / sf, m, sf] (LpNorm.stridedIndex m sf i k) = [i / sf, k, i % sf]) ∧
    (∀ i k i2 k2, i < n → k < m → i2 < n → k2 < m →
      (i = i2 ↔
        (unravel [n / sf, m, sf] (LpNorm.stridedIndex m sf i k)).eraseIdx 1 =
          (unravel [n / sf, m, sf] (LpNorm.stridedIndex m sf i2 k2)).eraseIdx 1)) := by
  have hdm : ∀ i : Nat, sf * (i / sf) + i % sf = i := fun i => Nat.div_add_mod i sf
  refine ⟨?_, ?_, ?_, ?_, ?_⟩
  · intro i k hi hk
    rw [LpNorm_stridedIndex_eq_ravel m n sf i k, ← LpNorm_shape_prod m hn]
    exact ravel_lt (LpNorm_coords_bounded hsf hn hi hk)
  · intro i k i2 k2 hi hk hi2 hk2 heq
    have h1 := LpNorm_unravel_stridedIndex hsf hn hi hk
    have h2 := LpNorm_unravel_stridedIndex hsf hn hi2 hk2
    rw [heq, h2] at h1
    simp only [List.cons.injEq, and_true] at h1
    obtain ⟨ha, hk', hc⟩ := h1
    refine ⟨?_, hk'.symm⟩
    rw [← hdm i, ← hdm i2, ha, hc]
  · intro p hp
    have hnpos : 0 < n := Nat.pos_of_ne_zero fun h0 => by simp [h0] at hp
    have hq : 0 < n / sf := Nat.div_pos (Nat.le_of_dvd hnpos hn) (by omega)
    have hpos : ∀ d ∈ [n / sf, m, sf], 0 < d := by
      intro d hd
      simp only [List.mem_cons, List.mem_singleton, List.not_mem_nil, or_false] at hd
      rcases hd with rfl | rfl | rfl <;> omega
    have hb := unravel_bounded hpos p
    have hr := @ravel_unravel [n / sf, m, sf] p (by rw [LpNorm_shape_prod m hn]; exact hp)
    simp only [unravel, List.prod_cons, List.prod_nil, Nat.mul_one, Nat.div_one] at hb hr
    obtain _ | ⟨ha, hb2⟩ := hb
    obtain _ | ⟨hk, hb3⟩ := hb2
    obtain _ | ⟨hc, _⟩ := hb3
    refine ⟨(p / (m * sf)) % (n / sf) * sf + (p % (m * sf) % sf) % sf,
      (p % (m * sf) / sf) % m, ?_, hk, ?_⟩
    · calc (p / (m * sf)) % (n / sf) * sf + (p % (m * sf) % sf) % sf
          < (p / (m * sf)) % (n / sf) * sf + sf := by omega
        _ = ((p / (m * sf)) % (n / sf) + 1) * sf := by ring
        _ ≤ (n / sf) * sf := Nat.mul_le_mul_right _ ha
        _ = n := Nat.div_mul_cancel hn
    · rw [LpNorm_stridedIndex_eq_ravel m n sf]
      have hdiv : ((p / (m * sf)) % (n / sf) * sf + (p % (m * sf) % sf) % sf) / sf
          = (p / (m * sf)) % (n / sf) := by
        rw [Nat.add_comm, Nat.add_mul_div_right _ _ (by omega : 0 < sf),
          Nat.div_eq_of_lt hc, Nat.zero_add]
      have hmod : ((p / (m * sf)) % (n / sf) * sf + (p % (m * sf) % sf) % sf) % sf
          = (p % (m * sf) % sf) % sf := by
        rw [Nat.add_comm, Nat.add_mul_mod_self_right, Nat.mod_mod]
      rw [hdiv, hmod]
      exact hr
  · intro i k hi hk
    exact LpNorm_unravel_stridedIndex hsf hn hi hk
  · intro i k i2 k2 hi hk hi2 hk2
    rw [LpNorm_unravel_stridedIndex hsf hn hi hk, LpNorm_unravel_stridedIndex hsf hn hi2 hk2]
    simp only [List.eraseIdx_cons_succ, List.eraseIdx_cons_zero, List.cons.injEq, and_true]
    constructor
    · intro h
      rw [h]
      exact ⟨rfl, rfl⟩
    · rintro ⟨ha, hc⟩
      rw [← hdm i, ← hdm i2, ha, hc]

/-- Witness for C27: the geometry of shape `[2, 3, 2]` normalised along axis
`1`, that is `m = 3`, `n = 4`, `sf = 2`. -/
theorem LpNorm_slices_partition_witness :
    LpNorm.geometry [2, 3, 2] 1 = (3, 4, 2) ∧
    (∀ i k, i < 4 → k < 3 → LpNorm.stridedIndex 3 2 i k < 4 * 3) ∧
    (∀ p, p < 4 * 3 → ∃ i k, i < 4 ∧ k < 3 ∧ LpNorm.stridedIndex 3 2 i k = p) :=
  ⟨by decide,
    (LpNorm_slices_partition 3 4 2 (by decide) (by decide) (by decide)).1,
    (LpNorm_slices_partition 3 4 2 (by decide) (by decide) (by decide)).2.2.1⟩

/-- C28: `AreShapesEqual` returns true exactly when both shapes have the same
number of dimensions and every expected dimension that carries a value equals
the real dimension at its position; at a position whose expected dimension is
symbolic the real size is free. -/
theorem AreShapesEqual_iff (real_shape : List Int) (expected_shape : List (Option Int)) :
    (AreShapesEqual real_shape expected_shape = true ↔
      real_shape.length = expected_shape.length ∧
        ∀ (i : Nat) (d : Int), expected_shape[i]? = some (some d) → real_shape[i]? = some d) ∧
    (∀ (i : Nat) (v : Int), expected_shape[i]? = some none →
      AreShapesEqual (real_shape.set i v) expected_shape =
        AreShapesEqual real_shape expected_shape) := by
  refine ⟨AreShapesEqual_spec real_shape expected_shape, ?_⟩
  intro i v hi
  rw [Bool.eq_iff_iff, AreShapesEqual_spec, AreShapesEqual_spec, List.length_set]
  have hne : ∀ (j : Nat) (d : Int), expected_shape[j]? = some (some d) → i ≠ j := by
    intro j d hj hij
    rw [hij, hj] at hi
    cases hi
  constructor
  · rintro ⟨hl, h⟩
    refine ⟨hl, fun j d hj => ?_⟩
    have := h j d hj
    rwa [List.getElem?_set_ne (hne j d hj)] at this
  · rintro ⟨hl, h⟩
    refine ⟨hl, fun j d hj => ?_⟩
    rw [List.getElem?_set_ne (hne j d hj)]
    exact h j d hj

end Lotus
